import Mathlib

/-! goff: the flag evaluation pipeline.

A shallow embedding of the evaluation core of the `goff` feature-flag library
(`internal/eval` and the parts of `internal/config` and `pkg/goff` it touches),
followed by theorems about it.

Modelling conventions

* Go `string` values are Lean `String`s, that is, valid UTF-8 text.  Go compares
  strings byte by byte; on valid UTF-8 that order is the order of the code
  points, which is what `strLess` computes.  The bytes fed to the hash are the
  UTF-8 encoding, `utf8Bytes`.
* Go `int` is a 64-bit two's complement integer: values are `Int`, and the
  result of an addition is reduced by `wrapInt`.
* A Go `map[string]T` is an association list whose keys are pairwise distinct;
  the order of the list is the (unspecified) order in which `range` enumerates
  the map.
* A Go run-time panic is the result `none` of an `Option`-valued function.
* Functions of the Go standard library and of third-party packages whose code is
  not part of the repository are either implemented from their published
  algorithm (`xxhash`) or collected in the record `Stdlib`.
-/

namespace Goff

/-! ## Strings -/

/-- Lexicographic comparison of two code-point sequences. -/
def lexLess : List Char → List Char → Bool
  | _, [] => false
  | [], _ :: _ => true
  | a :: as, b :: bs =>
    if a.toNat < b.toNat then true
    else if a.toNat = b.toNat then lexLess as bs
    else false

/-- Go's `s < t` on strings. -/
def strLess (s t : String) : Bool := lexLess s.data t.data

/-- UTF-8 encoding of one code point. -/
def utf8EncodeNat (c : Nat) : List Nat :=
  if c < 0x80 then [c]
  else if c < 0x800 then [0xC0 ||| (c >>> 6), 0x80 ||| (c &&& 0x3F)]
  else if c < 0x10000 then
    [0xE0 ||| (c >>> 12), 0x80 ||| ((c >>> 6) &&& 0x3F), 0x80 ||| (c &&& 0x3F)]
  else
    [0xF0 ||| (c >>> 18), 0x80 ||| ((c >>> 12) &&& 0x3F), 0x80 ||| ((c >>> 6) &&& 0x3F),
      0x80 ||| (c &&& 0x3F)]

/-- The bytes of a Go string. -/
def utf8Bytes (s : String) : List Nat := s.data.flatMap (fun c => utf8EncodeNat c.toNat)

/-! ## Machine integers -/

/-- Reduction of an integer to the range of Go's 64-bit `int`. -/
def wrapInt (x : Int) : Int := (x + 2 ^ 63) % 2 ^ 64 - 2 ^ 63

/-- Range of Go's 64-bit `int`. -/
def inIntRange (x : Int) : Prop := -(2 ^ 63) ≤ x ∧ x < 2 ^ 63

instance (x : Int) : Decidable (inIntRange x) := by unfold inIntRange; infer_instance

/-! ## xxhash (github.com/cespare/xxhash/v2), 64-bit, seed 0 -/

namespace xxhash

/-- The five multipliers of the algorithm. -/
def prime1 : Nat := 11400714785074694791
def prime2 : Nat := 14029467366897019727
def prime3 : Nat := 1609587929392839161
def prime4 : Nat := 9650029242287828579
def prime5 : Nat := 2870177450012600261

/-- Modulus of `uint64` arithmetic. -/
def two64 : Nat := 2 ^ 64

/-- Rotate a 64-bit word left by `r` bits (`bits.RotateLeft64`), `0 < r < 64`. -/
def rol (x r : Nat) : Nat := ((x <<< r) ||| (x >>> (64 - r))) % two64

/-- Little-endian value of a byte sequence. -/
def readLE (bs : List Nat) : Nat := bs.foldr (fun b acc => b + 256 * acc) 0

/-- One accumulation step of a lane. -/
def round (acc input : Nat) : Nat :=
  (rol ((acc + input * prime2) % two64) 31 * prime1) % two64

/-- Merge one lane into the converged hash. -/
def mergeRound (acc val : Nat) : Nat :=
  (((acc ^^^ round 0 val) * prime1) + prime4) % two64

/-- Consume all complete 32-byte blocks, returning the four lanes and the
remaining bytes. -/
def blocks : List Nat → Nat × Nat × Nat × Nat → (Nat × Nat × Nat × Nat) × List Nat
  | b0 :: b1 :: b2 :: b3 :: b4 :: b5 :: b6 :: b7 :: b8 :: b9 :: b10 :: b11 :: b12 :: b13 ::
      b14 :: b15 :: b16 :: b17 :: b18 :: b19 :: b20 :: b21 :: b22 :: b23 :: b24 :: b25 ::
      b26 :: b27 :: b28 :: b29 :: b30 :: b31 :: rest, (v1, v2, v3, v4) =>
    blocks rest
      (round v1 (readLE [b0, b1, b2, b3, b4, b5, b6, b7]),
       round v2 (readLE [b8, b9, b10, b11, b12, b13, b14, b15]),
       round v3 (readLE [b16, b17, b18, b19, b20, b21, b22, b23]),
       round v4 (readLE [b24, b25, b26, b27, b28, b29, b30, b31]))
  | bs, v => (v, bs)

/-- Consume all complete 8-byte words of the tail. -/
def tail8 : List Nat → Nat → Nat × List Nat
  | b0 :: b1 :: b2 :: b3 :: b4 :: b5 :: b6 :: b7 :: rest, h =>
    tail8 rest
      ((rol (h ^^^ round 0 (readLE [b0, b1, b2, b3, b4, b5, b6, b7])) 27 * prime1 + prime4)
        % two64)
  | bs, h => (h, bs)

/-- Consume one 4-byte word of the tail, if there is one. -/
def tail4 : List Nat → Nat → Nat × List Nat
  | b0 :: b1 :: b2 :: b3 :: rest, h =>
    ((rol (h ^^^ ((readLE [b0, b1, b2, b3] * prime1) % two64)) 23 * prime2 + prime3) % two64,
      rest)
  | bs, h => (h, bs)

/-- Consume the remaining bytes one at a time. -/
def tail1 : List Nat → Nat → Nat
  | [], h => h
  | b :: rest, h => tail1 rest ((rol (h ^^^ ((b * prime5) % two64)) 11 * prime1) % two64)

/-- The final mixing of the bits. -/
def avalanche (h : Nat) : Nat :=
  let h1 := h ^^^ (h >>> 33)
  let h2 := (h1 * prime2) % two64
  let h3 := h2 ^^^ (h2 >>> 29)
  let h4 := (h3 * prime3) % two64
  h4 ^^^ (h4 >>> 32)

/-- The 64-bit xxHash, seed 0, of a byte sequence (`xxhash.Sum64`). -/
def sum64 (bs : List Nat) : Nat :=
  let n := bs.length
  let start : Nat × List Nat :=
    if 32 ≤ n then
      let r := blocks bs ((prime1 + prime2) % two64, prime2, 0, two64 - prime1)
      let v1 := r.1.1
      let v2 := r.1.2.1
      let v3 := r.1.2.2.1
      let v4 := r.1.2.2.2
      let h := (rol v1 1 + rol v2 7 + rol v3 12 + rol v4 18) % two64
      (mergeRound (mergeRound (mergeRound (mergeRound h v1) v2) v3) v4, r.2)
    else (prime5, bs)
  let s8 := tail8 start.2 ((start.1 + n) % two64)
  let s4 := tail4 s8.2 s8.1
  avalanche (tail1 s4.2 s4.1)

/-- A streaming digest (`xxhash.Digest`): the bytes written so far. -/
structure Digest where
  written : List Nat

/-- Transcription of `xxhash.New`. -/
def New : Digest := ⟨[]⟩

/-- Transcription of `(*Digest).Write`. -/
def Digest.Write (d : Digest) (p : List Nat) : Digest := ⟨d.written ++ p⟩

/-- Transcription of `(*Digest).WriteString`. -/
def Digest.WriteString (d : Digest) (s : String) : Digest := d.Write (utf8Bytes s)

/-- Transcription of `(*Digest).Sum64`. -/
def Digest.Sum64 (d : Digest) : Nat := sum64 d.written

end xxhash

/-! ## internal/eval/bucket.go -/

/-- The eight bytes of the salt, least significant first
(`saltBytes[i] = byte(salt >> (i * 8))`). -/
def saltBytes (salt : Nat) : List Nat :=
  (List.range 8).map (fun i => (salt >>> (i * 8)) % 256)

/-- Transcription of `HashFlagContext`. -/
def HashFlagContext (flagKey contextKey : String) (salt : Nat) : Int :=
  let h0 := xxhash.New
  let h1 := h0.WriteString flagKey
  let h2 := h1.Write [0x1f]
  let h3 := h2.WriteString contextKey
  let h4 := if salt ≠ 0 then h3.Write (saltBytes salt) else h3
  let hash := h4.Sum64
  Int.ofNat (hash % 100)

/-! ## Go values of interface type -/

/-- The integer types of Go. -/
inductive IntKind
  | int | int8 | int16 | int32 | int64
  | uint | uint8 | uint16 | uint32 | uint64
  deriving DecidableEq

/-- A `float64`: not-a-number, an infinity, or the finite value
`(-1)^neg * m * 2^e`.  Negative zero is `fin true 0 e`. -/
inductive F64
  | nan
  | inf (neg : Bool)
  | fin (neg : Bool) (m : Nat) (e : Int)
  deriving DecidableEq

namespace F64

/-- The finite value `(-1)^neg * m * 2^e` in units of `2^base`, for `base ≤ e`. -/
def scaled (neg : Bool) (m : Nat) (e base : Int) : Int :=
  let a : Int := Int.ofNat (m * 2 ^ (e - base).toNat)
  if neg then -a else a

/-- The comparison `a == b` of IEEE 754: false on NaN, the two zeros are equal. -/
def eq : F64 → F64 → Bool
  | nan, _ => false
  | _, nan => false
  | inf n1, inf n2 => n1 == n2
  | inf _, fin _ _ _ => false
  | fin _ _ _, inf _ => false
  | fin n1 m1 e1, fin n2 m2 e2 =>
    decide (scaled n1 m1 e1 (min e1 e2) = scaled n2 m2 e2 (min e1 e2))

/-- The comparison `a < b` of IEEE 754: false on NaN. -/
def lt : F64 → F64 → Bool
  | nan, _ => false
  | _, nan => false
  | inf n1, inf n2 => n1 && !n2
  | inf n1, fin _ _ _ => n1
  | fin _ _ _, inf n2 => !n2
  | fin n1 m1 e1, fin n2 m2 e2 =>
    decide (scaled n1 m1 e1 (min e1 e2) < scaled n2 m2 e2 (min e1 e2))

/-- Number of binary digits of `a`, computed with `fuel` halvings at most. -/
def bitLen : Nat → Nat → Nat
  | 0, _ => 0
  | fuel + 1, a => if a = 0 then 0 else bitLen fuel (a / 2) + 1

/-- The conversion `float64(n)` of an integer: exact below `2^53`, otherwise
rounded to 53 significant bits, ties to even. -/
def ofInt (n : Int) : F64 :=
  let a := n.natAbs
  let bits := bitLen a a
  if bits ≤ 53 then fin (decide (n < 0)) a 0
  else
    let sh := bits - 53
    let q := a >>> sh
    let r := a % 2 ^ sh
    let half := 2 ^ (sh - 1)
    let q1 := if half < r ∨ (r = half ∧ q % 2 = 1) then q + 1 else q
    fin (decide (n < 0)) q1 (Int.ofNat sh)

end F64

/-- A value of Go's `any`, restricted to the dynamic types that evaluation
distinguishes and that a decoded configuration or a caller's attribute map
holds: the nil interface, booleans, the integer and floating types, strings,
`[]interface{}` and `map[string]interface{}`. -/
inductive Value
  | nil
  | bool (b : Bool)
  | int (k : IntKind) (n : Int)
  | float32 (f : F64)
  | float64 (f : F64)
  | str (s : String)
  | slice (xs : List Value)
  | map (m : List (String × Value))

/-- A compiled regular expression (`*regexp.Regexp`), seen through its
`MatchString` method. -/
structure Regexp where
  MatchString : String → Bool

/-- Library functions whose code is outside the repository. -/
structure Stdlib where
  /-- Result of `strconv.ParseFloat(s, 64)`; `none` when it returns an error. -/
  ParseFloat : String → Option F64
  /-- Result of `fmt.Sprintf("%v", x)` for a `float64` (`bits = 64`) or a
  `float32` (`bits = 32`). -/
  FormatFloat : Nat → F64 → String
  /-- Result of `regexp.Compile(pattern)`; `none` when it returns an error. -/
  RegexpCompile : String → Option Regexp

/-- Go's `a == b` on two interface values; `none` is the run-time panic raised
when both hold the same uncomparable dynamic type. -/
def ifaceEq : Value → Value → Option Bool
  | .nil, .nil => some true
  | .bool a, .bool b => some (a == b)
  | .int k a, .int j b => some (decide (k = j) && decide (a = b))
  | .float32 a, .float32 b => some (F64.eq a b)
  | .float64 a, .float64 b => some (F64.eq a b)
  | .str a, .str b => some (decide (a = b))
  | .slice _, .slice _ => none
  | .map _, .map _ => none
  | _, _ => some false

/-- Insert a map entry into a list of entries sorted by key. -/
def insertField (f : String × String) : List (String × String) → List (String × String)
  | [] => [f]
  | g :: gs => if strLess g.1 f.1 then g :: insertField f gs else f :: g :: gs

/-- Join strings with single spaces. -/
def joinSpace : List String → String
  | [] => ""
  | [s] => s
  | s :: ss => s ++ " " ++ joinSpace ss

mutual
/-- Result of `fmt.Sprintf("%v", v)`. -/
def sprintV (L : Stdlib) : Value → String
  | .nil => "<nil>"
  | .bool b => if b then "true" else "false"
  | .int _ n => toString n
  | .float32 f => L.FormatFloat 32 f
  | .float64 f => L.FormatFloat 64 f
  | .str s => s
  | .slice xs => "[" ++ joinSpace (sprintVs L xs) ++ "]"
  | .map m =>
    "map[" ++ joinSpace (((sprintFs L m).foldr insertField []).map (fun f => f.1 ++ ":" ++ f.2))
      ++ "]"
/-- The elements of a slice, each formatted with `%v`. -/
def sprintVs (L : Stdlib) : List Value → List String
  | [] => []
  | v :: vs => sprintV L v :: sprintVs L vs
/-- The entries of a map, each value formatted with `%v`. -/
def sprintFs (L : Stdlib) : List (String × Value) → List (String × String)
  | [] => []
  | (k, v) :: fs => (k, sprintV L v) :: sprintFs L fs
end

/-- Whether `p` is an initial segment of `s`. -/
def startsWith : List Char → List Char → Bool
  | _, [] => true
  | [], _ :: _ => false
  | c :: cs, d :: ds => decide (c.toNat = d.toNat) && startsWith cs ds

/-- Whether `sub` occurs in `s`. -/
def containsChars : List Char → List Char → Bool
  | [], sub => sub.isEmpty
  | c :: cs, sub => startsWith (c :: cs) sub || containsChars cs sub

/-- Go's `strings.Contains(s, substr)`. -/
def stringsContains (s substr : String) : Bool := containsChars s.data substr.data

/-! ## internal/eval/operators.go -/

/-- The result `(bool, error)` of an operator: the error is `none` for `nil`
and `some msg` otherwise. -/
abbrev OpResult := Bool × Option String

/-- Transcription of `toFloat64`: the number and the `ok` flag. -/
def toFloat64 (L : Stdlib) : Value → F64 × Bool
  | .float64 n => (n, true)
  | .float32 n => (n, true)
  | .int _ n => (F64.ofInt n, true)
  | .str n =>
    match L.ParseFloat n with
    | none => (F64.fin false 0 0, false)
    | some f => (f, true)
  | _ => (F64.fin false 0 0, false)

/-- Transcription of `eq`; `none` is the panic of the direct comparison. -/
def eq (L : Stdlib) (attrValue opValue : Value) : Option OpResult :=
  match ifaceEq attrValue opValue with
  | none => none
  | some true => some (true, none)
  | some false =>
    let a := toFloat64 L attrValue
    let o := toFloat64 L opValue
    if a.2 && o.2 then some (F64.eq a.1 o.1, none)
    else some (decide (sprintV L attrValue = sprintV L opValue), none)

/-- Transcription of `compare`. -/
def compare (L : Stdlib) (attrValue opValue : Value) (allowedResults : List Int) : OpResult :=
  let a := toFloat64 L attrValue
  let o := toFloat64 L opValue
  if !a.2 || !o.2 then (false, some "comparison operators require numeric values")
  else
    let result : Int := if F64.lt o.1 a.1 then 1 else if F64.lt a.1 o.1 then -1 else 0
    (allowedResults.any (fun allowed => decide (result = allowed)), none)

/-- Transcription of `in`. -/
def in_ (L : Stdlib) (attrValue opValue : Value) : OpResult :=
  match opValue with
  | .slice opSlice =>
    ((sprintVs L opSlice).any (fun s => decide (s = sprintV L attrValue)), none)
  | _ => (false, some "'in' operator requires array value")

/-- Transcription of `contains`. -/
def contains (L : Stdlib) (attrValue opValue : Value) : OpResult :=
  (stringsContains (sprintV L attrValue) (sprintV L opValue), none)

/-- Transcription of `matches`. -/
def matches_ (L : Stdlib) (attrValue : Value) (regex : Option Regexp) : OpResult :=
  match regex with
  | none => (false, some "regex not compiled")
  | some r => (r.MatchString (sprintV L attrValue), none)

/-- Transcription of `EvalOperator`; `none` is a run-time panic. -/
def EvalOperator (L : Stdlib) (attrValue : Value) (op : String) (opValue : Value)
    (compiledRegex : Option Regexp) : Option OpResult :=
  if op = "eq" then eq L attrValue opValue
  else if op = "neq" then
    match eq L attrValue opValue with
    | none => none
    | some r => some (!r.1, r.2)
  else if op = "gt" then some (compare L attrValue opValue [1])
  else if op = "gte" then some (compare L attrValue opValue [0, 1])
  else if op = "lt" then some (compare L attrValue opValue [-1])
  else if op = "lte" then some (compare L attrValue opValue [-1, 0])
  else if op = "in" then some (in_ L attrValue opValue)
  else if op = "contains" then some (contains L attrValue opValue)
  else if op = "matches" then some (matches_ L attrValue compiledRegex)
  else some (false, some ("unknown operator: " ++ op))

/-! ## internal/config/compile.go: the compiled configuration -/

/-- A variant table `map[string]int`: variant name and percentage weight. -/
abbrev VariantTable := List (String × Int)

/-- The names of a variant table. -/
def VariantTable.names (t : VariantTable) : List String := t.map Prod.fst

/-- The weights of a variant table. -/
def VariantTable.weights (t : VariantTable) : List Int := t.map Prod.snd

/-- Transcription of `CompiledCondition`; a nil `Regex` is `none`. -/
structure CompiledCondition where
  Attr : String
  Op : String
  Value : Value
  Regex : Option Regexp
  IsAll : Bool

/-- Transcription of `CompiledRule`.  `Conditions` holds the conditions
themselves: `Compile` never stores a nil pointer. -/
structure CompiledRule where
  Conditions : List CompiledCondition
  Variants : VariantTable

/-- Transcription of `CompiledFlag`.  A nil `Default` is `Value.nil`; `Rules`
holds the rules themselves: `Compile` never stores a nil pointer. -/
structure CompiledFlag where
  Enabled : Bool
  Type_ : String
  Variants : VariantTable
  Rules : List CompiledRule
  Default : Value

/-- Transcription of `Compiled`. -/
structure Compiled where
  Flags : List (String × CompiledFlag)

/-! ## internal/eval/reason.go -/

/-- Transcription of `Reason`. -/
inductive Reason
  | Match
  | Percent
  | Default
  | Disabled
  | Missing
  | Error
  deriving DecidableEq

/-! ## internal/eval/rules.go -/

/-- Transcription of `Context`. -/
structure Context where
  Key : String
  Attrs : List (String × Value)

/-- The `for` loop of `EvalRule`: the values of `allMatch` and `anyMatch` when
the loop is left, or `none` if an operator panics. -/
def evalConditions (L : Stdlib) (ctx : Context) :
    List CompiledCondition → Bool → Bool → Option (Bool × Bool)
  | [], allMatch, anyMatch => some (allMatch, anyMatch)
  | cond :: rest, allMatch, anyMatch =>
    match ctx.Attrs.lookup cond.Attr with
    | none =>
      if cond.IsAll then some (false, anyMatch)
      else evalConditions L ctx rest allMatch anyMatch
    | some attrValue =>
      match EvalOperator L attrValue cond.Op cond.Value cond.Regex with
      | none => none
      | some (_, some _) =>
        if cond.IsAll then some (false, anyMatch)
        else evalConditions L ctx rest allMatch anyMatch
      | some (true, none) =>
        if !cond.IsAll then some (allMatch, true)
        else evalConditions L ctx rest allMatch true
      | some (false, none) =>
        if cond.IsAll then some (false, anyMatch)
        else evalConditions L ctx rest allMatch anyMatch

/-- Transcription of `EvalRule`; `none` is a run-time panic. -/
def EvalRule (L : Stdlib) (rule : CompiledRule) (ctx : Context) : Option Bool :=
  match rule.Conditions with
  | [] => some false
  | first :: _ =>
    match evalConditions L ctx rule.Conditions true false with
    | none => none
    | some (allMatch, anyMatch) => some (if first.IsAll then allMatch else anyMatch)

/-! ## internal/eval/flag.go -/

/-- The local type `variantPct` of `selectVariantBool` and `selectVariantString`. -/
structure variantPct where
  variant : String
  pct : Int
  deriving DecidableEq

/-- Insert an entry into a list ordered by `variant`. -/
def insertVariant (v : variantPct) : List variantPct → List variantPct
  | [] => [v]
  | w :: ws => if strLess w.variant v.variant then w :: insertVariant v ws else v :: w :: ws

/-- The call `sort.Slice(sorted, less)` with `less(i, j) = sorted[i].variant <
sorted[j].variant`.  The names of a map are pairwise distinct, so the sorted
order is unique and any sorting procedure computes it. -/
def sortSlice : List variantPct → List variantPct
  | [] => []
  | v :: vs => insertVariant v (sortSlice vs)

/-- The slice `sorted` of `selectVariantBool` and `selectVariantString`: the
entries of the map in enumeration order, then sorted by name. -/
def sortedVariants (variants : VariantTable) : List variantPct :=
  sortSlice (variants.map (fun e => ⟨e.1, e.2⟩))

/-- The cumulative loop of `selectVariantBool`, entered with the running sum
`cumulative`. -/
def walkBool (bucket : Int) (d : Bool) : List variantPct → Int → Bool × Reason
  | [], _ => (d, Reason.Percent)
  | v :: rest, cumulative =>
    let cumulative1 := wrapInt (cumulative + v.pct)
    if bucket < cumulative1 then
      if v.variant = "true" then (true, Reason.Match) else (false, Reason.Match)
    else walkBool bucket d rest cumulative1

/-- The cumulative loop of `selectVariantString`, entered with the running sum
`cumulative`. -/
def walkString (bucket : Int) (d : String) : List variantPct → Int → String × Reason
  | [], _ => (d, Reason.Percent)
  | v :: rest, cumulative =>
    let cumulative1 := wrapInt (cumulative + v.pct)
    if bucket < cumulative1 then (v.variant, Reason.Match)
    else walkString bucket d rest cumulative1

/-- Transcription of `selectVariantBool`. -/
def selectVariantBool (flagKey contextKey : String) (variants : VariantTable) (d : Bool) :
    Bool × Reason :=
  if variants.length = 0 then (d, Reason.Default)
  else
    let bucket := HashFlagContext flagKey contextKey 0
    walkBool bucket d (sortedVariants variants) 0

/-- Transcription of `selectVariantString`. -/
def selectVariantString (flagKey contextKey : String) (variants : VariantTable) (d : String) :
    String × Reason :=
  if variants.length = 0 then (d, Reason.Default)
  else
    let bucket := HashFlagContext flagKey contextKey 0
    walkString bucket d (sortedVariants variants) 0

/-- The rule loop of `EvalBool`: the result returned from inside the loop, or
`some none` when the loop ends without a match; the outer `none` is a panic. -/
def rulesBool (L : Stdlib) (flagKey : String) (ctx : Context) (d : Bool) :
    List CompiledRule → Option (Option (Bool × Reason))
  | [] => some none
  | rule :: rest =>
    match EvalRule L rule ctx with
    | none => none
    | some true => some (some (selectVariantBool flagKey ctx.Key rule.Variants d))
    | some false => rulesBool L flagKey ctx d rest

/-- The rule loop of `EvalString`. -/
def rulesString (L : Stdlib) (flagKey : String) (ctx : Context) (d : String) :
    List CompiledRule → Option (Option (String × Reason))
  | [] => some none
  | rule :: rest =>
    match EvalRule L rule ctx with
    | none => none
    | some true => some (some (selectVariantString flagKey ctx.Key rule.Variants d))
    | some false => rulesString L flagKey ctx d rest

/-- Transcription of `EvalBool`; the flag `none` is the nil pointer, the result
`none` a run-time panic. -/
def EvalBool (L : Stdlib) (flag : Option CompiledFlag) (flagKey : String) (ctx : Context)
    (d : Bool) : Option (Bool × Reason) :=
  match flag with
  | none => some (d, Reason.Missing)
  | some flag =>
    if !flag.Enabled then
      match flag.Default with
      | .bool b => some (b, Reason.Disabled)
      | _ => some (d, Reason.Disabled)
    else
      match rulesBool L flagKey ctx d flag.Rules with
      | none => none
      | some (some r) => some r
      | some none =>
        if flag.Variants.length > 0 then
          some (selectVariantBool flagKey ctx.Key flag.Variants d)
        else
          match flag.Default with
          | .bool b => some (b, Reason.Default)
          | _ => some (d, Reason.Default)

/-- Transcription of `EvalString`. -/
def EvalString (L : Stdlib) (flag : Option CompiledFlag) (flagKey : String) (ctx : Context)
    (d : String) : Option (String × Reason) :=
  match flag with
  | none => some (d, Reason.Missing)
  | some flag =>
    if !flag.Enabled then
      match flag.Default with
      | .str s => some (s, Reason.Disabled)
      | _ => some (d, Reason.Disabled)
    else
      match rulesString L flagKey ctx d flag.Rules with
      | none => none
      | some (some r) => some r
      | some none =>
        if flag.Variants.length > 0 then
          some (selectVariantString flagKey ctx.Key flag.Variants d)
        else
          match flag.Default with
          | .str s => some (s, Reason.Default)
          | _ => some (d, Reason.Default)

/-! ## pkg/goff/client.go -/

/-- One invocation of the `AfterEval` hook. -/
structure HookCall where
  flag : String
  variant : String
  reason : Reason
  deriving DecidableEq

/-- The fields of `client` that an evaluation reads: the snapshot returned by
`c.config.Load()` (`none` for nil) and whether an `AfterEval` hook is
installed. -/
structure client where
  config : Option Compiled
  hasAfterEval : Bool

/-- Transcription of `(*client).Boolean`: the returned value and the hook
invocations made, or `none` for a run-time panic. -/
def client.Boolean (L : Stdlib) (c : client) (key : String) (ctx : Context) (d : Bool) :
    Option (Bool × List HookCall) :=
  match c.config with
  | none => some (d, [])
  | some compiled =>
    let flag := compiled.Flags.lookup key
    match EvalBool L flag key ctx d with
    | none => none
    | some (result, reason) =>
      if c.hasAfterEval then
        some (result, [⟨key, if result then "true" else "false", reason⟩])
      else some (result, [])

/-- Transcription of `(*client).String`. -/
def client.String (L : Stdlib) (c : client) (key : String) (ctx : Context) (d : String) :
    Option (String × List HookCall) :=
  match c.config with
  | none => some (d, [])
  | some compiled =>
    let flag := compiled.Flags.lookup key
    match EvalString L flag key ctx d with
    | none => none
    | some (result, reason) =>
      if c.hasAfterEval then some (result, [⟨key, result, reason⟩])
      else some (result, [])

/-! ## Vocabulary of the specification -/

/-- The flag's own boolean default when it is present and is a boolean, the
caller-supplied default otherwise. -/
def typedDefaultBool (flagDefault : Value) (callerDefault : Bool) : Bool :=
  match flagDefault with
  | .bool b => b
  | _ => callerDefault

/-- The flag's own string default when it is present and is a string, the
caller-supplied default otherwise. -/
def typedDefaultString (flagDefault : Value) (callerDefault : String) : String :=
  match flagDefault with
  | .str s => s
  | _ => callerDefault

/-- A condition is satisfied in a context: its attribute is present and
`EvalOperator` returns a match and no error. -/
def condHolds (L : Stdlib) (ctx : Context) (c : CompiledCondition) : Prop :=
  ∃ v, ctx.Attrs.lookup c.Attr = some v ∧
    EvalOperator L v c.Op c.Value c.Regex = some (true, none)

/-- A condition fails in a context: its attribute is missing, or
`EvalOperator` returns an error, or it returns no match. -/
def condFails (L : Stdlib) (ctx : Context) (c : CompiledCondition) : Prop :=
  ctx.Attrs.lookup c.Attr = none ∨
    ∃ v r, ctx.Attrs.lookup c.Attr = some v ∧
      EvalOperator L v c.Op c.Value c.Regex = some r ∧ (r.2 ≠ none ∨ r.1 = false)

/-- The cumulative weight of a variant name in a table: its own weight plus the
weights of all lexicographically smaller names, the sum being taken in Go's
64-bit `int` arithmetic (it is the plain sum whenever that lies in the `int`
range). -/
def cumulativeWeight (t : VariantTable) (name : String) : Int :=
  wrapInt ((t.filter (fun e => !strLess name e.1)).map Prod.snd).sum

/-- The running sum of the cumulative loop when it has passed the entries of
`l` up to the name `name`, the loop having been entered with `c`. -/
def cumFrom (c : Int) (l : List variantPct) (name : String) : Int :=
  wrapInt (c + ((l.filter (fun e => !strLess name e.variant)).map variantPct.pct).sum)

/-- Order of two entries by name. -/
def variantLE (a b : variantPct) : Prop := strLess b.variant a.variant = false

/-- Strict order of two entries by name. -/
def variantLT (a b : variantPct) : Prop := strLess a.variant b.variant = true

instance : DecidableRel variantLE := fun a b => by unfold variantLE; infer_instance

/-- A library instance used to evaluate examples: no string parses as a
number, floats print as `"?"`, no pattern compiles. -/
def sampleLib : Stdlib := ⟨fun _ => none, fun _ _ => "?", fun _ => none⟩

/-- Two rules that differ at most in the order in which their variant table is
enumerated. -/
def sameRule (r r2 : CompiledRule) : Prop :=
  r.Conditions = r2.Conditions ∧ r.Variants.Perm r2.Variants ∧ r.Variants.names.Nodup

/-! ## Sample data, taken from the tests of the repository -/

/-- The flag-level table of `TestEvalBool_Enabled`. -/
def halfTable : VariantTable := [("true", 50), ("false", 50)]

/-- The rule table of `TestEvalBool_WithRule`. -/
def allTrueTable : VariantTable := [("true", 100), ("false", 0)]

/-- The flag-level table of `TestEvalString_Enabled`. -/
def colourTable : VariantTable := [("red", 50), ("blue", 30), ("green", 20)]

/-- The rule of `TestEvalBool_WithRule`. -/
def planRule : CompiledRule :=
  ⟨[⟨"plan", "eq", .str "pro", none, true⟩], allTrueTable⟩

/-- The rule of `TestEvalRule_AllConditions`. -/
def planRegionRule : CompiledRule :=
  ⟨[⟨"plan", "eq", .str "pro", none, true⟩, ⟨"region", "eq", .str "us", none, true⟩],
    [("true", 100)]⟩

/-- A context with `plan = "pro"`. -/
def proCtx : Context := ⟨"user:1", [("plan", .str "pro")]⟩

/-- The context of `TestEvalRule_AllConditions`. -/
def proUsCtx : Context := ⟨"user:1", [("plan", .str "pro"), ("region", .str "us")]⟩

/-- A context without attributes. -/
def bareCtx : Context := ⟨"user:1", []⟩

/-- A snapshot holding the single flag `new_checkout`. -/
def sampleCompiled : Compiled :=
  ⟨[("new_checkout", ⟨true, "bool", halfTable, [planRule], .bool false⟩)]⟩

/-! ## internal/config/config.go -/

/-- Transcription of `AttributeCondition`. -/
structure AttributeCondition where
  Attr : String
  Op : String
  Value : Value

/-- Transcription of `WhenCondition`. -/
structure WhenCondition where
  All : List AttributeCondition
  Any : List AttributeCondition

/-- Transcription of `ThenAction`. -/
structure ThenAction where
  Variants : VariantTable

/-- Transcription of `Rule`. -/
structure Rule where
  When : WhenCondition
  Then : ThenAction

/-- Transcription of `Flag`; an absent `Default` is `Value.nil`. -/
structure Flag where
  Enabled : Bool
  Type_ : String
  Variants : VariantTable
  Rules : List Rule
  Default : Value

/-- Transcription of `Config`. -/
structure Config where
  Version : Int
  Flags : List (String × Flag)

/-- The errors that `Rule.Validate` returns, one constructor for each
`fmt.Errorf` of the function, with the values that its message prints. -/
inductive RuleError
  /-- The message "rule must have 'all' or 'any' condition". -/
  | noCondition
  /-- The message "rule cannot have both 'all' and 'any' conditions". -/
  | bothConditions
  /-- The message "condition %d: attr is required". -/
  | attrRequired (i : Nat)
  /-- The message "condition %d: invalid operator %q". -/
  | invalidOperator (i : Nat) (op : String)
  /-- The message "condition %d: 'matches' operator requires string value". -/
  | matchesNeedsString (i : Nat)
  /-- The message "condition %d: invalid regex pattern %q: %w". -/
  | invalidRegex (i : Nat) (pattern : String)
  /-- The message "rule must have 'then.variants'". -/
  | noVariants
  deriving DecidableEq

/-- The errors that `Flag.Validate` returns, one constructor for each
`fmt.Errorf` of the function, with the values that its message prints. -/
inductive FlagError
  /-- The message "invalid type %q (must be 'bool' or 'string')". -/
  | invalidType (ty : String)
  /-- The message "default must be bool for bool flags, got %T". -/
  | defaultNotBool
  /-- The message "default must be string for string flags, got %T". -/
  | defaultNotString
  /-- The message "bool flag variants must be 'true' or 'false', got %q". -/
  | boolVariantKey (k : String)
  /-- The message "variant %q percentage must be 0-100, got %d". -/
  | variantRange (k : String) (v : Int)
  /-- The message "bool flag must have both 'true' and 'false' variants". -/
  | boolNeedsBoth
  /-- The message "bool flag variant percentages must sum to 100, got %d". -/
  | boolSum (total : Int)
  /-- The message "string flag variant percentages must sum to 100, got %d". -/
  | stringSum (total : Int)
  /-- The message "rule %d: %w" wrapping an error of `Rule.Validate`. -/
  | rule (i : Nat) (e : RuleError)
  /-- The message "rule %d: bool flag variants must be 'true' or 'false', got %q". -/
  | ruleBoolVariantKey (i : Nat) (k : String)
  /-- The message "rule %d: variant %q percentage must be 0-100, got %d". -/
  | ruleVariantRange (i : Nat) (k : String) (v : Int)
  /-- The message "rule %d: bool flag variant percentages must sum to 100, got %d". -/
  | ruleBoolSum (i : Nat) (total : Int)
  /-- The message "rule %d: string flag variant percentages must sum to 100, got %d". -/
  | ruleStringSum (i : Nat) (total : Int)
  deriving DecidableEq

/-- The errors that `Config.Validate` returns. -/
inductive ConfigError
  /-- The message "unsupported config version: %d (expected 1)". -/
  | unsupportedVersion (v : Int)
  /-- The message "no flags defined". -/
  | noFlags
  /-- The message "flag %q: %w" wrapping an error of `Flag.Validate`. -/
  | flag (key : String) (e : FlagError)
  deriving DecidableEq

/-- The keys of the map `validOps` of `Rule.Validate`. -/
def validOps : List String :=
  ["eq", "neq", "gt", "gte", "lt", "lte", "in", "contains", "matches"]

/-- The loop of `Rule.Validate` over the conditions, `i` being the index of the
first condition of the list; `none` is a completed loop. -/
def validateConditions (L : Stdlib) : List AttributeCondition → Nat → Option RuleError
  | [], _ => none
  | cond :: rest, i =>
    if cond.Attr = "" then some (.attrRequired i)
    else if !validOps.contains cond.Op then some (.invalidOperator i cond.Op)
    else if cond.Op = "matches" then
      match cond.Value with
      | .str pattern =>
        match L.RegexpCompile pattern with
        | none => some (.invalidRegex i pattern)
        | some _ => validateConditions L rest (i + 1)
      | _ => some (.matchesNeedsString i)
    else validateConditions L rest (i + 1)

/-- Transcription of `(*Rule).Validate`; the result `none` is the nil error. -/
def Rule.Validate (L : Stdlib) (r : Rule) : Option RuleError :=
  let hasAll := decide (r.When.All.length > 0)
  let hasAny := decide (r.When.Any.length > 0)
  if !hasAll && !hasAny then some .noCondition
  else if hasAll && hasAny then some .bothConditions
  else
    let conditions := if hasAny then r.When.Any else r.When.All
    match validateConditions L conditions 0 with
    | some e => some e
    | none => if r.Then.Variants.length = 0 then some .noVariants else none

/-- The loop of `Flag.Validate` over the variant table of a bool flag, entered
with the values of `total`, `hasTrue` and `hasFalse`.  Every summand has been
checked to lie between 0 and 100 before it is added, so for a map that fits
into memory the additions do not leave the range of `int` and are exact. -/
def boolVariantsLoop :
    VariantTable → Int → Bool → Bool → Except FlagError (Int × Bool × Bool)
  | [], total, hasTrue, hasFalse => .ok (total, hasTrue, hasFalse)
  | (k, v) :: rest, total, hasTrue, hasFalse =>
    if k ≠ "true" ∧ k ≠ "false" then .error (.boolVariantKey k)
    else
      let hasTrue1 := if k = "true" then true else hasTrue
      let hasFalse1 := if k = "false" then true else hasFalse
      if v < 0 ∨ v > 100 then .error (.variantRange k v)
      else boolVariantsLoop rest (total + v) hasTrue1 hasFalse1

/-- The loop of `Flag.Validate` over the variant table of a string flag. -/
def stringVariantsLoop : VariantTable → Int → Except FlagError Int
  | [], total => .ok total
  | (k, v) :: rest, total =>
    if v < 0 ∨ v > 100 then .error (.variantRange k v)
    else stringVariantsLoop rest (total + v)

/-- The loop of `Flag.Validate` over the then-table of rule `i` of a bool flag. -/
def ruleBoolVariantsLoop (i : Nat) : VariantTable → Int → Except FlagError Int
  | [], total => .ok total
  | (k, v) :: rest, total =>
    if k ≠ "true" ∧ k ≠ "false" then .error (.ruleBoolVariantKey i k)
    else if v < 0 ∨ v > 100 then .error (.ruleVariantRange i k v)
    else ruleBoolVariantsLoop i rest (total + v)

/-- The loop of `Flag.Validate` over the then-table of rule `i` of a string
flag. -/
def ruleStringVariantsLoop (i : Nat) : VariantTable → Int → Except FlagError Int
  | [], total => .ok total
  | (k, v) :: rest, total =>
    if v < 0 ∨ v > 100 then .error (.ruleVariantRange i k v)
    else ruleStringVariantsLoop i rest (total + v)

/-- The body of the loop of `Flag.Validate` over the rules, for rule `i`. -/
def validateRule (L : Stdlib) (ty : String) (i : Nat) (rule : Rule) : Option FlagError :=
  match rule.Validate L with
  | some e => some (.rule i e)
  | none =>
    if rule.Then.Variants.length > 0 then
      if ty = "bool" then
        match ruleBoolVariantsLoop i rule.Then.Variants 0 with
        | .error e => some e
        | .ok total => if total ≠ 100 then some (.ruleBoolSum i total) else none
      else
        match ruleStringVariantsLoop i rule.Then.Variants 0 with
        | .error e => some e
        | .ok total => if total ≠ 100 then some (.ruleStringSum i total) else none
    else none

/-- The loop of `Flag.Validate` over the rules, `i` being the index of the first
rule of the list. -/
def validateRules (L : Stdlib) (ty : String) : List Rule → Nat → Option FlagError
  | [], _ => none
  | rule :: rest, i =>
    match validateRule L ty i rule with
    | some e => some e
    | none => validateRules L ty rest (i + 1)

/-- The part of `Flag.Validate` before the rules, for a bool flag. -/
def validateBoolFlag (f : Flag) : Option FlagError :=
  let defaultError : Option FlagError :=
    match f.Default with
    | .nil => none
    | .bool _ => none
    | _ => some .defaultNotBool
  match defaultError with
  | some e => some e
  | none =>
    if f.Variants.length > 0 then
      match boolVariantsLoop f.Variants 0 false false with
      | .error e => some e
      | .ok (total, hasTrue, hasFalse) =>
        if !hasTrue || !hasFalse then some .boolNeedsBoth
        else if total ≠ 100 then some (.boolSum total)
        else none
    else none

/-- The part of `Flag.Validate` before the rules, for a string flag. -/
def validateStringFlag (f : Flag) : Option FlagError :=
  let defaultError : Option FlagError :=
    match f.Default with
    | .nil => none
    | .str _ => none
    | _ => some .defaultNotString
  match defaultError with
  | some e => some e
  | none =>
    if f.Variants.length > 0 then
      match stringVariantsLoop f.Variants 0 with
      | .error e => some e
      | .ok total => if total ≠ 100 then some (.stringSum total) else none
    else none

/-- Transcription of `(*Flag).Validate`; the result `none` is the nil error. -/
def Flag.Validate (L : Stdlib) (f : Flag) (_flagKey : String) : Option FlagError :=
  if f.Type_ ≠ "bool" ∧ f.Type_ ≠ "string" then some (.invalidType f.Type_)
  else
    let head := if f.Type_ = "bool" then validateBoolFlag f else validateStringFlag f
    match head with
    | some e => some e
    | none => validateRules L f.Type_ f.Rules 0

/-- The loop of `Config.Validate` over the flags, in the order in which `range`
enumerates the map. -/
def validateFlags (L : Stdlib) : List (String × Flag) → Option ConfigError
  | [] => none
  | (flagKey, flag) :: rest =>
    match flag.Validate L flagKey with
    | some e => some (.flag flagKey e)
    | none => validateFlags L rest

/-- Transcription of `(*Config).Validate`; the result `none` is the nil error. -/
def Config.Validate (L : Stdlib) (c : Config) : Option ConfigError :=
  if c.Version ≠ 1 then some (.unsupportedVersion c.Version)
  else if c.Flags.length = 0 then some .noFlags
  else validateFlags L c.Flags

/-! ## Vocabulary of the specification, operators -/

/-- Numeric coercion succeeds on a value: it is an integer or floating value, or
a string that parses as a number. -/
def coercesToNumber (L : Stdlib) : Value → Prop
  | .int _ _ => True
  | .float32 _ => True
  | .float64 _ => True
  | .str s => L.ParseFloat s ≠ none
  | _ => False

/-- The number that a value coerces to, if it does. -/
def numericValue (L : Stdlib) : Value → Option F64
  | .int _ n => some (F64.ofInt n)
  | .float32 f => some f
  | .float64 f => some f
  | .str s => L.ParseFloat s
  | _ => none

/-- Two values are directly equal: Go's `==` on them is true. -/
def directlyEqual (a o : Value) : Prop := ifaceEq a o = some true

/-- Both values coerce to numbers and the numbers are equal. -/
def numbersEqual (L : Stdlib) (a o : Value) : Prop :=
  ∃ x y, numericValue L a = some x ∧ numericValue L o = some y ∧ F64.eq x y = true

/-- The string forms of two values are equal. -/
def stringFormsEqual (L : Stdlib) (a o : Value) : Prop := sprintV L a = sprintV L o

/-- The value is a sequence (`[]interface{}`). -/
def isSequence : Value → Prop
  | .slice _ => True
  | _ => False

/-- A rule in "any" mode whose first condition compares a sequence with a
sequence and whose second condition asks for `plan = "pro"`. -/
def tagsOrPlanRule : CompiledRule :=
  ⟨[⟨"tags", "eq", .slice [.str "beta"], none, false⟩,
    ⟨"plan", "eq", .str "pro", none, false⟩], [("true", 100)]⟩

/-- A context whose attribute `tags` is a sequence and whose `plan` is `"pro"`. -/
def tagsProCtx : Context :=
  ⟨"user:1", [("tags", .slice [.str "beta"]), ("plan", .str "pro")]⟩

/-- The rule of `TestEvalRule_AnyConditions`. -/
def planAnyRule : CompiledRule :=
  ⟨[⟨"plan", "eq", .str "pro", none, false⟩, ⟨"plan", "eq", .str "enterprise", none, false⟩],
    [("true", 100)]⟩

/-- A library instance in which `"42"` parses as the number 42. -/
def parse42Lib : Stdlib :=
  ⟨fun s => if s = "42" then some (F64.ofInt 42) else none, fun _ _ => "?", fun _ => none⟩

/-- The flag "valid config" of `TestConfigValidate`. -/
def validBoolFlag : Flag := ⟨true, "bool", [("true", 50), ("false", 50)], [], .bool false⟩

/-- The flag "bool flag invalid variants sum" of `TestConfigValidate`. -/
def badSumBoolFlag : Flag := ⟨false, "bool", [("true", 60), ("false", 30)], [], .nil⟩

/-- The flag "string flag invalid variants sum" of `TestConfigValidate`. -/
def badSumStringFlag : Flag := ⟨false, "string", [("a", 60), ("b", 30)], [], .nil⟩

/-- The flag "bool flag missing true variant" of `TestConfigValidate`. -/
def missingTrueFlag : Flag := ⟨false, "bool", [("false", 100)], [], .nil⟩

/-- A bool flag whose table has a third key. -/
def extraKeyFlag : Flag :=
  ⟨false, "bool", [("true", 50), ("false", 30), ("maybe", 20)], [], .nil⟩

/-- A valid string flag with the rule "valid rule with all" of `TestRuleValidate`. -/
def ruledFlag : Flag :=
  ⟨true, "string", [("red", 50), ("blue", 30), ("green", 20)],
    [⟨⟨[⟨"plan", "eq", .str "pro"⟩], []⟩, ⟨[("red", 90), ("blue", 10)]⟩⟩], .str "red"⟩

/-! ## internal/config/compile.go: Compile

`compileCondition`, `compileRule` and `compileFlag` return either a value and
the nil error or nil and an error; their results are values of `Except`.  The
result of `Compile` keeps the two components of the Go result. -/

/-- The errors that `compileCondition` returns. -/
inductive ConditionError
  /-- The message "matches operator requires string value". -/
  | matchesNeedsString
  /-- The message "compile regex: %w". -/
  | compileRegex (pattern : String)
  deriving DecidableEq

/-- The error that `compileFlag` returns: "compile rule %d: %w". -/
inductive FlagCompileError
  | rule (i : Nat) (e : ConditionError)
  deriving DecidableEq

/-- The errors that `Compile` returns. -/
inductive CompileError
  /-- The message "config is nil". -/
  | nilConfig
  /-- The message "compile flag %q: %w". -/
  | flag (key : String) (e : FlagCompileError)
  deriving DecidableEq

/-- Transcription of `compileCondition`. -/
def compileCondition (L : Stdlib) (cond : AttributeCondition) (isAll : Bool) :
    Except ConditionError CompiledCondition :=
  if cond.Op = "matches" then
    match cond.Value with
    | .str pattern =>
      match L.RegexpCompile pattern with
      | none => .error (.compileRegex pattern)
      | some regex => .ok ⟨cond.Attr, cond.Op, cond.Value, some regex, isAll⟩
    | _ => .error .matchesNeedsString
  else .ok ⟨cond.Attr, cond.Op, cond.Value, none, isAll⟩

/-- The loops of `compileRule` over a condition list: the compiled conditions,
appended in order, or the first error. -/
def compileConditions (L : Stdlib) (isAll : Bool) :
    List AttributeCondition → Except ConditionError (List CompiledCondition)
  | [] => .ok []
  | cond :: rest =>
    match compileCondition L cond isAll with
    | .error e => .error e
    | .ok compiledCond =>
      match compileConditions L isAll rest with
      | .error e => .error e
      | .ok conditions => .ok (compiledCond :: conditions)

/-- Transcription of `compileRule`. -/
def compileRule (L : Stdlib) (rule : Rule) : Except ConditionError CompiledRule :=
  let isAll := decide (rule.When.All.length > 0)
  let conditions :=
    if isAll then compileConditions L true rule.When.All
    else compileConditions L false rule.When.Any
  match conditions with
  | .error e => .error e
  | .ok cs => .ok ⟨cs, rule.Then.Variants⟩

/-- The loop of `compileFlag` over the rules, `i` being the index of the first
rule of the list: the compiled rules, appended in order, or the first error. -/
def compileRules (L : Stdlib) : List Rule → Nat → Except FlagCompileError (List CompiledRule)
  | [], _ => .ok []
  | rule :: rest, i =>
    match compileRule L rule with
    | .error e => .error (.rule i e)
    | .ok compiledRule =>
      match compileRules L rest (i + 1) with
      | .error e => .error e
      | .ok rules => .ok (compiledRule :: rules)

/-- Transcription of `compileFlag`. -/
def compileFlag (L : Stdlib) (_flagKey : String) (flag : Flag) :
    Except FlagCompileError CompiledFlag :=
  match compileRules L flag.Rules 0 with
  | .error e => .error e
  | .ok rules => .ok ⟨flag.Enabled, flag.Type_, flag.Variants, rules, flag.Default⟩

/-- The loop of `Compile` over the flag map: the entries of the compiled map,
in the order in which `range` enumerates the source, or the first error. -/
def compileFlags (L : Stdlib) :
    List (String × Flag) → Except CompileError (List (String × CompiledFlag))
  | [] => .ok []
  | (flagKey, flag) :: rest =>
    match compileFlag L flagKey flag with
    | .error e => .error (.flag flagKey e)
    | .ok compiledFlag =>
      match compileFlags L rest with
      | .error e => .error e
      | .ok flags => .ok ((flagKey, compiledFlag) :: flags)

/-- Transcription of `Compile`: the pair `(*Compiled, error)`, `none` for nil.
The argument `none` is the nil configuration. -/
def Compile (L : Stdlib) (cfg : Option Config) : Option Compiled × Option CompileError :=
  match cfg with
  | none => (none, some .nilConfig)
  | some cfg =>
    match compileFlags L cfg.Flags with
    | .error e => (none, some e)
    | .ok flags => (some ⟨flags⟩, none)

/-! ## internal/config/parse.go -/

/-- The YAML decoder (`gopkg.in/yaml.v3`), whose code is outside the
repository: the configuration that `yaml.Unmarshal` decodes from the bytes, or
`none` when it returns an error. -/
structure Yaml where
  Unmarshal : List Nat → Option Config

/-- The errors of `LoadFromFile` and of `loadConfig`. -/
inductive LoadError
  /-- The message "read file: %w". -/
  | readFile
  /-- The message "parse YAML: %w". -/
  | parseYAML
  /-- The message "validate: %w". -/
  | validate (e : ConfigError)
  /-- An error of `Compile`, passed on by `loadConfig`. -/
  | compile (e : CompileError)
  deriving DecidableEq

/-- Transcription of `LoadFromBytes`. -/
def LoadFromBytes (L : Stdlib) (Y : Yaml) (data : List Nat) : Option Config × Option LoadError :=
  match Y.Unmarshal data with
  | none => (none, some .parseYAML)
  | some cfg =>
    match cfg.Validate L with
    | some e => (none, some (.validate e))
    | none => (some cfg, none)

/-- Transcription of `LoadFromFile`; `file` is the result of `os.ReadFile` on
the path, `none` when reading fails. -/
def LoadFromFile (L : Stdlib) (Y : Yaml) (file : Option (List Nat)) :
    Option Config × Option LoadError :=
  match file with
  | none => (none, some .readFile)
  | some data => LoadFromBytes L Y data

/-! ## pkg/goff/options.go: reloading -/

/-- Transcription of `loadConfig`; `file` is the result of reading the
configuration file at the time of the call. -/
def loadConfig (L : Stdlib) (Y : Yaml) (file : Option (List Nat)) :
    Option Compiled × Option LoadError :=
  match LoadFromFile L Y file with
  | (_, some err) => (none, some err)
  | (cfg, none) =>
    match Compile L cfg with
    | (_, some err) => (none, some (.compile err))
    | (compiled, none) => (compiled, none)

/-- A `time.Time`: nanoseconds elapsed since the zero time `time.Time{}`. -/
abbrev Time := Int

/-- A `time.Duration`: a number of nanoseconds in the range of `int64`. -/
abbrev Duration := Int

/-- The constant `time.Second`. -/
def Second : Duration := 1000000000

/-- The constant `time.Minute`. -/
def Minute : Duration := 60 * Second

/-- Transcription of `Time.Sub`: the difference, replaced by the largest or the
smallest duration when it does not fit. -/
def Time.Sub (t u : Time) : Duration :=
  if t - u > 2 ^ 63 - 1 then 2 ^ 63 - 1
  else if t - u < -(2 ^ 63) then -(2 ^ 63)
  else t - u

/-- The constant `maxErrors` of `watchFile`. -/
def maxErrors : Int := 10

/-- The constant `maxBackoff` of `watchFile`. -/
def maxBackoff : Duration := 5 * Minute

/-- The variables that `reloadConfig` reads and writes: the snapshot held by
the atomic pointer `cfg.compiled`, and `lastError` and `errorCount` of
`watchFile`. -/
structure ReloadState where
  compiled : Option Compiled
  lastError : Time
  errorCount : Int

/-- What one call of `reloadConfig` does: the state it leaves, whether it
called `loadConfig`, and the hook invocations it made. -/
structure ReloadResult where
  state : ReloadState
  loaded : Bool
  hookCalls : List HookCall

/-- Transcription of `reloadConfig`.  `now` is the value of `time.Now()`, `file`
the result of reading the configuration file at that time, `hooked` whether an
`AfterEval` hook is installed.  The count of errors grows by one for each
failed attempt, and after `n` failures attempts lie at least `min(n, 300)`
seconds apart, so the product `errorCount * time.Second` stays within `int64`
and is exact. -/
def reloadConfig (L : Stdlib) (Y : Yaml) (hooked : Bool) (s : ReloadState) (now : Time)
    (file : Option (List Nat)) (maxErrors : Int) (maxBackoff : Duration) : ReloadResult :=
  let backoff0 : Duration := s.errorCount * Second
  let backoff : Duration := if backoff0 > maxBackoff then maxBackoff else backoff0
  if Time.Sub now s.lastError < backoff then ⟨s, false, []⟩
  else
    match loadConfig L Y file with
    | (_, some _) =>
      let errorCount1 := s.errorCount + 1
      if errorCount1 ≥ maxErrors then ⟨⟨s.compiled, now, errorCount1⟩, true, []⟩
      else
        ⟨⟨s.compiled, now, errorCount1⟩, true,
          if hooked then [⟨"", "", Reason.Error⟩] else []⟩
    | (newConfig, none) => ⟨⟨newConfig, s.lastError, 0⟩, true, []⟩

/-- What the `select` of `watchFile` receives: the stop signal, a file event
(with or without the `Write` bit), a value from the error channel (nil or
not), or a tick of the timer. -/
inductive WatchEvent
  | stop
  | fsEvent (write : Bool)
  | fsError (nonNil : Bool)
  | tick
  deriving DecidableEq

/-- One iteration of the loop of `watchFile`: what is received, the time at
which it is handled, and the result of reading the file at that time. -/
structure WatchStep where
  event : WatchEvent
  now : Time
  file : Option (List Nat)

/-- The loop of `watchFile`, run on the sequence of things it receives: the
final state, the number of calls of `loadConfig` and the hook invocations. -/
def watchLoop (L : Stdlib) (Y : Yaml) (hooked : Bool) :
    List WatchStep → ReloadState → Nat → List HookCall → ReloadState × Nat × List HookCall
  | [], s, loads, calls => (s, loads, calls)
  | step :: rest, s, loads, calls =>
    let reload : Bool :=
      match step.event with
      | .stop => false
      | .fsEvent write => write
      | .fsError nonNil => nonNil
      | .tick => true
    match step.event with
    | .stop => (s, loads, calls)
    | _ =>
      if reload then
        let r := reloadConfig L Y hooked s step.now step.file maxErrors maxBackoff
        watchLoop L Y hooked rest r.state (if r.loaded then loads + 1 else loads)
          (calls ++ r.hookCalls)
      else watchLoop L Y hooked rest s loads calls

/-- Transcription of `watchFile`, started on the snapshot that `New` stored:
`lastError` is the zero time and `errorCount` is 0. -/
def watchFile (L : Stdlib) (Y : Yaml) (hooked : Bool) (initial : Option Compiled)
    (steps : List WatchStep) : ReloadState × Nat × List HookCall :=
  watchLoop L Y hooked steps ⟨initial, 0, 0⟩ 0 []

/-! ## Vocabulary of the specification, compilation and reloading -/

/-- The conditions of a rule that `Compile` compiles: those of the "all" list
when it is not empty, those of the "any" list otherwise. -/
def compiledSource (r : Rule) : List AttributeCondition :=
  if r.When.All.length > 0 then r.When.All else r.When.Any

/-- Attribute, operator and value of a source condition. -/
def AttributeCondition.triple (c : AttributeCondition) : String × String × Goff.Value :=
  (c.Attr, c.Op, c.Value)

/-- Attribute, operator and value of a compiled condition. -/
def CompiledCondition.triple (c : CompiledCondition) : String × String × Goff.Value :=
  (c.Attr, c.Op, c.Value)

/-- A compiled rule has the then-weights of the source rule and the conditions
that `Compile` takes from it, in their order. -/
def ruleAgrees (r : Rule) (c : CompiledRule) : Prop :=
  c.Variants = r.Then.Variants ∧
  c.Conditions.map CompiledCondition.triple = (compiledSource r).map AttributeCondition.triple

/-- A compiled flag has the enabled switch, type, default and variant weights
of the source flag and, rule by rule in order, agreeing rules. -/
def flagAgrees (f : Flag) (c : CompiledFlag) : Prop :=
  c.Enabled = f.Enabled ∧ c.Type_ = f.Type_ ∧ c.Default = f.Default ∧
  c.Variants = f.Variants ∧ List.Forall₂ ruleAgrees f.Rules c.Rules

/-- A `matches` condition that cannot be compiled: its value is not a string,
or the string is not a valid pattern. -/
def badPattern (L : Stdlib) (cond : AttributeCondition) : Prop :=
  cond.Op = "matches" ∧
    ((∀ p, cond.Value ≠ .str p) ∨ ∃ p, cond.Value = .str p ∧ L.RegexpCompile p = none)

/-- The backoff interval after `n` consecutive failures: `n` seconds, at most
five minutes. -/
def backoffInterval (n : Int) : Duration := min (n * Second) (5 * Minute)

/-- A flag without rules and without variants whose default is absent or of
the flag's type. -/
def degenerateFlag (f : Flag) : Prop :=
  f.Rules = [] ∧ f.Variants = [] ∧
    ((f.Type_ = "bool" ∧ (f.Default = .nil ∨ ∃ b, f.Default = .bool b)) ∨
     (f.Type_ = "string" ∧ (f.Default = .nil ∨ ∃ s, f.Default = .str s)))

/-! ## Sample data for compilation and reloading -/

/-- The rule "rule with both all and any" of `TestRuleValidate`. -/
def bothListsRule : Rule :=
  ⟨⟨[⟨"a", "eq", .str "b"⟩], [⟨"c", "eq", .str "d"⟩]⟩, ⟨[("true", 100)]⟩⟩

/-- A rule with a condition in its "all" list and, in its "any" list, the
condition "invalid regex in matches" of `TestRuleValidate`. -/
def hiddenPatternRule : Rule :=
  ⟨⟨[⟨"plan", "eq", .str "pro"⟩], [⟨"plan", "matches", .str "[invalid"⟩]⟩,
    ⟨[("true", 100)]⟩⟩

/-- The rule "invalid regex in matches" of `TestRuleValidate`. -/
def badPatternRule : Rule :=
  ⟨⟨[⟨"plan", "matches", .str "[invalid"⟩], []⟩, ⟨[("true", 100)]⟩⟩

/-- The rule "valid rule with any" of `TestRuleValidate`. -/
def anyRule : Rule :=
  ⟨⟨[], [⟨"plan", "eq", .str "pro"⟩]⟩, ⟨[("true", 100)]⟩⟩

/-- The configuration of `TestCompile`. -/
def testCompileConfig : Config :=
  ⟨1, [("test_flag", ⟨true, "bool", [("true", 50), ("false", 50)],
    [⟨⟨[⟨"plan", "eq", .str "pro"⟩], []⟩, ⟨[("true", 90), ("false", 10)]⟩⟩], .bool false⟩)]⟩

/-- A bool flag without rules, variants and default. -/
def bareBoolFlag : Flag := ⟨true, "bool", [], [], .nil⟩

/-- The flag "invalid default type for bool" of `TestFlagValidate`. -/
def badDefaultFlag : Flag := ⟨false, "bool", [], [], .str "not a bool"⟩

/-- A decoder that reads the byte 1 as the configuration of `TestCompile` and
rejects everything else. -/
def sampleYaml : Yaml := ⟨fun data => if data = [1] then some testCompileConfig else none⟩

/-- An instant about 2000 years after the zero time, in nanoseconds. -/
def startTime : Time := 63000000000 * Second

/-- Ten ticks, 400 seconds apart, at each of which the file cannot be read,
then a tick, 400 seconds later, at which the file holds a valid
configuration. -/
def tenFailuresThenRepair : List WatchStep :=
  ((List.range 10).map
      (fun k => (⟨.tick, startTime + (k : Int) * (400 * Second), none⟩ : WatchStep)))
    ++ [⟨.tick, startTime + 10 * (400 * Second), some [1]⟩]

/-- A configuration whose only rule has both lists non-empty. -/
def bothListsConfig : Config := ⟨1, [("test", ⟨true, "bool", [], [bothListsRule], .nil⟩)]⟩

/-- A configuration whose only rule has an invalid pattern in its "any" list
and a non-empty "all" list. -/
def hiddenPatternConfig : Config :=
  ⟨1, [("test", ⟨true, "bool", [], [hiddenPatternRule], .nil⟩)]⟩

/-- A configuration whose only rule has an invalid pattern in its "all" list. -/
def badPatternConfig : Config := ⟨1, [("test", ⟨true, "bool", [], [badPatternRule], .nil⟩)]⟩

/-! ## Vocabulary of the specification, bucketing and rollout -/

/-- The byte string that the specification feeds to the hash: the bytes of the
flag key, the byte `0x1F`, the bytes of the subject key, and the eight bytes of
the salt, least significant first, unless the salt is 0. -/
def hashInput (flagKey subjectKey : String) (salt : Nat) : List Nat :=
  utf8Bytes flagKey ++ [0x1F] ++ utf8Bytes subjectKey ++ (if salt = 0 then [] else saltBytes salt)

/-- The boolean table that gives the weight `t` to "true" and the rest to
"false". -/
def rampTable (t : Int) : VariantTable := [("true", t), ("false", 100 - t)]

/-- The same table, enumerated in the other order. -/
def rampTableRev (t : Int) : VariantTable := [("false", 100 - t), ("true", t)]

/-! ## Sample data for bucketing, comparison and single-key tables -/

/-- A bool flag whose rule is "valid rule with any" of `TestRuleValidate`: the
then-table of the rule has the single key "true". -/
def singleKeyRuleFlag : Flag :=
  ⟨true, "bool", [("true", 50), ("false", 50)], [anyRule], .bool false⟩

/-- A bool flag whose own table is the then-table of that rule. -/
def singleKeyTableFlag : Flag := ⟨true, "bool", [("true", 100)], [], .bool false⟩

/-- The state of `watchFile` after nine consecutive failures, the last one at
`startTime`. -/
def nineFailures : ReloadState := ⟨some sampleCompiled, startTime, 9⟩

/-- The compiled flag of the configuration of `TestCompile`. -/
def testCompiledFlag : CompiledFlag :=
  ⟨true, "bool", [("true", 50), ("false", 50)],
    [⟨[⟨"plan", "eq", .str "pro", none, true⟩], [("true", 90), ("false", 10)]⟩], .bool false⟩

/-- The compiled configuration of `TestCompile`. -/
def testCompiled : Compiled := ⟨[("test_flag", testCompiledFlag)]⟩

/-- A library instance in which every pattern but "[invalid" compiles, to a
matcher that looks for "@example.com". -/
def patternLib : Stdlib :=
  ⟨fun _ => none, fun _ _ => "?",
    fun p => if p = "[invalid" then none else some ⟨fun s => stringsContains s "@example.com"⟩⟩

/-- The configuration of `TestCompile_WithRegex`. -/
def regexConfig : Config :=
  ⟨1, [("test", ⟨false, "bool", [],
    [⟨⟨[⟨"email", "matches", .str "^[a-z]+@example\\.com$"⟩], []⟩, ⟨[("true", 100)]⟩⟩], .nil⟩)]⟩

/-- The compiled configuration of `TestCompile_WithRegex`. -/
def regexCompiled : Compiled :=
  ⟨[("test", ⟨false, "bool", [],
    [⟨[⟨"email", "matches", .str "^[a-z]+@example\\.com$",
        patternLib.RegexpCompile "^[a-z]+@example\\.com$", true⟩], [("true", 100)]⟩], .nil⟩)]⟩

/-! ## Sample data for evaluations that panic -/

/-- A rule in "all" mode whose first condition compares a sequence with a
sequence and whose second condition asks for `plan = "pro"`. -/
def tagsAndPlanRule : CompiledRule :=
  ⟨[⟨"tags", "eq", .slice [.str "beta"], none, true⟩,
    ⟨"plan", "eq", .str "pro", none, true⟩], [("true", 100)]⟩

/-- A context whose only attribute, `tags`, is a sequence. -/
def tagsCtx : Context := ⟨"user:1", [("tags", .slice [.str "beta"])]⟩

/-- A configuration whose flag has one rule, which asks for `tags` to equal the
sequence `[beta]`. -/
def tagsConfig : Config :=
  ⟨1, [("beta_flag", ⟨true, "bool", [("true", 50), ("false", 50)],
    [⟨⟨[⟨"tags", "eq", .slice [.str "beta"]⟩], []⟩, ⟨[("true", 100)]⟩⟩], .bool false⟩)]⟩

/-- The compiled flag of that configuration. -/
def tagsCompiledFlag : CompiledFlag :=
  ⟨true, "bool", [("true", 50), ("false", 50)],
    [⟨[⟨"tags", "eq", .slice [.str "beta"], none, true⟩], [("true", 100)]⟩], .bool false⟩

/-- The compiled configuration. -/
def tagsCompiled : Compiled := ⟨[("beta_flag", tagsCompiledFlag)]⟩

/-! # Theorems -/

theorem char_lt_iff (a b : Char) : a < b ↔ a.toNat < b.toNat := by
  rfl

theorem char_toNat_inj (a b : Char) : a.toNat = b.toNat ↔ a = b := by
  constructor
  · intro h
    apply Char.ext
    apply UInt32.ext
    exact h
  · intro h; rw [h]

theorem lexLess_iff_lex : ∀ (a b : List Char), lexLess a b = true ↔ List.Lex (· < ·) a b
  | _, [] => by
    cases ‹List Char› <;> simp [lexLess]
  | [], _ :: _ => by simp [lexLess, List.Lex.nil]
  | a :: as, b :: bs => by
    unfold lexLess
    by_cases h1 : a.toNat < b.toNat
    · simp only [h1, if_true, true_iff]
      exact List.Lex.rel ((char_lt_iff a b).2 h1)
    · simp only [h1, if_false]
      by_cases h2 : a.toNat = b.toNat
      · have hab : a = b := (char_toNat_inj a b).1 h2
        subst hab
        simp only [if_true]
        rw [lexLess_iff_lex as bs]
        exact List.Lex.cons_iff.symm
      · simp only [h2, if_false]
        constructor
        · intro h; cases h
        · intro h
          cases h with
          | cons h => exact absurd rfl h2
          | rel h => exact absurd ((char_lt_iff a b).1 h) h1

theorem strLess_iff_lt (s t : String) : strLess s t = true ↔ s < t := by
  rw [String.lt_iff_toList_lt]
  exact lexLess_iff_lex s.data t.data

theorem strLess_irrefl (s : String) : strLess s s = false := by
  cases h : strLess s s
  · rfl
  · exact absurd ((strLess_iff_lt s s).1 h) (lt_irrefl s)

theorem strLess_false_iff_le (s t : String) : strLess s t = false ↔ t ≤ s := by
  rw [← not_lt, ← strLess_iff_lt]
  cases strLess s t <;> simp


/-! ### Machine integers -/

theorem wrapInt_of_inRange (x : Int) (h : inIntRange x) : wrapInt x = x := by
  unfold inIntRange at h
  unfold wrapInt
  omega

theorem wrapInt_inRange (x : Int) : inIntRange (wrapInt x) := by
  unfold inIntRange wrapInt
  omega

theorem wrapInt_add_left (x y : Int) : wrapInt (wrapInt x + y) = wrapInt (x + y) := by
  unfold wrapInt
  omega

theorem wrapInt_small (x : Int) (h0 : 0 ≤ x) (h1 : x ≤ 100) : wrapInt x = x := by
  unfold wrapInt
  omega

/-! ### The bucket -/

theorem hash_nonneg (flagKey contextKey : String) (salt : Nat) :
    0 ≤ HashFlagContext flagKey contextKey salt := by
  unfold HashFlagContext
  exact Int.ofNat_nonneg _

theorem hash_lt (flagKey contextKey : String) (salt : Nat) :
    HashFlagContext flagKey contextKey salt < 100 := by
  unfold HashFlagContext
  simp only
  have h : ∀ n : Nat, Int.ofNat (n % 100) < 100 := by
    intro n
    have := Nat.mod_lt n (by decide : 100 > 0)
    simp only [Int.ofNat_eq_coe]
    omega
  exact h _

/-! ### Published test vectors of the hash -/

theorem sum64_empty : xxhash.sum64 [] = 0xEF46DB3751D8E999 := by decide

theorem sum64_a : xxhash.sum64 (utf8Bytes "a") = 0xD24EC4F1A98C6E5B := by decide

theorem sum64_abc : xxhash.sum64 (utf8Bytes "abc") = 0x44BC2CF5AD770999 := by decide

theorem sum64_xxhash : xxhash.sum64 (utf8Bytes "xxhash") = 0x32DD38952C4BC720 := by decide

set_option maxRecDepth 100000 in
theorem sum64_two_blocks :
    xxhash.sum64 (utf8Bytes "Nobody inspects the spammish repetition") = 0xFBCEA83C8A378BF1 := by
  decide

theorem bucket_test_user1 : HashFlagContext "test" "user:1" 0 = 92 := by decide

/-! ### Sorting by name -/

theorem variantLE_total (a b : variantPct) : variantLE a b ∨ variantLE b a := by
  unfold variantLE
  rw [strLess_false_iff_le, strLess_false_iff_le]
  exact le_total a.variant b.variant

theorem variantLE_trans (a b c : variantPct) (h1 : variantLE a b) (h2 : variantLE b c) :
    variantLE a c := by
  unfold variantLE at *
  rw [strLess_false_iff_le] at *
  exact le_trans h1 h2

theorem variantLT_asymm (a b : variantPct) (h1 : variantLT a b) (h2 : variantLT b a) : a = b := by
  unfold variantLT at *
  rw [strLess_iff_lt] at *
  exact absurd h1 (lt_asymm h2)

theorem insertVariant_eq (v : variantPct) (l : List variantPct) :
    insertVariant v l = List.orderedInsert variantLE v l := by
  induction l with
  | nil => rfl
  | cons w ws ih =>
    unfold insertVariant
    rw [List.orderedInsert]
    by_cases h : strLess w.variant v.variant = true
    · have hn : ¬ variantLE v w := by
        unfold variantLE
        rw [h]
        decide
      rw [if_pos h, if_neg hn, ih]
    · have hp : variantLE v w := by
        unfold variantLE
        exact Bool.eq_false_iff.2 h
      rw [if_neg h, if_pos hp]

theorem sortSlice_eq (l : List variantPct) : sortSlice l = List.insertionSort variantLE l := by
  induction l with
  | nil => rfl
  | cons v vs ih =>
    unfold sortSlice
    rw [List.insertionSort, ih, insertVariant_eq]

theorem sortSlice_perm (l : List variantPct) : (sortSlice l).Perm l := by
  rw [sortSlice_eq]
  exact List.perm_insertionSort variantLE l

theorem sortSlice_sorted (l : List variantPct) (h : (l.map variantPct.variant).Nodup) :
    (sortSlice l).Pairwise variantLT := by
  have hle : (sortSlice l).Pairwise variantLE := by
    haveI : IsTotal variantPct variantLE := ⟨variantLE_total⟩
    haveI : IsTrans variantPct variantLE := ⟨variantLE_trans⟩
    rw [sortSlice_eq]
    exact List.sorted_insertionSort variantLE l
  have hnd : ((sortSlice l).map variantPct.variant).Nodup :=
    ((sortSlice_perm l).map variantPct.variant).nodup_iff.2 h
  have hne : (sortSlice l).Pairwise (fun a b => a.variant ≠ b.variant) := by
    have := hnd
    unfold List.Nodup at this
    exact List.pairwise_map.1 this
  refine (hle.and hne).imp (fun hab => ?_)
  unfold variantLT
  rw [strLess_iff_lt]
  have h1 := hab.1
  unfold variantLE at h1
  rw [strLess_false_iff_le] at h1
  exact lt_of_le_of_ne h1 hab.2

theorem sortSlice_congr (l l2 : List variantPct) (hp : l.Perm l2)
    (h : (l.map variantPct.variant).Nodup) : sortSlice l = sortSlice l2 := by
  have h2 : (l2.map variantPct.variant).Nodup := (hp.map variantPct.variant).nodup_iff.1 h
  haveI : IsAntisymm variantPct variantLT := ⟨variantLT_asymm⟩
  apply @List.eq_of_perm_of_sorted variantPct variantLT
  · exact (sortSlice_perm l).trans (hp.trans (sortSlice_perm l2).symm)
  · exact sortSlice_sorted l h
  · exact sortSlice_sorted l2 h2

theorem map_variant_toPct (t : VariantTable) :
    (t.map (fun e => (⟨e.1, e.2⟩ : variantPct))).map variantPct.variant = t.names := by
  unfold VariantTable.names
  rw [List.map_map]
  rfl

theorem map_pct_toPct (t : VariantTable) :
    (t.map (fun e => (⟨e.1, e.2⟩ : variantPct))).map variantPct.pct = t.weights := by
  unfold VariantTable.weights
  rw [List.map_map]
  rfl

theorem sortedVariants_perm (t : VariantTable) :
    (sortedVariants t).Perm (t.map (fun e => (⟨e.1, e.2⟩ : variantPct))) :=
  sortSlice_perm _

theorem sortedVariants_sorted (t : VariantTable) (h : t.names.Nodup) :
    (sortedVariants t).Pairwise variantLT := by
  apply sortSlice_sorted
  rw [map_variant_toPct]
  exact h

theorem sortedVariants_congr (t t2 : VariantTable) (hp : t.Perm t2) (h : t.names.Nodup) :
    sortedVariants t = sortedVariants t2 := by
  apply sortSlice_congr
  · exact hp.map _
  · rw [map_variant_toPct]
    exact h

theorem sortedVariants_names (t : VariantTable) :
    ((sortedVariants t).map variantPct.variant).Perm t.names := by
  rw [← map_variant_toPct]
  exact (sortedVariants_perm t).map _

theorem sortedVariants_weights (t : VariantTable) :
    ((sortedVariants t).map variantPct.pct).Perm t.weights := by
  rw [← map_pct_toPct]
  exact (sortedVariants_perm t).map _


/-! ### The cumulative loop -/

theorem walkString_cases (b : Int) (d : String) (l : List variantPct) (c : Int) :
    walkString b d l c = (d, Reason.Percent) ∨
      ∃ e ∈ l, walkString b d l c = (e.variant, Reason.Match) := by
  induction l generalizing c with
  | nil => left; rfl
  | cons a rest ih =>
    unfold walkString
    simp only
    by_cases h : b < wrapInt (c + a.pct)
    · right
      exact ⟨a, List.mem_cons_self _ _, by rw [if_pos h]⟩
    · rw [if_neg h]
      rcases ih (wrapInt (c + a.pct)) with h1 | ⟨e, he, h1⟩
      · left; exact h1
      · right; exact ⟨e, List.mem_cons_of_mem _ he, h1⟩

theorem walkBool_of_walkString (b : Int) (dB : Bool) (dS : String) (l : List variantPct) :
    ∀ c, (∀ v, walkString b dS l c = (v, Reason.Match) →
        walkBool b dB l c = (decide (v = "true"), Reason.Match)) ∧
      (∀ v, walkString b dS l c = (v, Reason.Percent) →
        walkBool b dB l c = (dB, Reason.Percent)) := by
  induction l with
  | nil =>
    intro c
    constructor
    · intro v h
      unfold walkString at h
      cases h
    · intro v _
      rfl
  | cons a rest ih =>
    intro c
    unfold walkString walkBool
    simp only
    by_cases h : b < wrapInt (c + a.pct)
    · rw [if_pos h, if_pos h]
      constructor
      · intro v hv
        have hav : a.variant = v := congrArg Prod.fst hv
        subst hav
        by_cases ht : a.variant = "true"
        · rw [if_pos ht]; simp [ht]
        · rw [if_neg ht]; simp [ht]
      · intro v hv
        cases hv
    · rw [if_neg h, if_neg h]
      exact ih _

theorem filter_none_of_lt (a : variantPct) (rest : List variantPct)
    (h : ∀ e ∈ rest, variantLT a e) :
    rest.filter (fun e => !strLess a.variant e.variant) = [] := by
  rw [List.filter_eq_nil_iff]
  intro e he
  have := h e he
  unfold variantLT at this
  simp [this]

theorem cumFrom_head (c : Int) (a : variantPct) (rest : List variantPct)
    (h : ∀ e ∈ rest, variantLT a e) :
    cumFrom c (a :: rest) a.variant = wrapInt (c + a.pct) := by
  unfold cumFrom
  rw [List.filter_cons]
  simp only [strLess_irrefl, Bool.not_false, if_true]
  rw [filter_none_of_lt a rest h]
  simp

theorem cumFrom_tail (c : Int) (a : variantPct) (rest : List variantPct) (name : String)
    (h : strLess a.variant name = true) :
    cumFrom c (a :: rest) name = cumFrom (wrapInt (c + a.pct)) rest name := by
  have h2 : strLess name a.variant = false := by
    rw [strLess_false_iff_le]
    exact le_of_lt ((strLess_iff_lt _ _).1 h)
  unfold cumFrom
  rw [List.filter_cons]
  simp only [h2, Bool.not_false, if_true, List.map_cons, List.sum_cons]
  rw [wrapInt_add_left, add_assoc]

theorem walkString_spec (b : Int) (d : String) (l : List variantPct) :
    ∀ c, l.Pairwise variantLT →
      (walkString b d l c = (d, Reason.Percent) ∧ ∀ e ∈ l, ¬ b < cumFrom c l e.variant) ∨
      (∃ e ∈ l, walkString b d l c = (e.variant, Reason.Match) ∧ b < cumFrom c l e.variant ∧
        ∀ f ∈ l, strLess f.variant e.variant = true → ¬ b < cumFrom c l f.variant) := by
  induction l with
  | nil =>
    intro c _
    left
    exact ⟨rfl, fun e he => absurd he (List.not_mem_nil e)⟩
  | cons a rest ih =>
    intro c hs
    rw [List.pairwise_cons] at hs
    obtain ⟨hlt, hrest⟩ := hs
    have hhead := cumFrom_head c a rest hlt
    have htail : ∀ e ∈ rest, cumFrom c (a :: rest) e.variant
        = cumFrom (wrapInt (c + a.pct)) rest e.variant :=
      fun e he => cumFrom_tail c a rest e.variant (hlt e he)
    unfold walkString
    simp only
    by_cases h : b < wrapInt (c + a.pct)
    · right
      refine ⟨a, List.mem_cons_self _ _, by rw [if_pos h], by rw [hhead]; exact h, ?_⟩
      intro f hf hfa
      rcases List.mem_cons.1 hf with rfl | hf
      · rw [strLess_irrefl] at hfa
        cases hfa
      · have h1 := hlt f hf
        unfold variantLT at h1
        rw [strLess_iff_lt] at h1 hfa
        exact absurd h1 (lt_asymm hfa)
    · rw [if_neg h]
      rcases ih (wrapInt (c + a.pct)) hrest with ⟨h1, h2⟩ | ⟨e, he, h1, h2, h3⟩
      · left
        refine ⟨h1, ?_⟩
        intro e he
        rcases List.mem_cons.1 he with rfl | he
        · rw [hhead]; exact h
        · rw [htail e he]; exact h2 e he
      · right
        refine ⟨e, List.mem_cons_of_mem _ he, h1, by rw [htail e he]; exact h2, ?_⟩
        intro f hf hfe
        rcases List.mem_cons.1 hf with rfl | hf
        · rw [hhead]; exact h
        · rw [htail f hf]; exact h3 f hf hfe

theorem filter_toPct (t : VariantTable) (name : String) :
    (((t.map (fun e => (⟨e.1, e.2⟩ : variantPct))).filter
        (fun e => !strLess name e.variant)).map variantPct.pct)
      = (t.filter (fun e => !strLess name e.1)).map Prod.snd := by
  induction t with
  | nil => rfl
  | cons x xs ih =>
    simp only [List.map_cons, List.filter_cons]
    by_cases h : strLess name x.1 = true
    · simp only [h, Bool.not_true, Bool.false_eq_true, if_false]
      exact ih
    · have h2 : strLess name x.1 = false := Bool.eq_false_iff.2 h
      simp only [h2, Bool.not_false, if_true, List.map_cons]
      rw [ih]

theorem cumFrom_sorted (t : VariantTable) (name : String) :
    cumFrom 0 (sortedVariants t) name = cumulativeWeight t name := by
  unfold cumFrom cumulativeWeight
  rw [zero_add, ← filter_toPct]
  have hp := (((sortedVariants_perm t).filter (fun e => !strLess name e.variant)).map
    variantPct.pct)
  rw [hp.sum_eq]

theorem cumulativeWeight_of_inRange (t : VariantTable) (name : String)
    (h : inIntRange ((t.filter (fun e => !strLess name e.1)).map Prod.snd).sum) :
    cumulativeWeight t name = ((t.filter (fun e => !strLess name e.1)).map Prod.snd).sum := by
  unfold cumulativeWeight
  exact wrapInt_of_inRange _ h

theorem mem_sortedVariants (t : VariantTable) (e : variantPct) :
    e ∈ sortedVariants t ↔ (e.variant, e.pct) ∈ t := by
  rw [(sortedVariants_perm t).mem_iff, List.mem_map]
  constructor
  · rintro ⟨x, hx, rfl⟩
    exact hx
  · intro h
    exact ⟨(e.variant, e.pct), h, rfl⟩

theorem mem_names_of_mem_sorted (t : VariantTable) (e : variantPct)
    (h : e ∈ sortedVariants t) : e.variant ∈ t.names := by
  unfold VariantTable.names
  exact List.mem_map.2 ⟨_, (mem_sortedVariants t e).1 h, rfl⟩

theorem exists_sorted_of_mem_names (t : VariantTable) (n : String) (h : n ∈ t.names) :
    ∃ e ∈ sortedVariants t, e.variant = n := by
  unfold VariantTable.names at h
  obtain ⟨x, hx, rfl⟩ := List.mem_map.1 h
  exact ⟨⟨x.1, x.2⟩, (mem_sortedVariants t _).2 hx, rfl⟩

theorem length_ne_zero_of_ne_nil (t : VariantTable) (h : t ≠ []) : ¬ t.length = 0 := by
  intro h0
  exact h (List.length_eq_zero.1 h0)


/-- C2: for a non-empty variant table, `selectVariantString` with
`b = HashFlagContext(flagKey, subjectKey, 0)` returns with reason `Match` the
first name, in lexicographic order, whose cumulative weight is strictly greater
than `b`; if no cumulative weight exceeds `b` it returns the caller default with
reason `Percent`.  `selectVariantBool` makes the same choice and maps the name
to the boolean `name == "true"`. -/
theorem C2_select_first_exceeding (flagKey subjectKey : String) (t : VariantTable)
    (dS : String) (dB : Bool) (hne : t ≠ []) (hnodup : t.names.Nodup) :
    ((∃ n ∈ t.names, HashFlagContext flagKey subjectKey 0 < cumulativeWeight t n) →
      ∃ v ∈ t.names, HashFlagContext flagKey subjectKey 0 < cumulativeWeight t v ∧
        (∀ u ∈ t.names, u < v → cumulativeWeight t u ≤ HashFlagContext flagKey subjectKey 0) ∧
        selectVariantString flagKey subjectKey t dS = (v, Reason.Match) ∧
        selectVariantBool flagKey subjectKey t dB = (decide (v = "true"), Reason.Match)) ∧
    ((∀ n ∈ t.names, cumulativeWeight t n ≤ HashFlagContext flagKey subjectKey 0) →
      selectVariantString flagKey subjectKey t dS = (dS, Reason.Percent) ∧
      selectVariantBool flagKey subjectKey t dB = (dB, Reason.Percent)) := by
  have hlen := length_ne_zero_of_ne_nil t hne
  have hS : selectVariantString flagKey subjectKey t dS
      = walkString (HashFlagContext flagKey subjectKey 0) dS (sortedVariants t) 0 := by
    unfold selectVariantString
    rw [if_neg hlen]
  have hB : selectVariantBool flagKey subjectKey t dB
      = walkBool (HashFlagContext flagKey subjectKey 0) dB (sortedVariants t) 0 := by
    unfold selectVariantBool
    rw [if_neg hlen]
  have hrel := walkBool_of_walkString (HashFlagContext flagKey subjectKey 0) dB dS
    (sortedVariants t) 0
  have hspec := walkString_spec (HashFlagContext flagKey subjectKey 0) dS (sortedVariants t) 0
    (sortedVariants_sorted t hnodup)
  constructor
  · rintro ⟨n, hn, hlt⟩
    rcases hspec with ⟨_, h2⟩ | ⟨e, he, h1, h2, h3⟩
    · obtain ⟨e, he, rfl⟩ := exists_sorted_of_mem_names t n hn
      have := h2 e he
      rw [cumFrom_sorted] at this
      exact absurd hlt this
    · refine ⟨e.variant, mem_names_of_mem_sorted t e he, ?_, ?_, ?_, ?_⟩
      · rw [← cumFrom_sorted]; exact h2
      · intro u hu huv
        obtain ⟨f, hf, rfl⟩ := exists_sorted_of_mem_names t u hu
        have := h3 f hf ((strLess_iff_lt _ _).2 huv)
        rw [cumFrom_sorted] at this
        exact not_lt.1 this
      · rw [hS]; exact h1
      · rw [hB]; exact hrel.1 _ h1
  · intro hall
    rcases hspec with ⟨h1, _⟩ | ⟨e, he, _, h2, _⟩
    · exact ⟨by rw [hS]; exact h1, by rw [hB]; exact hrel.2 _ h1⟩
    · rw [cumFrom_sorted] at h2
      exact absurd h2 (not_lt.2 (hall _ (mem_names_of_mem_sorted t e he)))



/-- C9: for every flag key, subject key and salt, `HashFlagContext` returns an
integer `b` with `0 ≤ b < 100`. -/
theorem C9_bucket_range (flagKey subjectKey : String) (salt : Nat) :
    0 ≤ HashFlagContext flagKey subjectKey salt ∧ HashFlagContext flagKey subjectKey salt < 100 :=
  ⟨hash_nonneg flagKey subjectKey salt, hash_lt flagKey subjectKey salt⟩

/-- C5: a flag with `Enabled = false` evaluates to its own default when that is
present and of the flag's kind, and to the caller default otherwise, with reason
`Disabled`, whatever the context, the rules, the variant table and the type tag
are. -/
theorem C5_disabled_short_circuit (L : Stdlib) (ty : String) (variants : VariantTable)
    (rules : List CompiledRule) (flagDefault : Value) (flagKey : String) (ctx : Context)
    (dB : Bool) (dS : String) :
    EvalBool L (some ⟨false, ty, variants, rules, flagDefault⟩) flagKey ctx dB
      = some (typedDefaultBool flagDefault dB, Reason.Disabled) ∧
    EvalString L (some ⟨false, ty, variants, rules, flagDefault⟩) flagKey ctx dS
      = some (typedDefaultString flagDefault dS, Reason.Disabled) := by
  constructor
  · unfold EvalBool typedDefaultBool
    cases flagDefault <;> rfl
  · unfold EvalString typedDefaultString
    cases flagDefault <;> rfl

/-- C6: evaluating the nil flag returns the caller default with reason
`Missing`; this is what `Client.Boolean` and `Client.String` do for a key that
is not in the snapshot, and the hook, when installed, is told `Missing`. -/
theorem C6_missing_flag (L : Stdlib) (flagKey : String) (ctx : Context) (dB : Bool)
    (dS : String) (compiled : Compiled) (hooked : Bool)
    (habsent : compiled.Flags.lookup flagKey = none) :
    EvalBool L none flagKey ctx dB = some (dB, Reason.Missing) ∧
    EvalString L none flagKey ctx dS = some (dS, Reason.Missing) ∧
    client.Boolean L ⟨some compiled, hooked⟩ flagKey ctx dB
      = some (dB, if hooked then [⟨flagKey, if dB then "true" else "false", Reason.Missing⟩]
          else []) ∧
    client.String L ⟨some compiled, hooked⟩ flagKey ctx dS
      = some (dS, if hooked then [⟨flagKey, dS, Reason.Missing⟩] else []) := by
  refine ⟨rfl, rfl, ?_, ?_⟩
  · unfold client.Boolean
    simp only [habsent]
    unfold EvalBool
    cases hooked <;> simp
  · unfold client.String
    simp only [habsent]
    unfold EvalString
    cases hooked <;> simp

theorem rulesBool_none_match (L : Stdlib) (flagKey : String) (ctx : Context) (d : Bool)
    (rules : List CompiledRule) (h : ∀ r ∈ rules, EvalRule L r ctx = some false) :
    rulesBool L flagKey ctx d rules = some none := by
  induction rules with
  | nil => rfl
  | cons r rest ih =>
    unfold rulesBool
    rw [h r (List.mem_cons_self _ _)]
    exact ih (fun r2 hr2 => h r2 (List.mem_cons_of_mem _ hr2))

theorem rulesString_none_match (L : Stdlib) (flagKey : String) (ctx : Context) (d : String)
    (rules : List CompiledRule) (h : ∀ r ∈ rules, EvalRule L r ctx = some false) :
    rulesString L flagKey ctx d rules = some none := by
  induction rules with
  | nil => rfl
  | cons r rest ih =>
    unfold rulesString
    rw [h r (List.mem_cons_self _ _)]
    exact ih (fun r2 hr2 => h r2 (List.mem_cons_of_mem _ hr2))

/-- C7: for an enabled flag none of whose rules matches and whose variant table
is empty, `EvalBool` returns the flag's default when it is present and is a
boolean, the caller default otherwise, with reason `Default`; `EvalString` does
the same with a string default. -/
theorem C7_default_when_no_variants (L : Stdlib) (ty : String) (rules : List CompiledRule)
    (flagDefault : Value) (flagKey : String) (ctx : Context) (dB : Bool) (dS : String)
    (hnomatch : ∀ r ∈ rules, EvalRule L r ctx = some false) :
    EvalBool L (some ⟨true, ty, [], rules, flagDefault⟩) flagKey ctx dB
      = some (typedDefaultBool flagDefault dB, Reason.Default) ∧
    EvalString L (some ⟨true, ty, [], rules, flagDefault⟩) flagKey ctx dS
      = some (typedDefaultString flagDefault dS, Reason.Default) := by
  constructor
  · unfold EvalBool typedDefaultBool
    simp only [rulesBool_none_match L flagKey ctx dB rules hnomatch]
    cases flagDefault <;> rfl
  · unfold EvalString typedDefaultString
    simp only [rulesString_none_match L flagKey ctx dS rules hnomatch]
    cases flagDefault <;> rfl


/-! ### Rules in "all" mode -/

theorem evalConditions_all (L : Stdlib) (ctx : Context) (cs : List CompiledCondition)
    (hall : ∀ c ∈ cs, c.IsAll = true) :
    ∀ y, (∃ y2, evalConditions L ctx cs true y = some (true, y2)) ↔
      ∀ c ∈ cs, condHolds L ctx c := by
  induction cs with
  | nil =>
    intro y
    constructor
    · intro _ c hc
      exact absurd hc (List.not_mem_nil c)
    · intro _
      exact ⟨y, rfl⟩
  | cons c rest ih =>
    intro y
    have hc : c.IsAll = true := hall c (List.mem_cons_self _ _)
    have ih2 := ih (fun c2 h2 => hall c2 (List.mem_cons_of_mem _ h2))
    unfold evalConditions
    cases hl : ctx.Attrs.lookup c.Attr with
    | none =>
      simp only [hc, if_true]
      constructor
      · rintro ⟨y2, h⟩
        cases h
      · intro h
        obtain ⟨v, hv, _⟩ := h c (List.mem_cons_self _ _)
        rw [hl] at hv
        cases hv
    | some v =>
      simp only
      cases ho : EvalOperator L v c.Op c.Value c.Regex with
      | none =>
        simp only
        constructor
        · rintro ⟨y2, h⟩
          cases h
        · intro h
          obtain ⟨v2, hv, hop⟩ := h c (List.mem_cons_self _ _)
          rw [hl] at hv
          cases hv
          rw [ho] at hop
          cases hop
      | some r =>
        obtain ⟨m, err⟩ := r
        cases err with
        | some msg =>
          simp only [hc, if_true]
          constructor
          · rintro ⟨y2, h⟩
            cases h
          · intro h
            obtain ⟨v2, hv, hop⟩ := h c (List.mem_cons_self _ _)
            rw [hl] at hv
            cases hv
            rw [ho] at hop
            cases hop
        | none =>
          cases m with
          | false =>
            simp only [hc, if_true]
            constructor
            · rintro ⟨y2, h⟩
              cases h
            · intro h
              obtain ⟨v2, hv, hop⟩ := h c (List.mem_cons_self _ _)
              rw [hl] at hv
              cases hv
              rw [ho] at hop
              cases hop
          | true =>
            simp only [hc, Bool.not_true, Bool.false_eq_true, if_false]
            rw [ih2 true]
            constructor
            · intro h c2 hc2
              rcases List.mem_cons.1 hc2 with rfl | hc2
              · exact ⟨v, hl, ho⟩
              · exact h c2 hc2
            · intro h c2 hc2
              exact h c2 (List.mem_cons_of_mem _ hc2)

theorem evalConditions_all_false (L : Stdlib) (ctx : Context) (cs : List CompiledCondition)
    (hall : ∀ c ∈ cs, c.IsAll = true) :
    ∀ y y2, evalConditions L ctx cs true y = some (false, y2) →
      ∃ c ∈ cs, condFails L ctx c := by
  induction cs with
  | nil =>
    intro y y2 h
    unfold evalConditions at h
    cases h
  | cons c rest ih =>
    intro y y2 h
    have hc : c.IsAll = true := hall c (List.mem_cons_self _ _)
    have ih2 := ih (fun c2 h2 => hall c2 (List.mem_cons_of_mem _ h2))
    unfold evalConditions at h
    cases hl : ctx.Attrs.lookup c.Attr with
    | none => exact ⟨c, List.mem_cons_self _ _, Or.inl hl⟩
    | some v =>
      rw [hl] at h
      simp only at h
      cases ho : EvalOperator L v c.Op c.Value c.Regex with
      | none =>
        rw [ho] at h
        cases h
      | some r =>
        obtain ⟨m, err⟩ := r
        cases err with
        | some msg =>
          exact ⟨c, List.mem_cons_self _ _, Or.inr ⟨v, (m, some msg), hl, ho, Or.inl (by simp)⟩⟩
        | none =>
          cases m with
          | false =>
            exact ⟨c, List.mem_cons_self _ _, Or.inr ⟨v, (false, none), hl, ho, Or.inr rfl⟩⟩
          | true =>
            rw [ho] at h
            simp only [hc, Bool.not_true, Bool.false_eq_true, if_false] at h
            obtain ⟨c2, hc2, hf⟩ := ih2 true y2 h
            exact ⟨c2, List.mem_cons_of_mem _ hc2, hf⟩

theorem condFails_not_holds (L : Stdlib) (ctx : Context) (c : CompiledCondition)
    (h : condFails L ctx c) : ¬ condHolds L ctx c := by
  rintro ⟨v, hv, hop⟩
  rcases h with h | ⟨v2, r, hv2, hr, hbad⟩
  · rw [h] at hv
    cases hv
  · rw [hv] at hv2
    cases hv2
    rw [hop] at hr
    cases hr
    rcases hbad with hbad | hbad
    · exact hbad rfl
    · cases hbad

theorem EvalRule_all (L : Stdlib) (rule : CompiledRule) (ctx : Context)
    (hne : rule.Conditions ≠ []) (hall : ∀ c ∈ rule.Conditions, c.IsAll = true) :
    ∀ a, EvalRule L rule ctx = some a ↔
      ∃ y2, evalConditions L ctx rule.Conditions true false = some (a, y2) := by
  intro a
  unfold EvalRule
  cases hcs : rule.Conditions with
  | nil => exact absurd hcs hne
  | cons first rest =>
    have hf : first.IsAll = true := hall first (by rw [hcs]; exact List.mem_cons_self _ _)
    simp only
    cases he : evalConditions L ctx (first :: rest) true false with
    | none => simp
    | some p =>
      obtain ⟨am, ym⟩ := p
      simp [hf]

/-- For a rule with at least one condition, all in "all" mode, `EvalRule`
returns true exactly when every condition finds its attribute in the context
and `EvalOperator` returns a match without error; a condition whose attribute
is missing, or that evaluates to false or to an error, excludes the result
true, and the rule answers false only when there is such a condition. -/
theorem EvalRule_all_mode (L : Stdlib) (rule : CompiledRule) (ctx : Context)
    (hne : rule.Conditions ≠ []) (hall : ∀ c ∈ rule.Conditions, c.IsAll = true) :
    (EvalRule L rule ctx = some true ↔ ∀ c ∈ rule.Conditions, condHolds L ctx c) ∧
    ((∃ c ∈ rule.Conditions, condFails L ctx c) → EvalRule L rule ctx ≠ some true) ∧
    (EvalRule L rule ctx = some false → ∃ c ∈ rule.Conditions, condFails L ctx c) := by
  have h1 : EvalRule L rule ctx = some true ↔ ∀ c ∈ rule.Conditions, condHolds L ctx c := by
    rw [EvalRule_all L rule ctx hne hall true]
    exact evalConditions_all L ctx rule.Conditions hall false
  refine ⟨h1, ?_, ?_⟩
  · rintro ⟨c, hc, hf⟩ ht
    exact condFails_not_holds L ctx c hf (h1.1 ht c hc)
  · intro hfalse
    obtain ⟨y2, hy⟩ := (EvalRule_all L rule ctx hne hall false).1 hfalse
    exact evalConditions_all_false L ctx rule.Conditions hall false y2 hy


/-! ### Tables whose weights sum to 100 -/

theorem walkString_match_of_total (b : Int) (d : String) (l : List variantPct) :
    ∀ c, inIntRange c → ¬ b < c → b < wrapInt (c + (l.map variantPct.pct).sum) →
      ∃ e ∈ l, walkString b d l c = (e.variant, Reason.Match) := by
  induction l with
  | nil =>
    intro c hc hb hlt
    simp only [List.map_nil, List.sum_nil, add_zero] at hlt
    rw [wrapInt_of_inRange c hc] at hlt
    exact absurd hlt hb
  | cons a rest ih =>
    intro c _ _ hlt
    unfold walkString
    simp only
    by_cases h : b < wrapInt (c + a.pct)
    · exact ⟨a, List.mem_cons_self _ _, by rw [if_pos h]⟩
    · rw [if_neg h]
      have hlt2 : b < wrapInt (wrapInt (c + a.pct) + (rest.map variantPct.pct).sum) := by
        rw [wrapInt_add_left, add_assoc]
        simpa using hlt
      obtain ⟨e, he, h1⟩ := ih (wrapInt (c + a.pct)) (wrapInt_inRange _) h hlt2
      exact ⟨e, List.mem_cons_of_mem _ he, h1⟩

theorem select_match_of_sum (flagKey subjectKey : String) (t : VariantTable) (dB : Bool)
    (dS : String) (hsum : t.weights.sum = 100) :
    (∃ v ∈ t.names, selectVariantString flagKey subjectKey t dS = (v, Reason.Match) ∧
      selectVariantBool flagKey subjectKey t dB = (decide (v = "true"), Reason.Match)) := by
  have hne : t ≠ [] := by
    rintro rfl
    simp [VariantTable.weights] at hsum
  have hlen := length_ne_zero_of_ne_nil t hne
  have htot : ((sortedVariants t).map variantPct.pct).sum = 100 := by
    rw [(sortedVariants_weights t).sum_eq]
    exact hsum
  have hlt : HashFlagContext flagKey subjectKey 0
      < wrapInt (0 + ((sortedVariants t).map variantPct.pct).sum) := by
    rw [htot]
    have := hash_lt flagKey subjectKey 0
    have h100 : wrapInt (0 + 100) = 100 := by decide
    rw [h100]
    exact this
  obtain ⟨e, he, h1⟩ := walkString_match_of_total (HashFlagContext flagKey subjectKey 0) dS
    (sortedVariants t) 0 (by decide) (not_lt.2 (hash_nonneg flagKey subjectKey 0)) hlt
  refine ⟨e.variant, mem_names_of_mem_sorted t e he, ?_, ?_⟩
  · unfold selectVariantString
    rw [if_neg hlen]
    exact h1
  · unfold selectVariantBool
    rw [if_neg hlen]
    exact (walkBool_of_walkString _ dB dS _ 0).1 _ h1

theorem select_reason_match (flagKey subjectKey : String) (t : VariantTable) (dB : Bool)
    (dS : String) (hsum : t.weights.sum = 100) :
    (selectVariantBool flagKey subjectKey t dB).2 = Reason.Match ∧
    (selectVariantString flagKey subjectKey t dS).2 = Reason.Match := by
  obtain ⟨v, _, h1, h2⟩ := select_match_of_sum flagKey subjectKey t dB dS hsum
  rw [h1, h2]
  exact ⟨rfl, rfl⟩

/-- C4 (as the code has it): for an enabled flag none of whose rules matches
and whose own variant table is non-empty with weights summing to 100, the
evaluator selects by weighted bucketing on the flag's own table and reports the
reason `Match`, the same reason as for a rule-derived selection. -/
theorem C4_flag_rollout_reason (L : Stdlib) (ty : String) (variants : VariantTable)
    (rules : List CompiledRule) (flagDefault : Value) (flagKey : String) (ctx : Context)
    (dB : Bool) (dS : String)
    (hnomatch : ∀ r ∈ rules, EvalRule L r ctx = some false)
    (hne : variants ≠ []) (hsum : variants.weights.sum = 100) :
    EvalBool L (some ⟨true, ty, variants, rules, flagDefault⟩) flagKey ctx dB
      = some (selectVariantBool flagKey ctx.Key variants dB) ∧
    (selectVariantBool flagKey ctx.Key variants dB).2 = Reason.Match ∧
    EvalString L (some ⟨true, ty, variants, rules, flagDefault⟩) flagKey ctx dS
      = some (selectVariantString flagKey ctx.Key variants dS) ∧
    (selectVariantString flagKey ctx.Key variants dS).2 = Reason.Match := by
  have hlen : variants.length > 0 := List.length_pos.2 hne
  have hr := select_reason_match flagKey ctx.Key variants dB dS hsum
  refine ⟨?_, hr.1, ?_, hr.2⟩
  · unfold EvalBool
    simp only [rulesBool_none_match L flagKey ctx dB rules hnomatch]
    simp [hlen]
  · unfold EvalString
    simp only [rulesString_none_match L flagKey ctx dS rules hnomatch]
    simp [hlen]

theorem rulesBool_first_match (L : Stdlib) (flagKey : String) (ctx : Context) (d : Bool)
    (pre : List CompiledRule) (rule : CompiledRule) (post : List CompiledRule)
    (hpre : ∀ r ∈ pre, EvalRule L r ctx = some false) (hrule : EvalRule L rule ctx = some true) :
    rulesBool L flagKey ctx d (pre ++ rule :: post)
      = some (some (selectVariantBool flagKey ctx.Key rule.Variants d)) := by
  induction pre with
  | nil =>
    simp only [List.nil_append]
    unfold rulesBool
    rw [hrule]
  | cons r rest ih =>
    simp only [List.cons_append]
    unfold rulesBool
    rw [hpre r (List.mem_cons_self _ _)]
    exact ih (fun r2 hr2 => hpre r2 (List.mem_cons_of_mem _ hr2))

theorem rulesString_first_match (L : Stdlib) (flagKey : String) (ctx : Context) (d : String)
    (pre : List CompiledRule) (rule : CompiledRule) (post : List CompiledRule)
    (hpre : ∀ r ∈ pre, EvalRule L r ctx = some false) (hrule : EvalRule L rule ctx = some true) :
    rulesString L flagKey ctx d (pre ++ rule :: post)
      = some (some (selectVariantString flagKey ctx.Key rule.Variants d)) := by
  induction pre with
  | nil =>
    simp only [List.nil_append]
    unfold rulesString
    rw [hrule]
  | cons r rest ih =>
    simp only [List.cons_append]
    unfold rulesString
    rw [hpre r (List.mem_cons_self _ _)]
    exact ih (fun r2 hr2 => hpre r2 (List.mem_cons_of_mem _ hr2))

/-- C1: in an enabled flag whose rules are `pre ++ rule :: post`, where every
rule of `pre` evaluates to false and `rule` evaluates to true, `EvalBool` and
`EvalString` return the weighted-bucketing selection over the table of `rule`
for the bucket of `(flagKey, ctx.Key)`; the flag's own table, its type tag, its
default and the rules after `rule` have no influence, and the reason is `Match`
when the weights of the rule's table are non-negative and sum to 100. -/
theorem C1_first_matching_rule (L : Stdlib) (ty ty2 : String) (variants variants2 : VariantTable)
    (pre : List CompiledRule) (rule : CompiledRule) (post post2 : List CompiledRule)
    (flagDefault flagDefault2 : Value) (flagKey : String) (ctx : Context) (dB : Bool)
    (dS : String)
    (hpre : ∀ r ∈ pre, EvalRule L r ctx = some false)
    (hrule : EvalRule L rule ctx = some true) :
    EvalBool L (some ⟨true, ty, variants, pre ++ rule :: post, flagDefault⟩) flagKey ctx dB
      = some (selectVariantBool flagKey ctx.Key rule.Variants dB) ∧
    EvalString L (some ⟨true, ty, variants, pre ++ rule :: post, flagDefault⟩) flagKey ctx dS
      = some (selectVariantString flagKey ctx.Key rule.Variants dS) ∧
    EvalBool L (some ⟨true, ty, variants, pre ++ rule :: post, flagDefault⟩) flagKey ctx dB
      = EvalBool L (some ⟨true, ty2, variants2, pre ++ rule :: post2, flagDefault2⟩)
          flagKey ctx dB ∧
    EvalString L (some ⟨true, ty, variants, pre ++ rule :: post, flagDefault⟩) flagKey ctx dS
      = EvalString L (some ⟨true, ty2, variants2, pre ++ rule :: post2, flagDefault2⟩)
          flagKey ctx dS ∧
    ((∀ w ∈ rule.Variants.weights, 0 ≤ w) → rule.Variants.weights.sum = 100 →
      (selectVariantBool flagKey ctx.Key rule.Variants dB).2 = Reason.Match ∧
      (selectVariantString flagKey ctx.Key rule.Variants dS).2 = Reason.Match) := by
  have hB : ∀ (ty : String) (variants : VariantTable) (post : List CompiledRule)
      (flagDefault : Value),
      EvalBool L (some ⟨true, ty, variants, pre ++ rule :: post, flagDefault⟩) flagKey ctx dB
        = some (selectVariantBool flagKey ctx.Key rule.Variants dB) := by
    intro ty variants post flagDefault
    unfold EvalBool
    simp only [rulesBool_first_match L flagKey ctx dB pre rule post hpre hrule]
    rfl
  have hS : ∀ (ty : String) (variants : VariantTable) (post : List CompiledRule)
      (flagDefault : Value),
      EvalString L (some ⟨true, ty, variants, pre ++ rule :: post, flagDefault⟩) flagKey ctx dS
        = some (selectVariantString flagKey ctx.Key rule.Variants dS) := by
    intro ty variants post flagDefault
    unfold EvalString
    simp only [rulesString_first_match L flagKey ctx dS pre rule post hpre hrule]
    rfl
  refine ⟨hB _ _ _ _, hS _ _ _ _, ?_, ?_, ?_⟩
  · rw [hB, hB]
  · rw [hS, hS]
  · intro _ hsum
    exact select_reason_match flagKey ctx.Key rule.Variants dB dS hsum


/-! ### Width of a variant's band of buckets -/

theorem sum_pct_nonneg (l : List variantPct) (h : ∀ e ∈ l, 0 ≤ e.pct) :
    0 ≤ (l.map variantPct.pct).sum := by
  apply List.sum_nonneg
  intro x hx
  obtain ⟨e, he, rfl⟩ := List.mem_map.1 hx
  exact h e he

theorem walkString_band (d : String) (l : List variantPct) :
    ∀ c : Int, (l.map variantPct.variant).Nodup → (∀ e ∈ l, 0 ≤ e.pct) → 0 ≤ c →
      c + (l.map variantPct.pct).sum ≤ 100 →
      ∀ e ∈ l, ∃ lo : Int, c ≤ lo ∧ lo + e.pct ≤ c + (l.map variantPct.pct).sum ∧
        ∀ b : Int, c ≤ b →
          (walkString b d l c = (e.variant, Reason.Match) ↔ lo ≤ b ∧ b < lo + e.pct) := by
  induction l with
  | nil =>
    intro c _ _ _ _ e he
    exact absurd he (List.not_mem_nil e)
  | cons a rest ih =>
    intro c hnd hnn hc hsum e he
    simp only [List.map_cons, List.sum_cons] at hsum
    rw [List.map_cons, List.nodup_cons] at hnd
    obtain ⟨hanot, hndrest⟩ := hnd
    have hnnrest : ∀ e ∈ rest, 0 ≤ e.pct := fun e he => hnn e (List.mem_cons_of_mem _ he)
    have ha : 0 ≤ a.pct := hnn a (List.mem_cons_self _ _)
    have hrs := sum_pct_nonneg rest hnnrest
    have hwrap : wrapInt (c + a.pct) = c + a.pct := wrapInt_small _ (by omega) (by omega)
    have hstep : ∀ b : Int, walkString b d (a :: rest) c
        = if b < c + a.pct then (a.variant, Reason.Match)
          else walkString b d rest (c + a.pct) := by
      intro b
      rw [walkString]
      simp only [hwrap]
    rcases List.mem_cons.1 he with rfl | he
    · refine ⟨c, le_refl c, ?_, ?_⟩
      · simp only [List.map_cons, List.sum_cons]
        omega
      · intro b hb
        rw [hstep b]
        by_cases h : b < c + e.pct
        · rw [if_pos h]
          exact ⟨fun _ => ⟨hb, h⟩, fun _ => rfl⟩
        · rw [if_neg h]
          constructor
          · intro hw
            rcases walkString_cases b d rest (c + e.pct) with h1 | ⟨f, hf, h1⟩
            · rw [h1] at hw
              cases hw
            · rw [h1] at hw
              have hfe : f.variant = e.variant := congrArg Prod.fst hw
              exact absurd (List.mem_map.2 ⟨f, hf, hfe⟩) hanot
          · intro hlo
            exact absurd hlo.2 h
    · obtain ⟨lo, hlo1, hlo2, hiff⟩ := ih (c + a.pct) hndrest hnnrest (by omega) (by omega) e he
      refine ⟨lo, by omega, ?_, ?_⟩
      · simp only [List.map_cons, List.sum_cons]
        omega
      · intro b hb
        rw [hstep b]
        by_cases h : b < c + a.pct
        · rw [if_pos h]
          constructor
          · intro hw
            have hae : a.variant = e.variant := congrArg Prod.fst hw
            exact absurd (List.mem_map.2 ⟨e, he, hae.symm⟩) hanot
          · intro hlo
            omega
        · rw [if_neg h]
          exact hiff b (by omega)

theorem count_band (lo w : Int) (h0 : 0 ≤ lo) (hw : 0 ≤ w) :
    ∀ n : Nat, (((List.range n).filter
        (fun b : Nat => decide (lo ≤ (b : Int) ∧ (b : Int) < lo + w))).length : Int)
      = if (n : Int) ≤ lo then 0 else if (n : Int) ≤ lo + w then (n : Int) - lo else w := by
  intro n
  induction n with
  | zero => simp [h0]
  | succ n ih =>
    rw [List.range_succ, List.filter_append, List.length_append]
    push_cast
    rw [ih]
    by_cases hP : lo ≤ (n : Int) ∧ (n : Int) < lo + w
    · have : List.filter (fun b : Nat => decide (lo ≤ (b : Int) ∧ (b : Int) < lo + w)) [n]
          = [n] := by
        simp [hP]
      rw [this]
      simp only [List.length_singleton, Nat.cast_one]
      split_ifs <;> omega
    · have : List.filter (fun b : Nat => decide (lo ≤ (b : Int) ∧ (b : Int) < lo + w)) [n]
          = [] := by
        simp only [List.filter_cons, List.filter_nil]
        rw [if_neg]
        simpa using hP
      rw [this]
      simp only [List.length_nil, Nat.cast_zero]
      split_ifs <;> omega

theorem table_band (t : VariantTable) (d : String) (hnodup : t.names.Nodup)
    (hnonneg : ∀ w ∈ t.weights, 0 ≤ w) (hsum : t.weights.sum = 100) :
    ∀ e ∈ t, ∃ lo : Int, 0 ≤ lo ∧ lo + e.2 ≤ 100 ∧
      ∀ b : Int, 0 ≤ b →
        (walkString b d (sortedVariants t) 0 = (e.1, Reason.Match) ↔ lo ≤ b ∧ b < lo + e.2) := by
  intro e he
  have hnd : ((sortedVariants t).map variantPct.variant).Nodup :=
    (sortedVariants_names t).nodup_iff.2 hnodup
  have hnn : ∀ f ∈ sortedVariants t, 0 ≤ f.pct := by
    intro f hf
    apply hnonneg
    unfold VariantTable.weights
    exact List.mem_map.2 ⟨_, (mem_sortedVariants t f).1 hf, rfl⟩
  have htot : ((sortedVariants t).map variantPct.pct).sum = 100 := by
    rw [(sortedVariants_weights t).sum_eq]
    exact hsum
  have hmem : (⟨e.1, e.2⟩ : variantPct) ∈ sortedVariants t := (mem_sortedVariants t _).2 he
  obtain ⟨lo, h1, h2, h3⟩ := walkString_band d (sortedVariants t) 0 hnd hnn (le_refl 0)
    (by rw [htot]; decide) _ hmem
  rw [htot] at h2
  exact ⟨lo, h1, by simpa using h2, h3⟩

/-- C3: in a variant table with non-negative weights summing to 100, every
variant is selected by weighted bucketing for exactly as many of the bucket
values `0..99` as its weight; a variant of weight 100 is selected for every
flag key and subject, a variant of weight 0 for none. -/
theorem C3_band_width (t : VariantTable) (dS : String) (dB : Bool) (hnodup : t.names.Nodup)
    (hnonneg : ∀ w ∈ t.weights, 0 ≤ w) (hsum : t.weights.sum = 100) :
    (∀ e ∈ t, (((List.range 100).filter (fun b : Nat =>
        decide (walkString (b : Int) dS (sortedVariants t) 0 = (e.1, Reason.Match)))).length : Int)
      = e.2) ∧
    (∀ e ∈ t, e.2 = 100 → ∀ flagKey subjectKey : String,
      selectVariantString flagKey subjectKey t dS = (e.1, Reason.Match) ∧
      selectVariantBool flagKey subjectKey t dB = (decide (e.1 = "true"), Reason.Match)) ∧
    (∀ e ∈ t, e.2 = 0 → ∀ flagKey subjectKey : String,
      selectVariantString flagKey subjectKey t dS ≠ (e.1, Reason.Match)) := by
  have hne : t ≠ [] := by
    rintro rfl
    simp [VariantTable.weights] at hsum
  have hlen := length_ne_zero_of_ne_nil t hne
  have hS : ∀ flagKey subjectKey : String, selectVariantString flagKey subjectKey t dS
      = walkString (HashFlagContext flagKey subjectKey 0) dS (sortedVariants t) 0 := by
    intro flagKey subjectKey
    unfold selectVariantString
    rw [if_neg hlen]
  have hB : ∀ flagKey subjectKey : String, selectVariantBool flagKey subjectKey t dB
      = walkBool (HashFlagContext flagKey subjectKey 0) dB (sortedVariants t) 0 := by
    intro flagKey subjectKey
    unfold selectVariantBool
    rw [if_neg hlen]
  refine ⟨?_, ?_, ?_⟩
  · intro e he
    obtain ⟨lo, h0, h100, hiff⟩ := table_band t dS hnodup hnonneg hsum e he
    have hw : 0 ≤ e.2 := hnonneg e.2 (List.mem_map.2 ⟨e, he, rfl⟩)
    have hfilter : (List.range 100).filter (fun b : Nat =>
          decide (walkString (b : Int) dS (sortedVariants t) 0 = (e.1, Reason.Match)))
        = (List.range 100).filter (fun b : Nat =>
          decide (lo ≤ (b : Int) ∧ (b : Int) < lo + e.2)) := by
      apply List.filter_congr
      intro b _
      have := hiff (b : Int) (Int.ofNat_nonneg b)
      simp only [decide_eq_decide]
      exact this
    rw [hfilter, count_band lo e.2 h0 hw 100]
    push_cast
    split_ifs <;> omega
  · intro e he hfull flagKey subjectKey
    obtain ⟨lo, h0, h100, hiff⟩ := table_band t dS hnodup hnonneg hsum e he
    have hb0 := hash_nonneg flagKey subjectKey 0
    have hb1 := hash_lt flagKey subjectKey 0
    have hsel : walkString (HashFlagContext flagKey subjectKey 0) dS (sortedVariants t) 0
        = (e.1, Reason.Match) := (hiff _ hb0).2 ⟨by omega, by omega⟩
    refine ⟨by rw [hS]; exact hsel, ?_⟩
    rw [hB]
    exact (walkBool_of_walkString _ dB dS _ 0).1 _ hsel
  · intro e he hzero flagKey subjectKey hsel
    obtain ⟨lo, h0, h100, hiff⟩ := table_band t dS hnodup hnonneg hsum e he
    rw [hS] at hsel
    have := (hiff _ (hash_nonneg flagKey subjectKey 0)).1 hsel
    omega


/-! ### Independence of the enumeration order of a variant table -/

theorem selectVariantBool_perm (flagKey subjectKey : String) (t t2 : VariantTable) (d : Bool)
    (hp : t.Perm t2) (hn : t.names.Nodup) :
    selectVariantBool flagKey subjectKey t d = selectVariantBool flagKey subjectKey t2 d := by
  unfold selectVariantBool
  rw [hp.length_eq, sortedVariants_congr t t2 hp hn]

theorem selectVariantString_perm (flagKey subjectKey : String) (t t2 : VariantTable) (d : String)
    (hp : t.Perm t2) (hn : t.names.Nodup) :
    selectVariantString flagKey subjectKey t d = selectVariantString flagKey subjectKey t2 d := by
  unfold selectVariantString
  rw [hp.length_eq, sortedVariants_congr t t2 hp hn]

theorem EvalRule_congr (L : Stdlib) (r r2 : CompiledRule) (ctx : Context)
    (h : r.Conditions = r2.Conditions) : EvalRule L r ctx = EvalRule L r2 ctx := by
  unfold EvalRule
  rw [h]

theorem rulesBool_perm (L : Stdlib) (flagKey : String) (ctx : Context) (d : Bool)
    (rules rules2 : List CompiledRule) (h : List.Forall₂ sameRule rules rules2) :
    rulesBool L flagKey ctx d rules = rulesBool L flagKey ctx d rules2 := by
  induction h with
  | nil => rfl
  | cons hr _ ih =>
    unfold rulesBool
    rw [EvalRule_congr L _ _ ctx hr.1, selectVariantBool_perm flagKey ctx.Key _ _ d hr.2.1 hr.2.2,
      ih]

theorem rulesString_perm (L : Stdlib) (flagKey : String) (ctx : Context) (d : String)
    (rules rules2 : List CompiledRule) (h : List.Forall₂ sameRule rules rules2) :
    rulesString L flagKey ctx d rules = rulesString L flagKey ctx d rules2 := by
  induction h with
  | nil => rfl
  | cons hr _ ih =>
    unfold rulesString
    rw [EvalRule_congr L _ _ ctx hr.1,
      selectVariantString_perm flagKey ctx.Key _ _ d hr.2.1 hr.2.2, ih]

/-- C8: evaluation does not depend on the order in which the entries of a
variant table are enumerated: two flags that agree in everything except the
order of the entries of the flag's table and of the rules' tables evaluate to
the same value and reason, for the same key, context and caller default. -/
theorem C8_enumeration_order_irrelevant (L : Stdlib) (enabled : Bool) (ty : String)
    (variants variants2 : VariantTable) (rules rules2 : List CompiledRule)
    (flagDefault : Value) (flagKey : String) (ctx : Context) (dB : Bool) (dS : String)
    (hperm : variants.Perm variants2) (hnodup : variants.names.Nodup)
    (hrules : List.Forall₂ sameRule rules rules2) :
    EvalBool L (some ⟨enabled, ty, variants, rules, flagDefault⟩) flagKey ctx dB
      = EvalBool L (some ⟨enabled, ty, variants2, rules2, flagDefault⟩) flagKey ctx dB ∧
    EvalString L (some ⟨enabled, ty, variants, rules, flagDefault⟩) flagKey ctx dS
      = EvalString L (some ⟨enabled, ty, variants2, rules2, flagDefault⟩) flagKey ctx dS := by
  constructor
  · unfold EvalBool
    simp only
    rw [rulesBool_perm L flagKey ctx dB rules rules2 hrules, hperm.length_eq,
      selectVariantBool_perm flagKey ctx.Key variants variants2 dB hperm hnodup]
  · unfold EvalString
    simp only
    rw [rulesString_perm L flagKey ctx dS rules rules2 hrules, hperm.length_eq,
      selectVariantString_perm flagKey ctx.Key variants variants2 dS hperm hnodup]


/-! ### Instances at the sample data -/

/-- Witness for C1 at the flag of `TestEvalBool_WithRule`. -/
theorem C1_first_matching_rule_witness :
    (∀ r ∈ ([] : List CompiledRule), EvalRule sampleLib r proCtx = some false) ∧
    EvalRule sampleLib planRule proCtx = some true ∧
    EvalBool sampleLib (some ⟨true, "bool", halfTable, [planRule], .bool false⟩) "test" proCtx
      false = some (true, Reason.Match) :=
  ⟨by simp, by decide,
    (C1_first_matching_rule sampleLib "bool" "bool" halfTable halfTable [] planRule [] []
      (.bool false) (.bool false) "test" proCtx false "default" (by simp) (by decide)).1.trans
      (by decide)⟩

/-- Witness for C2 at the table of `TestEvalString_Enabled`. -/
theorem C2_select_first_exceeding_witness :
    colourTable ≠ [] ∧ colourTable.names.Nodup ∧
    ((∀ n ∈ colourTable.names, cumulativeWeight colourTable n ≤ HashFlagContext "test" "user:1" 0) →
      selectVariantString "test" "user:1" colourTable "default" = ("default", Reason.Percent) ∧
      selectVariantBool "test" "user:1" colourTable false = (false, Reason.Percent)) :=
  ⟨by decide, by decide,
    (C2_select_first_exceeding "test" "user:1" colourTable "default" false (by decide)
      (by decide)).2⟩

/-- Witness for C3 at the rule table of `TestEvalBool_WithRule`. -/
theorem C3_band_width_witness :
    allTrueTable.names.Nodup ∧ (∀ w ∈ allTrueTable.weights, 0 ≤ w) ∧
    allTrueTable.weights.sum = 100 ∧
    selectVariantString "test" "user:1" allTrueTable "default" = ("true", Reason.Match) ∧
    selectVariantBool "test" "user:1" allTrueTable false = (true, Reason.Match) :=
  ⟨by decide, by decide, by decide,
    (C3_band_width allTrueTable "default" false (by decide) (by decide) (by decide)).2.1
      ("true", 100) (by decide) rfl "test" "user:1"⟩

/-- Counterexample to C4 as stated: the flag of `TestEvalBool_Enabled` is
enabled, has no rule, a non-empty table with weights summing to 100, and is
evaluated with reason `Match`, not `Percent`. -/
theorem C4_counterexample :
    (∀ r ∈ ([] : List CompiledRule), EvalRule sampleLib r bareCtx = some false) ∧
    halfTable ≠ [] ∧ halfTable.weights.sum = 100 ∧
    EvalBool sampleLib (some ⟨true, "bool", halfTable, [], .bool false⟩) "test" bareCtx false
      = some (true, Reason.Match) ∧
    EvalBool sampleLib (some ⟨true, "bool", halfTable, [], .bool false⟩) "test" bareCtx false
      ≠ some (true, Reason.Percent) :=
  ⟨by simp, by decide, by decide, by decide, by decide⟩

/-- Witness for C4 at the flag of `TestEvalBool_Enabled`. -/
theorem C4_flag_rollout_reason_witness :
    (∀ r ∈ ([] : List CompiledRule), EvalRule sampleLib r bareCtx = some false) ∧
    halfTable ≠ [] ∧ halfTable.weights.sum = 100 ∧
    (selectVariantBool "test" bareCtx.Key halfTable false).2 = Reason.Match :=
  ⟨by simp, by decide, by decide,
    (C4_flag_rollout_reason sampleLib "bool" halfTable [] (.bool false) "test" bareCtx false
      "default" (by simp) (by decide) (by decide)).2.1⟩

/-- Witness for C6 at the unknown key `"nope"`. -/
theorem C6_missing_flag_witness :
    sampleCompiled.Flags.lookup "nope" = none ∧
    client.Boolean sampleLib ⟨some sampleCompiled, true⟩ "nope" bareCtx false
      = some (false, [⟨"nope", "false", Reason.Missing⟩]) :=
  ⟨rfl,
    (C6_missing_flag sampleLib "nope" bareCtx false "default" sampleCompiled true rfl).2.2.1⟩

/-- Witness for C7: an enabled flag without variants whose only rule asks for
`plan = "pro"`, evaluated in a context without attributes. -/
theorem C7_default_when_no_variants_witness :
    (∀ r ∈ [planRule], EvalRule sampleLib r bareCtx = some false) ∧
    EvalBool sampleLib (some ⟨true, "bool", [], [planRule], .bool true⟩) "test" bareCtx false
      = some (true, Reason.Default) :=
  ⟨by decide,
    (C7_default_when_no_variants sampleLib "bool" [planRule] (.bool true) "test" bareCtx false
      "default" (by decide)).1⟩

/-- Witness for C8: the flag of `TestEvalBool_WithRule` with both of its tables
enumerated in the opposite order. -/
theorem C8_enumeration_order_irrelevant_witness :
    halfTable.Perm [("false", 50), ("true", 50)] ∧ halfTable.names.Nodup ∧
    List.Forall₂ sameRule [planRule] [⟨planRule.Conditions, [("false", 0), ("true", 100)]⟩] ∧
    EvalBool sampleLib (some ⟨true, "bool", halfTable, [planRule], .bool false⟩) "test" proCtx
        false
      = EvalBool sampleLib (some ⟨true, "bool", [("false", 50), ("true", 50)],
          [⟨planRule.Conditions, [("false", 0), ("true", 100)]⟩], .bool false⟩) "test" proCtx
        false :=
  ⟨List.Perm.swap _ _ _, by decide,
    List.Forall₂.cons ⟨rfl, List.Perm.swap _ _ _, by decide⟩ List.Forall₂.nil,
    (C8_enumeration_order_irrelevant sampleLib true "bool" halfTable [("false", 50), ("true", 50)]
      [planRule] [⟨planRule.Conditions, [("false", 0), ("true", 100)]⟩] (.bool false) "test"
      proCtx false "default" (List.Perm.swap _ _ _) (by decide)
      (List.Forall₂.cons ⟨rfl, List.Perm.swap _ _ _, by decide⟩ List.Forall₂.nil)).1⟩

/-! ### Operators -/

theorem sprintVs_eq_map (L : Stdlib) (xs : List Value) :
    sprintVs L xs = xs.map (sprintV L) := by
  induction xs with
  | nil => simp [sprintVs]
  | cons x xs ih => simp [sprintVs, ih]

theorem ifaceEq_none_iff (a o : Value) :
    ifaceEq a o = none ↔
      (∃ xs ys, a = .slice xs ∧ o = .slice ys) ∨ (∃ m n, a = .map m ∧ o = .map n) := by
  cases a <;> cases o <;> simp [ifaceEq]

theorem eq_none_iff (L : Stdlib) (a o : Value) : eq L a o = none ↔ ifaceEq a o = none := by
  unfold eq
  cases h : ifaceEq a o with
  | none => simp
  | some b =>
    cases b
    · simp only
      split_ifs <;> simp
    · simp

theorem EvalOperator_eq (L : Stdlib) (a o : Value) (re : Option Regexp) :
    EvalOperator L a "eq" o re = eq L a o := by
  unfold EvalOperator
  simp

theorem EvalOperator_neq (L : Stdlib) (a o : Value) (re : Option Regexp) :
    EvalOperator L a "neq" o re = (eq L a o).map (fun r => (!r.1, r.2)) := by
  unfold EvalOperator
  simp only [show ¬ ("neq" = "eq") by decide, if_false, if_true]
  cases eq L a o <;> rfl

/-- The operator panics exactly on `eq` and `neq` applied to two sequences or to
two mappings. -/
theorem EvalOperator_none_iff (L : Stdlib) (a o : Value) (op : String) (re : Option Regexp) :
    EvalOperator L a op o re = none ↔ (op = "eq" ∨ op = "neq") ∧ ifaceEq a o = none := by
  unfold EvalOperator
  by_cases h1 : op = "eq"
  · simp [h1, eq_none_iff]
  · by_cases h2 : op = "neq"
    · simp only [h2, show ¬ ("neq" = "eq") by decide, if_false, if_true]
      cases he : eq L a o with
      | none => simp [← eq_none_iff L a o, he]
      | some r => simp [← eq_none_iff L a o, he]
    · simp only [h1, h2, if_false, false_or, false_and, iff_false]
      split_ifs <;> simp

/-- C12: `EvalRule` applied to a rule without conditions returns false, for
every context and whatever the rule's variant table is. -/
theorem C12_no_conditions_never_match (L : Stdlib) (variants : VariantTable) (ctx : Context) :
    EvalRule L ⟨[], variants⟩ ctx = some false := rfl

/-- C13 (the code departs from it): `EvalOperator` panics on the operators `eq`
and `neq` whenever both operands are sequences or both are mappings, and only
then; the panic passes through `EvalRule` and `EvalBool` to the caller. -/
theorem C13_uncomparable_operands_panic :
    (∀ (L : Stdlib) (xs ys : List Value) (re : Option Regexp),
      EvalOperator L (.slice xs) "eq" (.slice ys) re = none ∧
      EvalOperator L (.slice xs) "neq" (.slice ys) re = none) ∧
    (∀ (L : Stdlib) (m n : List (String × Value)) (re : Option Regexp),
      EvalOperator L (.map m) "eq" (.map n) re = none ∧
      EvalOperator L (.map m) "neq" (.map n) re = none) ∧
    EvalOperator sampleLib (.slice [.str "beta"]) "eq" (.slice [.str "beta"]) none = none ∧
    EvalRule sampleLib ⟨[⟨"tags", "eq", .slice [.str "beta"], none, true⟩], allTrueTable⟩
      ⟨"user:1", [("tags", .slice [.str "beta"])]⟩ = none ∧
    EvalBool sampleLib
      (some ⟨true, "bool", halfTable,
        [⟨[⟨"tags", "eq", .slice [.str "beta"], none, true⟩], allTrueTable⟩], .bool false⟩)
      "test" ⟨"user:1", [("tags", .slice [.str "beta"])]⟩ false = none := by
  refine ⟨?_, ?_, by decide, by decide, by decide⟩
  · intro L xs ys re
    constructor
    · rw [EvalOperator_none_iff]
      exact ⟨Or.inl rfl, rfl⟩
    · rw [EvalOperator_none_iff]
      exact ⟨Or.inr rfl, rfl⟩
  · intro L m n re
    constructor
    · rw [EvalOperator_none_iff]
      exact ⟨Or.inl rfl, rfl⟩
    · rw [EvalOperator_none_iff]
      exact ⟨Or.inr rfl, rfl⟩

theorem toFloat64_ok_iff (L : Stdlib) (v : Value) :
    (toFloat64 L v).2 = true ↔ coercesToNumber L v := by
  cases v <;> simp [toFloat64, coercesToNumber]
  case str s =>
    cases h : L.ParseFloat s <;> simp

theorem toFloat64_value (L : Stdlib) (v : Value) (x : F64) :
    numericValue L v = some x ↔ (toFloat64 L v).2 = true ∧ (toFloat64 L v).1 = x := by
  cases v <;> simp [toFloat64, numericValue]
  case str s =>
    cases h : L.ParseFloat s <;> simp

theorem compare_error_iff (L : Stdlib) (a o : Value) (allowed : List Int) :
    ((compare L a o allowed).2 ≠ none ↔ ¬ (coercesToNumber L a ∧ coercesToNumber L o)) ∧
    ((compare L a o allowed).2 ≠ none → (compare L a o allowed).1 = false) := by
  rw [← toFloat64_ok_iff, ← toFloat64_ok_iff]
  unfold compare
  simp only
  cases ha : (toFloat64 L a).2 <;> cases ho : (toFloat64 L o).2 <;> simp

/-- C14: for the operators `gt`, `gte`, `lt` and `lte` and all operands,
`EvalOperator` returns a result, and the result carries an error exactly when
at least one operand fails numeric coercion; with an error the boolean is
false, and there is no error when both operands coerce. -/
theorem C14_comparison_error_iff (L : Stdlib) (a o : Value) (op : String) (re : Option Regexp)
    (hop : op = "gt" ∨ op = "gte" ∨ op = "lt" ∨ op = "lte") :
    ∃ r : OpResult, EvalOperator L a op o re = some r ∧
      (r.2 ≠ none ↔ ¬ (coercesToNumber L a ∧ coercesToNumber L o)) ∧
      (r.2 ≠ none → r.1 = false) ∧
      (coercesToNumber L a → coercesToNumber L o → r.2 = none) := by
  have key : ∀ allowed : List Int, EvalOperator L a op o re = some (compare L a o allowed) →
      ∃ r : OpResult, EvalOperator L a op o re = some r ∧
        (r.2 ≠ none ↔ ¬ (coercesToNumber L a ∧ coercesToNumber L o)) ∧
        (r.2 ≠ none → r.1 = false) ∧
        (coercesToNumber L a → coercesToNumber L o → r.2 = none) := by
    intro allowed h
    have hc := compare_error_iff L a o allowed
    refine ⟨_, h, hc.1, hc.2, ?_⟩
    intro h1 h2
    by_contra hne
    exact hc.1.1 hne ⟨h1, h2⟩
  rcases hop with rfl | rfl | rfl | rfl
  · exact key [1] (by unfold EvalOperator; simp)
  · exact key [0, 1] (by unfold EvalOperator; simp)
  · exact key [-1] (by unfold EvalOperator; simp)
  · exact key [-1, 0] (by unfold EvalOperator; simp)


theorem F64_eq_ofInt_self (n : Int) : F64.eq (F64.ofInt n) (F64.ofInt n) = true := by
  unfold F64.ofInt
  simp only
  split_ifs <;> simp [F64.eq]

theorem eq_spec (L : Stdlib) (a o : Value) (hcmp : ifaceEq a o ≠ none) :
    ∃ m : Bool, eq L a o = some (m, none) ∧
      (m = true ↔ directlyEqual a o ∨ numbersEqual L a o ∨
        (¬ (coercesToNumber L a ∧ coercesToNumber L o) ∧ stringFormsEqual L a o)) := by
  unfold eq directlyEqual numbersEqual stringFormsEqual
  rw [← toFloat64_ok_iff, ← toFloat64_ok_iff]
  cases h : ifaceEq a o with
  | none => exact absurd h hcmp
  | some b =>
    cases b with
    | true => exact ⟨true, rfl, by simp⟩
    | false =>
      simp only
      by_cases hboth : ((toFloat64 L a).2 && (toFloat64 L o).2) = true
      · rw [if_pos hboth]
        have hb := hboth
        rw [Bool.and_eq_true] at hb
        refine ⟨_, rfl, ?_⟩
        constructor
        · intro hm
          right; left
          exact ⟨_, _, (toFloat64_value L a _).2 ⟨hb.1, rfl⟩,
            (toFloat64_value L o _).2 ⟨hb.2, rfl⟩, hm⟩
        · rintro (h1 | ⟨x, y, hx, hy, hxy⟩ | ⟨h3, _⟩)
          · cases h1
          · rw [toFloat64_value] at hx hy
            rw [hx.2, hy.2]
            exact hxy
          · exact absurd hb h3
      · rw [if_neg hboth]
        have hb : ¬ ((toFloat64 L a).2 = true ∧ (toFloat64 L o).2 = true) := by
          rw [← Bool.and_eq_true]
          exact hboth
        refine ⟨_, rfl, ?_⟩
        constructor
        · intro hm
          right; right
          exact ⟨hb, of_decide_eq_true hm⟩
        · rintro (h1 | ⟨x, y, hx, hy, _⟩ | ⟨_, h3⟩)
          · cases h1
          · rw [toFloat64_value] at hx hy
            exact absurd ⟨hx.1, hy.1⟩ hb
          · exact decide_eq_true h3

/-- C15 (as the code has it): for operands on which Go's direct comparison is
defined, `eq` returns no error, and returns true exactly when (a) the values
are directly equal, or (b) both coerce to numbers and the numbers are equal, or
(c) not both coerce to numbers and their string forms are equal; a string that
parses as the number an integer converts to is equal to that integer, and `neq`
returns the negation of `eq` with the same (absent) error. -/
theorem C15_eq_semantics (L : Stdlib) (a o : Value) (re : Option Regexp)
    (hcmp : ifaceEq a o ≠ none) :
    (∃ m : Bool, EvalOperator L a "eq" o re = some (m, none) ∧
      (m = true ↔ directlyEqual a o ∨ numbersEqual L a o ∨
        (¬ (coercesToNumber L a ∧ coercesToNumber L o) ∧ stringFormsEqual L a o)) ∧
      EvalOperator L a "neq" o re = some (!m, none)) ∧
    (∀ (k : IntKind) (s : String) (n : Int), L.ParseFloat s = some (F64.ofInt n) →
      EvalOperator L (.str s) "eq" (.int k n) re = some (true, none)) := by
  constructor
  · obtain ⟨m, h1, h2⟩ := eq_spec L a o hcmp
    refine ⟨m, ?_, h2, ?_⟩
    · rw [EvalOperator_eq]; exact h1
    · rw [EvalOperator_neq, h1]; rfl
  · intro k s n hs
    obtain ⟨m, h1, h2⟩ := eq_spec L (.str s) (.int k n) (by simp [ifaceEq])
    rw [EvalOperator_eq, h1]
    have hm : m = true := by
      rw [h2]
      right; left
      exact ⟨F64.ofInt n, F64.ofInt n, hs, rfl, F64_eq_ofInt_self n⟩
    rw [hm]

/-- C16: with the operator `in`, `EvalOperator` returns an error exactly when
the operator value is not a sequence; for a sequence it returns true exactly
when the string form of the attribute value is the string form of one of the
elements, so never for the empty sequence. -/
theorem C16_in_semantics (L : Stdlib) (a o : Value) (re : Option Regexp) :
    (∃ r : OpResult, EvalOperator L a "in" o re = some r ∧ (r.2 ≠ none ↔ ¬ isSequence o) ∧
      (r.2 ≠ none → r.1 = false)) ∧
    (∀ xs : List Value, ∃ m : Bool, EvalOperator L a "in" (.slice xs) re = some (m, none) ∧
      (m = true ↔ ∃ x ∈ xs, sprintV L x = sprintV L a)) ∧
    EvalOperator L a "in" (.slice []) re = some (false, none) := by
  have hin : ∀ v : Value, EvalOperator L a "in" v re = some (in_ L a v) := by
    intro v
    unfold EvalOperator
    simp
  refine ⟨⟨_, hin o, ?_, ?_⟩, ?_, ?_⟩
  · cases o <;> simp [in_, isSequence]
  · cases o <;> simp [in_]
  · intro xs
    refine ⟨_, by rw [hin]; rfl, ?_⟩
    rw [sprintVs_eq_map]
    simp [List.any_eq_true]
  · rw [hin]
    simp [in_, sprintVs]

/-- C17: for an operator string that is none of the nine operators,
`EvalOperator` returns the result false with an error, and for `matches`
without a compiled pattern it returns false with an error. -/
theorem C17_unknown_operator_and_missing_pattern (L : Stdlib) (a o : Value) (op : String)
    (re : Option Regexp)
    (hop : op ∉ ["eq", "neq", "gt", "gte", "lt", "lte", "in", "contains", "matches"]) :
    EvalOperator L a op o re = some (false, some ("unknown operator: " ++ op)) ∧
    EvalOperator L a "matches" o none = some (false, some "regex not compiled") := by
  constructor
  · simp only [List.mem_cons, List.mem_singleton, not_or, List.not_mem_nil, or_false] at hop
    obtain ⟨h1, h2, h3, h4, h5, h6, h7, h8, h9⟩ := hop
    unfold EvalOperator
    simp [h1, h2, h3, h4, h5, h6, h7, h8, h9]
  · unfold EvalOperator
    simp [matches_]


/-- Counterexample to C15 as stated: the string forms of NaN and NaN are equal,
yet `eq` answers false, because both operands coerce to numbers and the numeric
comparison decides. -/
theorem C15_counterexample :
    stringFormsEqual sampleLib (.float64 .nan) (.float64 .nan) ∧
    ifaceEq (.float64 .nan) (.float64 .nan) ≠ none ∧
    EvalOperator sampleLib (.float64 .nan) "eq" (.float64 .nan) none = some (false, none) :=
  ⟨rfl, by decide, by decide⟩

/-! ### Rules in "any" mode -/

theorem evalConditions_any (L : Stdlib) (ctx : Context) (cs : List CompiledCondition)
    (hany : ∀ c ∈ cs, c.IsAll = false) :
    ∀ (a : Bool) (r : Bool × Bool), evalConditions L ctx cs a false = some r →
      (r.2 = true ↔ ∃ c ∈ cs, condHolds L ctx c) := by
  induction cs with
  | nil =>
    intro a r h
    unfold evalConditions at h
    cases h
    simp
  | cons c rest ih =>
    intro a r h
    have hc : c.IsAll = false := hany c (List.mem_cons_self _ _)
    have ih2 := ih (fun c2 h2 => hany c2 (List.mem_cons_of_mem _ h2))
    have hskip : ¬ condHolds L ctx c →
        ((∃ c2 ∈ c :: rest, condHolds L ctx c2) ↔ ∃ c2 ∈ rest, condHolds L ctx c2) := by
      intro hn
      constructor
      · rintro ⟨c2, hc2, hh⟩
        rcases List.mem_cons.1 hc2 with rfl | hc2
        · exact absurd hh hn
        · exact ⟨c2, hc2, hh⟩
      · rintro ⟨c2, hc2, hh⟩
        exact ⟨c2, List.mem_cons_of_mem _ hc2, hh⟩
    unfold evalConditions at h
    cases hl : ctx.Attrs.lookup c.Attr with
    | none =>
      rw [hl] at h
      simp only [hc] at h
      have hn : ¬ condHolds L ctx c := by
        rintro ⟨v, hv, _⟩
        rw [hl] at hv
        cases hv
      rw [hskip hn]
      exact ih2 a r h
    | some v =>
      rw [hl] at h
      simp only at h
      cases ho : EvalOperator L v c.Op c.Value c.Regex with
      | none =>
        rw [ho] at h
        cases h
      | some res =>
        obtain ⟨m, err⟩ := res
        rw [ho] at h
        have hholds : condHolds L ctx c ↔ (m = true ∧ err = none) := by
          constructor
          · rintro ⟨v2, hv2, hop⟩
            rw [hl] at hv2
            cases hv2
            rw [ho] at hop
            cases hop
            exact ⟨rfl, rfl⟩
          · rintro ⟨rfl, rfl⟩
            exact ⟨v, hl, ho⟩
        cases err with
        | some msg =>
          simp only [hc] at h
          have hn : ¬ condHolds L ctx c := by
            rw [hholds]
            simp
          rw [hskip hn]
          exact ih2 a r h
        | none =>
          cases m with
          | false =>
            simp only [hc] at h
            have hn : ¬ condHolds L ctx c := by
              rw [hholds]
              simp
            rw [hskip hn]
            exact ih2 a r h
          | true =>
            simp only [hc, Bool.not_false, if_true] at h
            cases h
            simp only [true_iff]
            exact ⟨c, List.mem_cons_self _ _, hholds.2 ⟨rfl, rfl⟩⟩

/-- Whenever `EvalRule` returns on a rule in "any" mode, it returns true
exactly when some condition finds its attribute and evaluates to a match
without error. -/
theorem EvalRule_any_mode (L : Stdlib) (rule : CompiledRule) (ctx : Context)
    (hany : ∀ c ∈ rule.Conditions, c.IsAll = false) (b : Bool)
    (hret : EvalRule L rule ctx = some b) :
    (b = true ↔ ∃ c ∈ rule.Conditions, condHolds L ctx c) := by
  unfold EvalRule at hret
  cases hcs : rule.Conditions with
  | nil =>
    rw [hcs] at hret
    cases hret
    simp
  | cons first rest =>
    rw [hcs] at hret
    have hf : first.IsAll = false := hany first (by rw [hcs]; exact List.mem_cons_self _ _)
    simp only at hret
    cases he : evalConditions L ctx (first :: rest) true false with
    | none =>
      rw [he] at hret
      cases hret
    | some p =>
      rw [he] at hret
      obtain ⟨am, ym⟩ := p
      simp only [hf, Bool.false_eq_true, if_false, Option.some.injEq] at hret
      subst hret
      have := evalConditions_any L ctx (first :: rest) (by rw [← hcs]; exact hany) true _ he
      exact this

/-- C11 (the code departs from it): in the "any" rule `tagsOrPlanRule` the
second condition finds `plan = "pro"` and evaluates to a match without error,
yet `EvalRule` does not return true: the first condition compares a sequence
with a sequence and panics. -/
theorem C11_panic_hides_later_match :
    tagsOrPlanRule.Conditions ≠ [] ∧
    (∀ c ∈ tagsOrPlanRule.Conditions, c.IsAll = false) ∧
    (∃ c ∈ tagsOrPlanRule.Conditions, condHolds sampleLib tagsProCtx c) ∧
    EvalRule sampleLib tagsOrPlanRule tagsProCtx = none := by
  refine ⟨List.cons_ne_nil _ _, by simp [tagsOrPlanRule], ?_, by decide⟩
  exact ⟨⟨"plan", "eq", .str "pro", none, false⟩, by simp [tagsOrPlanRule],
    ⟨.str "pro", rfl, by decide⟩⟩

/-- C10 (the code departs from it): in the "all" rule `tagsAndPlanRule` the
second condition asks for the attribute `plan`, which the context does not
have, so the rule should answer false; yet `EvalRule` returns nothing: the
first condition compares a sequence with a sequence and panics. -/
theorem C10_panic_hides_failing_condition :
    tagsAndPlanRule.Conditions ≠ [] ∧
    (∀ c ∈ tagsAndPlanRule.Conditions, c.IsAll = true) ∧
    (∃ c ∈ tagsAndPlanRule.Conditions,
      tagsCtx.Attrs.lookup c.Attr = none ∧ condFails sampleLib tagsCtx c) ∧
    EvalRule sampleLib tagsAndPlanRule tagsCtx = none ∧
    EvalRule sampleLib tagsAndPlanRule tagsCtx ≠ some false := by
  refine ⟨List.cons_ne_nil _ _, by simp [tagsAndPlanRule], ?_, by decide, by decide⟩
  exact ⟨⟨"plan", "eq", .str "pro", none, true⟩, by simp [tagsAndPlanRule], rfl, Or.inl rfl⟩


/-! ### Validation of a configuration -/

theorem weights_mem (t : VariantTable) (w : Int) (h : w ∈ t.weights) : ∃ e ∈ t, e.2 = w := by
  unfold VariantTable.weights at h
  obtain ⟨e, he, rfl⟩ := List.mem_map.1 h
  exact ⟨e, he, rfl⟩

theorem boolVariantsLoop_ok (t : VariantTable) :
    ∀ (total : Int) (hasTrue hasFalse : Bool) (r : Int × Bool × Bool),
      boolVariantsLoop t total hasTrue hasFalse = .ok r →
      (∀ e ∈ t, (e.1 = "true" ∨ e.1 = "false") ∧ 0 ≤ e.2 ∧ e.2 ≤ 100) ∧
      r.1 = total + t.weights.sum ∧
      (r.2.1 = true ↔ hasTrue = true ∨ "true" ∈ t.names) ∧
      (r.2.2 = true ↔ hasFalse = true ∨ "false" ∈ t.names) := by
  induction t with
  | nil =>
    intro total hasTrue hasFalse r h
    unfold boolVariantsLoop at h
    cases h
    simp [VariantTable.weights, VariantTable.names]
  | cons e rest ih =>
    intro total hasTrue hasFalse r h
    obtain ⟨k, v⟩ := e
    unfold boolVariantsLoop at h
    by_cases hk : k ≠ "true" ∧ k ≠ "false"
    · rw [if_pos hk] at h
      cases h
    · rw [if_neg hk] at h
      simp only at h
      by_cases hv : v < 0 ∨ v > 100
      · rw [if_pos hv] at h
        cases h
      · rw [if_neg hv] at h
        obtain ⟨h1, h2, h3, h4⟩ := ih _ _ _ r h
        have hk2 : k = "true" ∨ k = "false" := by
          by_contra hcon
          exact hk ⟨fun h => hcon (Or.inl h), fun h => hcon (Or.inr h)⟩
        refine ⟨?_, ?_, ?_, ?_⟩
        · intro e he
          rcases List.mem_cons.1 he with rfl | he
          · exact ⟨hk2, by omega, by omega⟩
          · exact h1 e he
        · rw [h2]
          simp only [VariantTable.weights, List.map_cons, List.sum_cons]
          omega
        · rw [h3]
          simp only [VariantTable.names, List.map_cons, List.mem_cons]
          by_cases hkt : k = "true"
          · simp [hkt]
          · have : ¬ "true" = k := fun h => hkt h.symm
            simp [hkt, this]
        · rw [h4]
          simp only [VariantTable.names, List.map_cons, List.mem_cons]
          by_cases hkf : k = "false"
          · simp [hkf]
          · have : ¬ "false" = k := fun h => hkf h.symm
            simp [hkf, this]

theorem stringVariantsLoop_ok (t : VariantTable) :
    ∀ (total r : Int), stringVariantsLoop t total = .ok r →
      (∀ e ∈ t, 0 ≤ e.2 ∧ e.2 ≤ 100) ∧ r = total + t.weights.sum := by
  induction t with
  | nil =>
    intro total r h
    unfold stringVariantsLoop at h
    cases h
    simp [VariantTable.weights]
  | cons e rest ih =>
    intro total r h
    obtain ⟨k, v⟩ := e
    unfold stringVariantsLoop at h
    by_cases hv : v < 0 ∨ v > 100
    · rw [if_pos hv] at h
      cases h
    · rw [if_neg hv] at h
      obtain ⟨h1, h2⟩ := ih _ r h
      refine ⟨?_, ?_⟩
      · intro e he
        rcases List.mem_cons.1 he with rfl | he
        · exact ⟨by omega, by omega⟩
        · exact h1 e he
      · rw [h2]
        simp only [VariantTable.weights, List.map_cons, List.sum_cons]
        omega

theorem ruleBoolVariantsLoop_ok (i : Nat) (t : VariantTable) :
    ∀ (total r : Int), ruleBoolVariantsLoop i t total = .ok r →
      (∀ e ∈ t, (e.1 = "true" ∨ e.1 = "false") ∧ 0 ≤ e.2 ∧ e.2 ≤ 100) ∧
      r = total + t.weights.sum := by
  induction t with
  | nil =>
    intro total r h
    unfold ruleBoolVariantsLoop at h
    cases h
    simp [VariantTable.weights]
  | cons e rest ih =>
    intro total r h
    obtain ⟨k, v⟩ := e
    unfold ruleBoolVariantsLoop at h
    by_cases hk : k ≠ "true" ∧ k ≠ "false"
    · rw [if_pos hk] at h
      cases h
    · rw [if_neg hk] at h
      by_cases hv : v < 0 ∨ v > 100
      · rw [if_pos hv] at h
        cases h
      · rw [if_neg hv] at h
        obtain ⟨h1, h2⟩ := ih _ r h
        have hk2 : k = "true" ∨ k = "false" := by
          by_contra hcon
          exact hk ⟨fun h => hcon (Or.inl h), fun h => hcon (Or.inr h)⟩
        refine ⟨?_, ?_⟩
        · intro e he
          rcases List.mem_cons.1 he with rfl | he
          · exact ⟨hk2, by omega, by omega⟩
          · exact h1 e he
        · rw [h2]
          simp only [VariantTable.weights, List.map_cons, List.sum_cons]
          omega

theorem ruleStringVariantsLoop_ok (i : Nat) (t : VariantTable) :
    ∀ (total r : Int), ruleStringVariantsLoop i t total = .ok r →
      (∀ e ∈ t, 0 ≤ e.2 ∧ e.2 ≤ 100) ∧ r = total + t.weights.sum := by
  induction t with
  | nil =>
    intro total r h
    unfold ruleStringVariantsLoop at h
    cases h
    simp [VariantTable.weights]
  | cons e rest ih =>
    intro total r h
    obtain ⟨k, v⟩ := e
    unfold ruleStringVariantsLoop at h
    by_cases hv : v < 0 ∨ v > 100
    · rw [if_pos hv] at h
      cases h
    · rw [if_neg hv] at h
      obtain ⟨h1, h2⟩ := ih _ r h
      refine ⟨?_, ?_⟩
      · intro e he
        rcases List.mem_cons.1 he with rfl | he
        · exact ⟨by omega, by omega⟩
        · exact h1 e he
      · rw [h2]
        simp only [VariantTable.weights, List.map_cons, List.sum_cons]
        omega

theorem Rule_Validate_none_variants (L : Stdlib) (r : Rule) (h : r.Validate L = none) :
    r.Then.Variants.length > 0 := by
  by_contra hlen
  have hz : r.Then.Variants.length = 0 := by omega
  unfold Rule.Validate at h
  simp only [hz, if_true] at h
  split_ifs at h <;> (split at h <;> cases h)

theorem validateRule_none (L : Stdlib) (ty : String) (i : Nat) (rule : Rule)
    (h : validateRule L ty i rule = none) :
    rule.Validate L = none ∧
    (∀ w ∈ rule.Then.Variants.weights, 0 ≤ w ∧ w ≤ 100) ∧
    rule.Then.Variants.weights.sum = 100 := by
  unfold validateRule at h
  cases hv : rule.Validate L with
  | some e =>
    rw [hv] at h
    cases h
  | none =>
    rw [hv] at h
    have hlen := Rule_Validate_none_variants L rule hv
    simp only [hlen, if_true] at h
    refine ⟨rfl, ?_⟩
    by_cases hty : ty = "bool"
    · rw [if_pos hty] at h
      cases hl : ruleBoolVariantsLoop i rule.Then.Variants 0 with
      | error e =>
        rw [hl] at h
        cases h
      | ok total =>
        rw [hl] at h
        simp only at h
        obtain ⟨h1, h2⟩ := ruleBoolVariantsLoop_ok i _ 0 total hl
        split_ifs at h with hne
        have ht : total = 100 := not_not.1 hne
        refine ⟨?_, by omega⟩
        intro w hw
        obtain ⟨e, he, rfl⟩ := weights_mem _ w hw
        exact (h1 e he).2
    · rw [if_neg hty] at h
      cases hl : ruleStringVariantsLoop i rule.Then.Variants 0 with
      | error e =>
        rw [hl] at h
        cases h
      | ok total =>
        rw [hl] at h
        simp only at h
        obtain ⟨h1, h2⟩ := ruleStringVariantsLoop_ok i _ 0 total hl
        split_ifs at h with hne
        have ht : total = 100 := not_not.1 hne
        refine ⟨?_, by omega⟩
        intro w hw
        obtain ⟨e, he, rfl⟩ := weights_mem _ w hw
        exact h1 e he

theorem validateRules_none (L : Stdlib) (ty : String) (rules : List Rule) :
    ∀ i, validateRules L ty rules i = none →
      ∀ r ∈ rules, ∃ j, validateRule L ty j r = none := by
  induction rules with
  | nil =>
    intro i _ r hr
    exact absurd hr (List.not_mem_nil r)
  | cons rule rest ih =>
    intro i h r hr
    unfold validateRules at h
    cases hv : validateRule L ty i rule with
    | some e =>
      rw [hv] at h
      cases h
    | none =>
      rw [hv] at h
      rcases List.mem_cons.1 hr with rfl | hr
      · exact ⟨i, hv⟩
      · exact ih (i + 1) h r hr


theorem validateBoolFlag_none (f : Flag) (h : validateBoolFlag f = none)
    (hne : f.Variants ≠ []) :
    (∀ e ∈ f.Variants, (e.1 = "true" ∨ e.1 = "false") ∧ 0 ≤ e.2 ∧ e.2 ≤ 100) ∧
    f.Variants.weights.sum = 100 ∧ "true" ∈ f.Variants.names ∧ "false" ∈ f.Variants.names := by
  have hlen : f.Variants.length > 0 := List.length_pos.2 hne
  unfold validateBoolFlag at h
  simp only [hlen, if_true] at h
  split at h
  · cases h
  · cases hl : boolVariantsLoop f.Variants 0 false false with
    | error e =>
      rw [hl] at h
      cases h
    | ok r =>
      rw [hl] at h
      obtain ⟨total, hasTrue, hasFalse⟩ := r
      simp only at h
      obtain ⟨h1, h2, h3, h4⟩ := boolVariantsLoop_ok f.Variants 0 false false _ hl
      simp only [Bool.false_eq_true, false_or] at h3 h4
      split_ifs at h with hb hs
      have hs2 : total = 100 := not_not.1 hs
      have hb2 : hasTrue = true ∧ hasFalse = true := by
        cases hasTrue <;> cases hasFalse <;> simp at hb ⊢
      simp only at h2
      exact ⟨h1, by omega, h3.1 hb2.1, h4.1 hb2.2⟩

theorem validateStringFlag_none (f : Flag) (h : validateStringFlag f = none)
    (hne : f.Variants ≠ []) :
    (∀ e ∈ f.Variants, 0 ≤ e.2 ∧ e.2 ≤ 100) ∧ f.Variants.weights.sum = 100 := by
  have hlen : f.Variants.length > 0 := List.length_pos.2 hne
  unfold validateStringFlag at h
  simp only [hlen, if_true] at h
  split at h
  · cases h
  · cases hl : stringVariantsLoop f.Variants 0 with
    | error e =>
      rw [hl] at h
      cases h
    | ok total =>
      rw [hl] at h
      simp only at h
      obtain ⟨h1, h2⟩ := stringVariantsLoop_ok f.Variants 0 total hl
      split_ifs at h with hs
      have hs2 : total = 100 := not_not.1 hs
      exact ⟨h1, by omega⟩

theorem Flag_Validate_none (L : Stdlib) (f : Flag) (flagKey : String)
    (h : f.Validate L flagKey = none) :
    (f.Type_ = "bool" ∨ f.Type_ = "string") ∧
    (f.Type_ = "bool" → validateBoolFlag f = none) ∧
    (f.Type_ ≠ "bool" → validateStringFlag f = none) ∧
    validateRules L f.Type_ f.Rules 0 = none := by
  unfold Flag.Validate at h
  by_cases hty : f.Type_ ≠ "bool" ∧ f.Type_ ≠ "string"
  · rw [if_pos hty] at h
    cases h
  · rw [if_neg hty] at h
    have hty2 : f.Type_ = "bool" ∨ f.Type_ = "string" := by
      by_contra hcon
      exact hty ⟨fun h => hcon (Or.inl h), fun h => hcon (Or.inr h)⟩
    refine ⟨hty2, ?_⟩
    by_cases hb : f.Type_ = "bool"
    · simp only [hb, if_true] at h
      cases hh : validateBoolFlag f with
      | some e =>
        rw [hh] at h
        cases h
      | none =>
        rw [hh] at h
        exact ⟨fun _ => rfl, fun hn => absurd hb hn, by rw [hb]; exact h⟩
    · simp only [hb, if_false] at h
      cases hh : validateStringFlag f with
      | some e =>
        rw [hh] at h
        cases h
      | none =>
        rw [hh] at h
        exact ⟨fun hn => absurd hn hb, fun _ => rfl, h⟩

theorem Flag_Validate_tables (L : Stdlib) (f : Flag) (flagKey : String)
    (h : f.Validate L flagKey = none) :
    (f.Variants ≠ [] →
      (∀ w ∈ f.Variants.weights, 0 ≤ w ∧ w ≤ 100) ∧ f.Variants.weights.sum = 100) ∧
    (∀ r ∈ f.Rules,
      (∀ w ∈ r.Then.Variants.weights, 0 ≤ w ∧ w ≤ 100) ∧ r.Then.Variants.weights.sum = 100) := by
  obtain ⟨_, hb, hs, hr⟩ := Flag_Validate_none L f flagKey h
  constructor
  · intro hne
    by_cases hty : f.Type_ = "bool"
    · obtain ⟨h1, h2, _, _⟩ := validateBoolFlag_none f (hb hty) hne
      refine ⟨?_, h2⟩
      intro w hw
      obtain ⟨e, he, rfl⟩ := weights_mem _ w hw
      exact (h1 e he).2
    · obtain ⟨h1, h2⟩ := validateStringFlag_none f (hs hty) hne
      refine ⟨?_, h2⟩
      intro w hw
      obtain ⟨e, he, rfl⟩ := weights_mem _ w hw
      exact h1 e he
  · intro r hrm
    obtain ⟨j, hj⟩ := validateRules_none L f.Type_ f.Rules 0 hr r hrm
    exact (validateRule_none L f.Type_ j r hj).2

theorem validateFlags_none_iff (L : Stdlib) (flags : List (String × Flag)) :
    validateFlags L flags = none ↔ ∀ kf ∈ flags, kf.2.Validate L kf.1 = none := by
  induction flags with
  | nil => simp [validateFlags]
  | cons kf rest ih =>
    obtain ⟨k, f⟩ := kf
    unfold validateFlags
    cases hv : f.Validate L k with
    | some e =>
      simp only [false_iff, reduceCtorEq]
      intro hall
      have := hall (k, f) (List.mem_cons_self _ _)
      rw [hv] at this
      cases this
    | none =>
      simp only
      rw [ih]
      constructor
      · intro hall kf hkf
        rcases List.mem_cons.1 hkf with rfl | hkf
        · exact hv
        · exact hall kf hkf
      · intro hall kf hkf
        exact hall kf (List.mem_cons_of_mem _ hkf)

theorem Config_Validate_none_iff (L : Stdlib) (c : Config) :
    c.Validate L = none ↔
      c.Version = 1 ∧ c.Flags ≠ [] ∧ ∀ kf ∈ c.Flags, kf.2.Validate L kf.1 = none := by
  unfold Config.Validate
  by_cases hv : c.Version ≠ 1
  · rw [if_pos hv]
    constructor
    · intro h; cases h
    · intro h; exact absurd h.1 hv
  · rw [if_neg hv]
    have hv1 : c.Version = 1 := not_not.1 hv
    by_cases hz : c.Flags.length = 0
    · rw [if_pos hz]
      constructor
      · intro h; cases h
      · intro h; exact absurd (List.length_eq_zero.1 hz) h.2.1
    · rw [if_neg hz, validateFlags_none_iff]
      have hne : c.Flags ≠ [] := fun h => hz (by rw [h]; rfl)
      exact ⟨fun h => ⟨hv1, hne, h⟩, fun h => h.2.2⟩

/-- C18: in a configuration accepted by `Config.Validate`, every non-empty
flag-level variant table and every rule's then-table has each weight between 0
and 100 and weights that sum to exactly 100; the tables with weights 60 and 30
of the tests are rejected and the table with weights 50 and 50 is accepted. -/
theorem C18_accepted_tables_sum_to_100 (L : Stdlib) :
    (∀ c : Config, c.Validate L = none → ∀ kf ∈ c.Flags,
      (kf.2.Variants ≠ [] →
        (∀ w ∈ kf.2.Variants.weights, 0 ≤ w ∧ w ≤ 100) ∧ kf.2.Variants.weights.sum = 100) ∧
      (∀ r ∈ kf.2.Rules,
        (∀ w ∈ r.Then.Variants.weights, 0 ≤ w ∧ w ≤ 100) ∧
          r.Then.Variants.weights.sum = 100)) ∧
    Config.Validate L ⟨1, [("test", badSumBoolFlag)]⟩
      = some (.flag "test" (.boolSum 90)) ∧
    Config.Validate L ⟨1, [("test", badSumStringFlag)]⟩
      = some (.flag "test" (.stringSum 90)) ∧
    Config.Validate L ⟨1, [("test_flag", validBoolFlag)]⟩ = none := by
  refine ⟨?_, rfl, rfl, rfl⟩
  intro c hok kf hkf
  have hflag := ((Config_Validate_none_iff L c).1 hok).2.2 kf hkf
  exact Flag_Validate_tables L kf.2 kf.1 hflag

/-- C19: `Config.Validate` returns the nil error exactly when the version is 1,
at least one flag is defined and `Flag.Validate` returns the nil error for
every flag; whether it does is the same for every order in which the flag map
is enumerated. -/
theorem C19_config_accept_iff (L : Stdlib) (version : Int) (flags flags2 : List (String × Flag))
    (hperm : flags.Perm flags2) :
    (Config.Validate L ⟨version, flags⟩ = none ↔
      version = 1 ∧ flags ≠ [] ∧ ∀ kf ∈ flags, kf.2.Validate L kf.1 = none) ∧
    (Config.Validate L ⟨version, flags⟩ = none ↔ Config.Validate L ⟨version, flags2⟩ = none) := by
  refine ⟨Config_Validate_none_iff L ⟨version, flags⟩, ?_⟩
  rw [Config_Validate_none_iff, Config_Validate_none_iff]
  simp only
  constructor
  · rintro ⟨h1, h2, h3⟩
    refine ⟨h1, ?_, fun kf hkf => h3 kf (hperm.mem_iff.2 hkf)⟩
    intro hnil
    rw [hnil] at hperm
    exact h2 hperm.eq_nil
  · rintro ⟨h1, h2, h3⟩
    refine ⟨h1, ?_, fun kf hkf => h3 kf (hperm.mem_iff.1 hkf)⟩
    intro hnil
    rw [hnil] at hperm
    exact h2 hperm.symm.eq_nil

/-- C20: `Flag.Validate` accepts a bool flag with a non-empty flag-level table
only if every key of the table is "true" or "false" and both keys are present;
the table with the single key "false" and a table with a third key are
rejected. -/
theorem C20_bool_table_keys (L : Stdlib) (flagKey : String) :
    (∀ f : Flag, f.Type_ = "bool" → f.Variants ≠ [] → f.Validate L flagKey = none →
      (∀ n ∈ f.Variants.names, n = "true" ∨ n = "false") ∧
      "true" ∈ f.Variants.names ∧ "false" ∈ f.Variants.names) ∧
    missingTrueFlag.Validate L flagKey = some .boolNeedsBoth ∧
    extraKeyFlag.Validate L flagKey = some (.boolVariantKey "maybe") := by
  refine ⟨?_, rfl, rfl⟩
  intro f hty hne hok
  obtain ⟨_, hb, _, _⟩ := Flag_Validate_none L f flagKey hok
  obtain ⟨h1, _, h3, h4⟩ := validateBoolFlag_none f (hb hty) hne
  refine ⟨?_, h3, h4⟩
  intro n hn
  unfold VariantTable.names at hn
  obtain ⟨e, he, rfl⟩ := List.mem_map.1 hn
  exact (h1 e he).1


/-! ### Instances at the sample data, operators and validation -/

/-- Witness for C14 at the operands of `TestEvalRule_ErrorHandling`. -/
theorem C14_comparison_error_iff_witness :
    ("gt" = "gt" ∨ "gt" = "gte" ∨ "gt" = "lt" ∨ "gt" = "lte") ∧
    ∃ r : OpResult,
      EvalOperator sampleLib (.str "not a number") "gt" (.int .int 10) none = some r ∧
      (r.2 ≠ none ↔
        ¬ (coercesToNumber sampleLib (.str "not a number") ∧
          coercesToNumber sampleLib (.int .int 10))) ∧
      (r.2 ≠ none → r.1 = false) ∧
      (coercesToNumber sampleLib (.str "not a number") →
        coercesToNumber sampleLib (.int .int 10) → r.2 = none) :=
  ⟨Or.inl rfl,
    C14_comparison_error_iff sampleLib (.str "not a number") (.int .int 10) "gt" none
      (Or.inl rfl)⟩

/-- Witness for C15 at the operands "string to int" of `TestEvalOperator_eq`. -/
theorem C15_eq_semantics_witness :
    ifaceEq (.str "42") (.int .int 42) ≠ none ∧
    parse42Lib.ParseFloat "42" = some (F64.ofInt 42) ∧
    EvalOperator parse42Lib (.str "42") "eq" (.int .int 42) none = some (true, none) :=
  ⟨by decide, rfl,
    (C15_eq_semantics parse42Lib (.str "42") (.int .int 42) none (by decide)).2
      .int "42" 42 rfl⟩

/-- Witness for C17 at the operator of `TestEvalOperator_UnknownOp`. -/
theorem C17_unknown_operator_and_missing_pattern_witness :
    "unknown" ∉ ["eq", "neq", "gt", "gte", "lt", "lte", "in", "contains", "matches"] ∧
    EvalOperator sampleLib (.str "value") "unknown" (.str "value") none
      = some (false, some "unknown operator: unknown") :=
  ⟨by decide,
    (C17_unknown_operator_and_missing_pattern sampleLib (.str "value") (.str "value") "unknown"
      none (by decide)).1⟩

/-- Witness for C18 at a string flag with one rule. -/
theorem C18_accepted_tables_sum_to_100_witness :
    Config.Validate sampleLib ⟨1, [("colour", ruledFlag)]⟩ = none ∧
    (∀ kf ∈ [("colour", ruledFlag)],
      (kf.2.Variants ≠ [] →
        (∀ w ∈ kf.2.Variants.weights, 0 ≤ w ∧ w ≤ 100) ∧ kf.2.Variants.weights.sum = 100) ∧
      (∀ r ∈ kf.2.Rules,
        (∀ w ∈ r.Then.Variants.weights, 0 ≤ w ∧ w ≤ 100) ∧
          r.Then.Variants.weights.sum = 100)) :=
  ⟨by decide,
    (C18_accepted_tables_sum_to_100 sampleLib).1 ⟨1, [("colour", ruledFlag)]⟩ (by decide)⟩

/-- Witness for C19 at a configuration of two flags, enumerated in both
orders. -/
theorem C19_config_accept_iff_witness :
    [("a", validBoolFlag), ("b", ruledFlag)].Perm [("b", ruledFlag), ("a", validBoolFlag)] ∧
    Config.Validate sampleLib ⟨1, [("a", validBoolFlag), ("b", ruledFlag)]⟩ = none ∧
    Config.Validate sampleLib ⟨1, [("b", ruledFlag), ("a", validBoolFlag)]⟩ = none :=
  ⟨List.Perm.swap _ _ _, by decide,
    (C19_config_accept_iff sampleLib 1 [("a", validBoolFlag), ("b", ruledFlag)]
      [("b", ruledFlag), ("a", validBoolFlag)] (List.Perm.swap _ _ _)).2.1 (by decide)⟩

/-- Witness for C20 at the flag "valid config" of `TestConfigValidate`. -/
theorem C20_bool_table_keys_witness :
    validBoolFlag.Type_ = "bool" ∧ validBoolFlag.Variants ≠ [] ∧
    validBoolFlag.Validate sampleLib "test_flag" = none ∧
    "true" ∈ validBoolFlag.Variants.names ∧ "false" ∈ validBoolFlag.Variants.names :=
  ⟨rfl, by decide, by decide,
    ((C20_bool_table_keys sampleLib "test_flag").1 validBoolFlag rfl (by decide)
      (by decide)).2⟩

/-! ### Validation of rules and flags -/

theorem validateConditions_none (L : Stdlib) (cs : List AttributeCondition) :
    ∀ i, validateConditions L cs i = none →
      ∀ cond ∈ cs, cond.Attr ≠ "" ∧ cond.Op ∈ validOps ∧
        (cond.Op = "matches" → ∃ p, cond.Value = .str p ∧ L.RegexpCompile p ≠ none) := by
  induction cs with
  | nil =>
    intro i _ cond hc
    exact absurd hc (List.not_mem_nil cond)
  | cons c rest ih =>
    intro i h cond hc
    unfold validateConditions at h
    by_cases ha : c.Attr = ""
    · rw [if_pos ha] at h
      cases h
    · rw [if_neg ha] at h
      by_cases hop : (!validOps.contains c.Op) = true
      · rw [if_pos hop] at h
        cases h
      · rw [if_neg hop] at h
        have hmem : c.Op ∈ validOps := by
          simpa using hop
        by_cases hm : c.Op = "matches"
        · rw [if_pos hm] at h
          cases hv : c.Value with
          | str pattern =>
            rw [hv] at h
            simp only at h
            cases hr : L.RegexpCompile pattern with
            | none =>
              rw [hr] at h
              cases h
            | some re =>
              rw [hr] at h
              rcases List.mem_cons.1 hc with rfl | hc
              · refine ⟨ha, hmem, fun _ => ⟨pattern, hv, ?_⟩⟩
                rw [hr]
                simp
              · exact ih (i + 1) h cond hc
          | nil => rw [hv] at h; cases h
          | bool b => rw [hv] at h; cases h
          | int k n => rw [hv] at h; cases h
          | float32 f => rw [hv] at h; cases h
          | float64 f => rw [hv] at h; cases h
          | slice xs => rw [hv] at h; cases h
          | map m => rw [hv] at h; cases h
        · rw [if_neg hm] at h
          rcases List.mem_cons.1 hc with rfl | hc
          · exact ⟨ha, hmem, fun hmm => absurd hmm hm⟩
          · exact ih (i + 1) h cond hc

theorem Rule_Validate_none (L : Stdlib) (r : Rule) (h : r.Validate L = none) :
    ((r.When.All ≠ [] ∧ r.When.Any = []) ∨ (r.When.All = [] ∧ r.When.Any ≠ [])) ∧
    validateConditions L (r.When.All ++ r.When.Any) 0 = none := by
  unfold Rule.Validate at h
  simp only at h
  cases hall : r.When.All with
  | nil =>
    cases hany : r.When.Any with
    | nil =>
      rw [hall, hany] at h
      simp at h
    | cons a as =>
      rw [hall, hany] at h
      simp only [List.length_nil, List.length_cons, gt_iff_lt, lt_self_iff_false, decide_False,
        Bool.not_false, Nat.zero_lt_succ, decide_True, Bool.not_true, Bool.and_false,
        Bool.false_eq_true, if_false, Bool.and_true, if_true] at h
      refine ⟨Or.inr ⟨rfl, List.cons_ne_nil _ _⟩, ?_⟩
      simp only [List.nil_append]
      cases hv : validateConditions L (a :: as) 0 with
      | none => rfl
      | some e =>
        rw [hv] at h
        cases h
  | cons a as =>
    cases hany : r.When.Any with
    | nil =>
      rw [hall, hany] at h
      simp only [List.length_nil, List.length_cons, gt_iff_lt, lt_self_iff_false, decide_False,
        Bool.not_false, Nat.zero_lt_succ, decide_True, Bool.not_true, Bool.and_false,
        Bool.false_eq_true, if_false, Bool.and_true, Bool.false_and, Bool.true_and] at h
      refine ⟨Or.inl ⟨List.cons_ne_nil _ _, rfl⟩, ?_⟩
      simp only [List.append_nil]
      cases hv : validateConditions L (a :: as) 0 with
      | none => rfl
      | some e =>
        rw [hv] at h
        cases h
    | cons b bs =>
      rw [hall, hany] at h
      simp at h

/-- C21: `Rule.Validate` rejects a rule whose "all" and "any" lists are both
empty, rejects a rule in which both are non-empty, and in every rule that it
accepts exactly one of the two lists is non-empty. -/
theorem C21_exactly_one_condition_list (L : Stdlib) (r : Rule) :
    (r.When.All = [] → r.When.Any = [] → r.Validate L = some .noCondition) ∧
    (r.When.All ≠ [] → r.When.Any ≠ [] → r.Validate L = some .bothConditions) ∧
    (r.Validate L = none →
      (r.When.All ≠ [] ∧ r.When.Any = []) ∨ (r.When.All = [] ∧ r.When.Any ≠ [])) := by
  refine ⟨?_, ?_, fun h => (Rule_Validate_none L r h).1⟩
  · intro h1 h2
    unfold Rule.Validate
    simp [h1, h2]
  · intro h1 h2
    have l1 : r.When.All.length > 0 := List.length_pos.2 h1
    have l2 : r.When.Any.length > 0 := List.length_pos.2 h2
    unfold Rule.Validate
    simp [l1, l2]

/-- C22: in a rule accepted by `Rule.Validate` every condition, of either list,
has one of the nine operators, and every condition with the operator `matches`
has a string value that `regexp.Compile` accepts; hence a rule with a condition
that violates this is not accepted. -/
theorem C22_accepted_conditions (L : Stdlib) (r : Rule) :
    (r.Validate L = none → ∀ cond ∈ r.When.All ++ r.When.Any,
      cond.Op ∈ ["eq", "neq", "gt", "gte", "lt", "lte", "in", "contains", "matches"] ∧
      (cond.Op = "matches" → ∃ p, cond.Value = .str p ∧ L.RegexpCompile p ≠ none)) ∧
    ((∃ cond ∈ r.When.All ++ r.When.Any,
      cond.Op ∉ ["eq", "neq", "gt", "gte", "lt", "lte", "in", "contains", "matches"] ∨
      badPattern L cond) → r.Validate L ≠ none) := by
  have h1 : r.Validate L = none → ∀ cond ∈ r.When.All ++ r.When.Any,
      cond.Op ∈ ["eq", "neq", "gt", "gte", "lt", "lte", "in", "contains", "matches"] ∧
      (cond.Op = "matches" → ∃ p, cond.Value = .str p ∧ L.RegexpCompile p ≠ none) := by
    intro h cond hc
    have := validateConditions_none L _ 0 (Rule_Validate_none L r h).2 cond hc
    exact ⟨this.2.1, this.2.2⟩
  refine ⟨h1, ?_⟩
  rintro ⟨cond, hc, hbad⟩ hok
  obtain ⟨hop, hpat⟩ := h1 hok cond hc
  rcases hbad with hbad | ⟨hm, hbad⟩
  · exact hbad hop
  · obtain ⟨p, hp, hcomp⟩ := hpat hm
    rcases hbad with hns | ⟨q, hq, hnone⟩
    · exact hns p hp
    · rw [hp] at hq
      cases hq
      exact hcomp hnone


theorem boolVariantsLoop_error (t : VariantTable) :
    ∀ (total : Int) (hasTrue hasFalse : Bool) (e : FlagError),
      boolVariantsLoop t total hasTrue hasFalse = .error e →
      e ≠ .defaultNotBool ∧ e ≠ .defaultNotString := by
  induction t with
  | nil =>
    intro total hasTrue hasFalse e h
    unfold boolVariantsLoop at h
    cases h
  | cons x rest ih =>
    intro total hasTrue hasFalse e h
    obtain ⟨k, v⟩ := x
    unfold boolVariantsLoop at h
    by_cases hk : k ≠ "true" ∧ k ≠ "false"
    · rw [if_pos hk] at h
      cases h
      exact ⟨by simp, by simp⟩
    · rw [if_neg hk] at h
      simp only at h
      by_cases hv : v < 0 ∨ v > 100
      · rw [if_pos hv] at h
        cases h
        exact ⟨by simp, by simp⟩
      · rw [if_neg hv] at h
        exact ih _ _ _ e h

theorem stringVariantsLoop_error (t : VariantTable) :
    ∀ (total : Int) (e : FlagError), stringVariantsLoop t total = .error e →
      e ≠ .defaultNotBool ∧ e ≠ .defaultNotString := by
  induction t with
  | nil =>
    intro total e h
    unfold stringVariantsLoop at h
    cases h
  | cons x rest ih =>
    intro total e h
    obtain ⟨k, v⟩ := x
    unfold stringVariantsLoop at h
    split_ifs at h
    · cases h; exact ⟨by simp, by simp⟩
    · exact ih _ e h

theorem ruleBoolVariantsLoop_error (i : Nat) (t : VariantTable) :
    ∀ (total : Int) (e : FlagError), ruleBoolVariantsLoop i t total = .error e →
      e ≠ .defaultNotBool ∧ e ≠ .defaultNotString := by
  induction t with
  | nil =>
    intro total e h
    unfold ruleBoolVariantsLoop at h
    cases h
  | cons x rest ih =>
    intro total e h
    obtain ⟨k, v⟩ := x
    unfold ruleBoolVariantsLoop at h
    split_ifs at h
    · cases h; exact ⟨by simp, by simp⟩
    · cases h; exact ⟨by simp, by simp⟩
    · exact ih _ e h

theorem ruleStringVariantsLoop_error (i : Nat) (t : VariantTable) :
    ∀ (total : Int) (e : FlagError), ruleStringVariantsLoop i t total = .error e →
      e ≠ .defaultNotBool ∧ e ≠ .defaultNotString := by
  induction t with
  | nil =>
    intro total e h
    unfold ruleStringVariantsLoop at h
    cases h
  | cons x rest ih =>
    intro total e h
    obtain ⟨k, v⟩ := x
    unfold ruleStringVariantsLoop at h
    split_ifs at h
    · cases h; exact ⟨by simp, by simp⟩
    · exact ih _ e h

theorem validateRule_error (L : Stdlib) (ty : String) (i : Nat) (rule : Rule) (e : FlagError)
    (h : validateRule L ty i rule = some e) : e ≠ .defaultNotBool ∧ e ≠ .defaultNotString := by
  unfold validateRule at h
  cases hv : rule.Validate L with
  | some re =>
    rw [hv] at h
    cases h
    exact ⟨by simp, by simp⟩
  | none =>
    rw [hv] at h
    simp only at h
    split_ifs at h
    · cases hl : ruleBoolVariantsLoop i rule.Then.Variants 0 with
      | error e2 =>
        rw [hl] at h
        cases h
        exact ruleBoolVariantsLoop_error i _ 0 e hl
      | ok total =>
        rw [hl] at h
        simp only at h
        split_ifs at h
        cases h
        exact ⟨by simp, by simp⟩
    · cases hl : ruleStringVariantsLoop i rule.Then.Variants 0 with
      | error e2 =>
        rw [hl] at h
        cases h
        exact ruleStringVariantsLoop_error i _ 0 e hl
      | ok total =>
        rw [hl] at h
        simp only at h
        split_ifs at h
        cases h
        exact ⟨by simp, by simp⟩

theorem validateRules_error (L : Stdlib) (ty : String) (rules : List Rule) :
    ∀ (i : Nat) (e : FlagError), validateRules L ty rules i = some e →
      e ≠ .defaultNotBool ∧ e ≠ .defaultNotString := by
  induction rules with
  | nil =>
    intro i e h
    unfold validateRules at h
    cases h
  | cons rule rest ih =>
    intro i e h
    unfold validateRules at h
    cases hv : validateRule L ty i rule with
    | some e2 =>
      rw [hv] at h
      cases h
      exact validateRule_error L ty i rule e hv
    | none =>
      rw [hv] at h
      exact ih (i + 1) e h

theorem validateBoolFlag_nil_default (f : Flag) (hd : f.Default = .nil) (e : FlagError)
    (h : validateBoolFlag f = some e) : e ≠ .defaultNotBool ∧ e ≠ .defaultNotString := by
  unfold validateBoolFlag at h
  rw [hd] at h
  simp only at h
  split_ifs at h
  cases hl : boolVariantsLoop f.Variants 0 false false with
  | error e2 =>
    rw [hl] at h
    cases h
    exact boolVariantsLoop_error _ 0 false false e hl
  | ok r =>
    rw [hl] at h
    obtain ⟨total, hasTrue, hasFalse⟩ := r
    simp only at h
    split_ifs at h
    · cases h; exact ⟨by simp, by simp⟩
    · cases h; exact ⟨by simp, by simp⟩

theorem validateStringFlag_nil_default (f : Flag) (hd : f.Default = .nil) (e : FlagError)
    (h : validateStringFlag f = some e) : e ≠ .defaultNotBool ∧ e ≠ .defaultNotString := by
  unfold validateStringFlag at h
  rw [hd] at h
  simp only at h
  split_ifs at h
  cases hl : stringVariantsLoop f.Variants 0 with
  | error e2 =>
    rw [hl] at h
    cases h
    exact stringVariantsLoop_error _ 0 e hl
  | ok total =>
    rw [hl] at h
    simp only at h
    split_ifs at h
    cases h
    exact ⟨by simp, by simp⟩

theorem Flag_Validate_nil_default (L : Stdlib) (f : Flag) (flagKey : String)
    (hd : f.Default = .nil) (e : FlagError) (h : f.Validate L flagKey = some e) :
    e ≠ .defaultNotBool ∧ e ≠ .defaultNotString := by
  unfold Flag.Validate at h
  split_ifs at h with hty hb
  · cases h; exact ⟨by simp, by simp⟩
  · cases hh : validateBoolFlag f with
    | some e2 =>
      rw [hh] at h
      cases h
      exact validateBoolFlag_nil_default f hd e hh
    | none =>
      rw [hh] at h
      exact validateRules_error L _ _ 0 e h
  · cases hh : validateStringFlag f with
    | some e2 =>
      rw [hh] at h
      cases h
      exact validateStringFlag_nil_default f hd e hh
    | none =>
      rw [hh] at h
      exact validateRules_error L _ _ 0 e h

/-- C23: `Flag.Validate` rejects a flag whose type is neither "bool" nor
"string", a bool flag whose default is present and not a boolean, and a string
flag whose default is present and not a string; with an absent default it never
reports a default error. -/
theorem C23_type_and_default_checks (L : Stdlib) (f : Flag) (flagKey : String) :
    (f.Type_ ≠ "bool" → f.Type_ ≠ "string" →
      f.Validate L flagKey = some (.invalidType f.Type_)) ∧
    (f.Type_ = "bool" → f.Default ≠ .nil → (∀ b, f.Default ≠ .bool b) →
      f.Validate L flagKey = some .defaultNotBool) ∧
    (f.Type_ = "string" → f.Default ≠ .nil → (∀ s, f.Default ≠ .str s) →
      f.Validate L flagKey = some .defaultNotString) ∧
    (f.Default = .nil →
      f.Validate L flagKey ≠ some .defaultNotBool ∧
      f.Validate L flagKey ≠ some .defaultNotString) := by
  refine ⟨?_, ?_, ?_, ?_⟩
  · intro h1 h2
    unfold Flag.Validate
    rw [if_pos ⟨h1, h2⟩]
  · intro hty hnil hnb
    unfold Flag.Validate
    have hb : validateBoolFlag f = some .defaultNotBool := by
      unfold validateBoolFlag
      cases hd : f.Default with
      | nil => exact absurd hd hnil
      | bool b => exact absurd hd (hnb b)
      | int k n => rfl
      | float32 x => rfl
      | float64 x => rfl
      | str s => rfl
      | slice xs => rfl
      | map m => rfl
    simp [hty, hb]
  · intro hty hnil hns
    unfold Flag.Validate
    have hb : validateStringFlag f = some .defaultNotString := by
      unfold validateStringFlag
      cases hd : f.Default with
      | nil => exact absurd hd hnil
      | str s => exact absurd hd (hns s)
      | int k n => rfl
      | float32 x => rfl
      | float64 x => rfl
      | bool b => rfl
      | slice xs => rfl
      | map m => rfl
    simp [hty, hb]
  · intro hd
    constructor
    · intro h
      exact (Flag_Validate_nil_default L f flagKey hd _ h).1 rfl
    · intro h
      exact (Flag_Validate_nil_default L f flagKey hd _ h).2 rfl

theorem degenerate_Validate (L : Stdlib) (f : Flag) (flagKey : String) (h : degenerateFlag f) :
    f.Validate L flagKey = none := by
  obtain ⟨hr, hv, hty⟩ := h
  unfold Flag.Validate
  rcases hty with ⟨hb, hd⟩ | ⟨hs, hd⟩
  · have hhead : validateBoolFlag f = none := by
      unfold validateBoolFlag
      rcases hd with hd | ⟨b, hd⟩ <;> simp [hd, hv]
    simp [hb, hhead, hr, validateRules]
  · have hhead : validateStringFlag f = none := by
      unfold validateStringFlag
      rcases hd with hd | ⟨b, hd⟩ <;> simp [hd, hv]
    simp [hs, hhead, hr, validateRules]

/-- C24: `Flag.Validate` accepts every flag of type bool or string that has no
rules, no variants and an absent or well-typed default, and `Config.Validate`
accepts every version-1 configuration made of one or more such flags. -/
theorem C24_degenerate_flags_accepted (L : Stdlib) :
    (∀ (f : Flag) (flagKey : String), degenerateFlag f → f.Validate L flagKey = none) ∧
    (∀ c : Config, c.Version = 1 → c.Flags ≠ [] → (∀ kf ∈ c.Flags, degenerateFlag kf.2) →
      c.Validate L = none) := by
  refine ⟨fun f flagKey h => degenerate_Validate L f flagKey h, ?_⟩
  intro c hv hne hall
  rw [Config_Validate_none_iff]
  exact ⟨hv, hne, fun kf hkf => degenerate_Validate L kf.2 kf.1 (hall kf hkf)⟩


/-! ### Compilation -/

theorem compileCondition_error_iff (L : Stdlib) (cond : AttributeCondition) (isAll : Bool) :
    (∃ e, compileCondition L cond isAll = .error e) ↔ badPattern L cond := by
  unfold compileCondition badPattern
  by_cases hm : cond.Op = "matches"
  · rw [if_pos hm]
    cases hv : cond.Value with
    | str pattern =>
      cases hr : L.RegexpCompile pattern with
      | none =>
        simp only [hm, hr, true_and]
        constructor
        · intro _
          exact Or.inr ⟨pattern, rfl, hr⟩
        · intro _
          exact ⟨_, rfl⟩
      | some re =>
        simp only [hm, hr, true_and]
        constructor
        · rintro ⟨e, he⟩
          cases he
        · rintro (h | ⟨p, hp, hn⟩)
          · exact absurd rfl (h pattern)
          · cases hp
            rw [hr] at hn
            cases hn
    | nil => simp [hm]
    | bool b => simp [hm]
    | int k n => simp [hm]
    | float32 f => simp [hm]
    | float64 f => simp [hm]
    | slice xs => simp [hm]
    | map m => simp [hm]
  · rw [if_neg hm]
    simp [hm]

theorem compileCondition_ok (L : Stdlib) (cond : AttributeCondition) (isAll : Bool)
    (cc : CompiledCondition) (h : compileCondition L cond isAll = .ok cc) :
    cc.triple = cond.triple ∧ cc.IsAll = isAll := by
  unfold compileCondition at h
  split_ifs at h
  · split at h
    · split at h
      · cases h
      · cases h
        exact ⟨rfl, rfl⟩
    · cases h
  · cases h
    exact ⟨rfl, rfl⟩

theorem compileConditions_ok_of_valid (L : Stdlib) (isAll : Bool) (cs : List AttributeCondition)
    (h : ∀ cond ∈ cs, ¬ badPattern L cond) : ∃ ccs, compileConditions L isAll cs = .ok ccs := by
  induction cs with
  | nil => exact ⟨[], rfl⟩
  | cons c rest ih =>
    obtain ⟨ccs, hccs⟩ := ih (fun cond hc => h cond (List.mem_cons_of_mem _ hc))
    unfold compileConditions
    cases hc : compileCondition L c isAll with
    | error e =>
      exact absurd ((compileCondition_error_iff L c isAll).1 ⟨e, hc⟩)
        (h c (List.mem_cons_self _ _))
    | ok cc =>
      simp only [hccs]
      exact ⟨_, rfl⟩

theorem compileConditions_error_of_bad (L : Stdlib) (isAll : Bool) (cs : List AttributeCondition)
    (h : ∃ cond ∈ cs, badPattern L cond) : ∃ e, compileConditions L isAll cs = .error e := by
  induction cs with
  | nil =>
    obtain ⟨cond, hc, _⟩ := h
    exact absurd hc (List.not_mem_nil cond)
  | cons c rest ih =>
    unfold compileConditions
    cases hc : compileCondition L c isAll with
    | error e => exact ⟨e, rfl⟩
    | ok cc =>
      simp only
      obtain ⟨cond, hmem, hbad⟩ := h
      rcases List.mem_cons.1 hmem with rfl | hmem
      · obtain ⟨e, he⟩ := (compileCondition_error_iff L cond isAll).2 hbad
        rw [he] at hc
        cases hc
      · obtain ⟨e, he⟩ := ih ⟨cond, hmem, hbad⟩
        rw [he]
        exact ⟨e, rfl⟩

theorem compileConditions_ok (L : Stdlib) (isAll : Bool) (cs : List AttributeCondition) :
    ∀ ccs, compileConditions L isAll cs = .ok ccs →
      ccs.map CompiledCondition.triple = cs.map AttributeCondition.triple ∧
      ∀ cc ∈ ccs, cc.IsAll = isAll := by
  induction cs with
  | nil =>
    intro ccs h
    unfold compileConditions at h
    cases h
    exact ⟨rfl, fun cc hcc => absurd hcc (List.not_mem_nil cc)⟩
  | cons c rest ih =>
    intro ccs h
    unfold compileConditions at h
    cases hc : compileCondition L c isAll with
    | error e =>
      rw [hc] at h
      cases h
    | ok cc =>
      rw [hc] at h
      simp only at h
      cases hr : compileConditions L isAll rest with
      | error e =>
        rw [hr] at h
        cases h
      | ok rs =>
        rw [hr] at h
        cases h
        obtain ⟨h1, h2⟩ := ih rs hr
        obtain ⟨h3, h4⟩ := compileCondition_ok L c isAll cc hc
        refine ⟨by simp [h1, h3], ?_⟩
        intro x hx
        rcases List.mem_cons.1 hx with rfl | hx
        · exact h4
        · exact h2 x hx

theorem compileRule_eq (L : Stdlib) (rule : Rule) :
    compileRule L rule =
      match compileConditions L (decide (rule.When.All.length > 0)) (compiledSource rule) with
      | .error e => .error e
      | .ok cs => .ok ⟨cs, rule.Then.Variants⟩ := by
  unfold compileRule compiledSource
  by_cases h : rule.When.All.length > 0
  · simp [h]
  · simp [h]

theorem compileRule_ok_of_valid (L : Stdlib) (rule : Rule)
    (h : ∀ cond ∈ compiledSource rule, ¬ badPattern L cond) :
    ∃ cr, compileRule L rule = .ok cr := by
  rw [compileRule_eq]
  obtain ⟨ccs, hccs⟩ := compileConditions_ok_of_valid L (decide (rule.When.All.length > 0)) _ h
  rw [hccs]
  exact ⟨_, rfl⟩

theorem compileRule_error_of_bad (L : Stdlib) (rule : Rule)
    (h : ∃ cond ∈ compiledSource rule, badPattern L cond) :
    ∃ e, compileRule L rule = .error e := by
  rw [compileRule_eq]
  obtain ⟨e, he⟩ := compileConditions_error_of_bad L (decide (rule.When.All.length > 0)) _ h
  rw [he]
  exact ⟨e, rfl⟩

theorem compileRule_ok (L : Stdlib) (rule : Rule) (cr : CompiledRule)
    (h : compileRule L rule = .ok cr) : ruleAgrees rule cr := by
  rw [compileRule_eq] at h
  cases hc : compileConditions L (decide (rule.When.All.length > 0)) (compiledSource rule) with
  | error e =>
    rw [hc] at h
    cases h
  | ok ccs =>
    rw [hc] at h
    cases h
    exact ⟨rfl, (compileConditions_ok L _ _ ccs hc).1⟩

theorem compileRules_ok_of_valid (L : Stdlib) (rules : List Rule)
    (h : ∀ r ∈ rules, ∀ cond ∈ compiledSource r, ¬ badPattern L cond) :
    ∀ i, ∃ crs, compileRules L rules i = .ok crs := by
  induction rules with
  | nil => exact fun _ => ⟨[], rfl⟩
  | cons r rest ih =>
    intro i
    obtain ⟨cr, hcr⟩ := compileRule_ok_of_valid L r (h r (List.mem_cons_self _ _))
    obtain ⟨crs, hcrs⟩ := ih (fun r2 hr2 => h r2 (List.mem_cons_of_mem _ hr2)) (i + 1)
    unfold compileRules
    rw [hcr]
    simp only [hcrs]
    exact ⟨_, rfl⟩

theorem compileRules_error_of_bad (L : Stdlib) (rules : List Rule)
    (h : ∃ r ∈ rules, ∃ cond ∈ compiledSource r, badPattern L cond) :
    ∀ i, ∃ e, compileRules L rules i = .error e := by
  induction rules with
  | nil =>
    obtain ⟨r, hr, _⟩ := h
    exact absurd hr (List.not_mem_nil r)
  | cons r rest ih =>
    intro i
    unfold compileRules
    cases hc : compileRule L r with
    | error e => exact ⟨_, rfl⟩
    | ok cr =>
      simp only
      obtain ⟨r2, hmem, hbad⟩ := h
      rcases List.mem_cons.1 hmem with rfl | hmem
      · obtain ⟨e, he⟩ := compileRule_error_of_bad L r2 hbad
        rw [he] at hc
        cases hc
      · obtain ⟨e, he⟩ := ih ⟨r2, hmem, hbad⟩ (i + 1)
        rw [he]
        exact ⟨e, rfl⟩

theorem compileRules_ok (L : Stdlib) (rules : List Rule) :
    ∀ i crs, compileRules L rules i = .ok crs → List.Forall₂ ruleAgrees rules crs := by
  induction rules with
  | nil =>
    intro i crs h
    unfold compileRules at h
    cases h
    exact List.Forall₂.nil
  | cons r rest ih =>
    intro i crs h
    unfold compileRules at h
    cases hc : compileRule L r with
    | error e =>
      rw [hc] at h
      cases h
    | ok cr =>
      rw [hc] at h
      simp only at h
      cases hr : compileRules L rest (i + 1) with
      | error e =>
        rw [hr] at h
        cases h
      | ok rs =>
        rw [hr] at h
        cases h
        exact List.Forall₂.cons (compileRule_ok L r cr hc) (ih (i + 1) rs hr)


theorem compileFlag_ok_of_valid (L : Stdlib) (flagKey : String) (f : Flag)
    (h : ∀ r ∈ f.Rules, ∀ cond ∈ compiledSource r, ¬ badPattern L cond) :
    ∃ cf, compileFlag L flagKey f = .ok cf := by
  obtain ⟨crs, hcrs⟩ := compileRules_ok_of_valid L f.Rules h 0
  unfold compileFlag
  rw [hcrs]
  exact ⟨_, rfl⟩

theorem compileFlag_error_of_bad (L : Stdlib) (flagKey : String) (f : Flag)
    (h : ∃ r ∈ f.Rules, ∃ cond ∈ compiledSource r, badPattern L cond) :
    ∃ e, compileFlag L flagKey f = .error e := by
  obtain ⟨e, he⟩ := compileRules_error_of_bad L f.Rules h 0
  unfold compileFlag
  rw [he]
  exact ⟨_, rfl⟩

theorem compileFlag_ok (L : Stdlib) (flagKey : String) (f : Flag) (cf : CompiledFlag)
    (h : compileFlag L flagKey f = .ok cf) : flagAgrees f cf := by
  unfold compileFlag at h
  cases hr : compileRules L f.Rules 0 with
  | error e =>
    rw [hr] at h
    cases h
  | ok crs =>
    rw [hr] at h
    cases h
    exact ⟨rfl, rfl, rfl, rfl, compileRules_ok L f.Rules 0 crs hr⟩

theorem compileFlags_ok_of_valid (L : Stdlib) (flags : List (String × Flag))
    (h : ∀ kf ∈ flags, ∀ r ∈ kf.2.Rules, ∀ cond ∈ compiledSource r, ¬ badPattern L cond) :
    ∃ cfs, compileFlags L flags = .ok cfs := by
  induction flags with
  | nil => exact ⟨[], rfl⟩
  | cons kf rest ih =>
    obtain ⟨k, f⟩ := kf
    obtain ⟨cf, hcf⟩ := compileFlag_ok_of_valid L k f (h (k, f) (List.mem_cons_self _ _))
    obtain ⟨cfs, hcfs⟩ := ih (fun kf2 h2 => h kf2 (List.mem_cons_of_mem _ h2))
    unfold compileFlags
    rw [hcf]
    simp only [hcfs]
    exact ⟨_, rfl⟩

theorem compileFlags_error_of_bad (L : Stdlib) (flags : List (String × Flag))
    (h : ∃ kf ∈ flags, ∃ r ∈ kf.2.Rules, ∃ cond ∈ compiledSource r, badPattern L cond) :
    ∃ e, compileFlags L flags = .error e := by
  induction flags with
  | nil =>
    obtain ⟨kf, hkf, _⟩ := h
    exact absurd hkf (List.not_mem_nil kf)
  | cons kf rest ih =>
    obtain ⟨k, f⟩ := kf
    unfold compileFlags
    cases hc : compileFlag L k f with
    | error e => exact ⟨_, rfl⟩
    | ok cf =>
      simp only
      obtain ⟨kf2, hmem, hbad⟩ := h
      rcases List.mem_cons.1 hmem with rfl | hmem
      · obtain ⟨e, he⟩ := compileFlag_error_of_bad L k f hbad
        rw [he] at hc
        cases hc
      · obtain ⟨e, he⟩ := ih ⟨kf2, hmem, hbad⟩
        rw [he]
        exact ⟨e, rfl⟩

theorem compileFlags_ok (L : Stdlib) (flags : List (String × Flag)) :
    ∀ cfs, compileFlags L flags = .ok cfs →
      List.Forall₂ (fun kf kc => kc.1 = kf.1 ∧ flagAgrees kf.2 kc.2) flags cfs := by
  induction flags with
  | nil =>
    intro cfs h
    unfold compileFlags at h
    cases h
    exact List.Forall₂.nil
  | cons kf rest ih =>
    intro cfs h
    obtain ⟨k, f⟩ := kf
    unfold compileFlags at h
    cases hc : compileFlag L k f with
    | error e =>
      rw [hc] at h
      cases h
    | ok cf =>
      rw [hc] at h
      simp only at h
      cases hr : compileFlags L rest with
      | error e =>
        rw [hr] at h
        cases h
      | ok rs =>
        rw [hr] at h
        cases h
        exact List.Forall₂.cons ⟨rfl, compileFlag_ok L k f cf hc⟩ (ih rs hr)

theorem forall2_keys (flags : List (String × Flag)) (cfs : List (String × CompiledFlag))
    (h : List.Forall₂ (fun kf kc => kc.1 = kf.1 ∧ flagAgrees kf.2 kc.2) flags cfs) :
    cfs.map Prod.fst = flags.map Prod.fst := by
  induction h with
  | nil => rfl
  | cons hh _ ih => simp [hh.1, ih]

theorem Compile_all_or_nothing (L : Stdlib) (cfg : Option Config) :
    ((Compile L cfg).2 ≠ none → (Compile L cfg).1 = none) ∧
    ((Compile L cfg).2 = none → (Compile L cfg).1 ≠ none) := by
  unfold Compile
  cases cfg with
  | none => simp
  | some c =>
    simp only
    cases compileFlags L c.Flags <;> simp

theorem compiledSource_subset (r : Rule) (cond : AttributeCondition)
    (h : cond ∈ compiledSource r) : cond ∈ r.When.All ++ r.When.Any := by
  unfold compiledSource at h
  split_ifs at h
  · exact List.mem_append_left _ h
  · exact List.mem_append_right _ h

theorem compiledSource_eq_all (r : Rule) (h : r.When.All = [] ∨ r.When.Any = []) :
    compiledSource r = r.When.All ++ r.When.Any := by
  unfold compiledSource
  rcases h with h | h
  · simp [h]
  · rw [h, List.append_nil]
    split_ifs with hl
    · rfl
    · have : r.When.All = [] := List.length_eq_zero.1 (by omega)
      rw [this]

theorem valid_of_Rule_Validate (L : Stdlib) (r : Rule) (h : r.Validate L = none) :
    ∀ cond ∈ compiledSource r, ¬ badPattern L cond := by
  intro cond hc hbad
  have hv := validateConditions_none L _ 0 (Rule_Validate_none L r h).2 cond
    (compiledSource_subset r cond hc)
  obtain ⟨p, hp, hcomp⟩ := hv.2.2 hbad.1
  rcases hbad.2 with hns | ⟨q, hq, hnone⟩
  · exact hns p hp
  · rw [hp] at hq
    cases hq
    exact hcomp hnone

/-- C25: `Compile` succeeds on every configuration that `Config.Validate`
accepts: it returns a compiled configuration and the nil error.  Every
condition of such a configuration that `Compile` compiles and whose operator is
`matches` has a string value that the validator has compiled as a regular
expression. -/
theorem C25_compile_after_validate (L : Stdlib) (c : Config) (hok : c.Validate L = none) :
    (∃ compiled, Compile L (some c) = (some compiled, none)) ∧
    ∀ kf ∈ c.Flags, ∀ r ∈ kf.2.Rules, ∀ cond ∈ compiledSource r, cond.Op = "matches" →
      ∃ p, cond.Value = .str p ∧ L.RegexpCompile p ≠ none := by
  have hflags := ((Config_Validate_none_iff L c).1 hok).2.2
  have hrule : ∀ kf ∈ c.Flags, ∀ r ∈ kf.2.Rules, r.Validate L = none := by
    intro kf hkf r hr
    obtain ⟨_, _, _, hrules⟩ := Flag_Validate_none L kf.2 kf.1 (hflags kf hkf)
    obtain ⟨j, hj⟩ := validateRules_none L kf.2.Type_ kf.2.Rules 0 hrules r hr
    exact (validateRule_none L kf.2.Type_ j r hj).1
  have hvalid : ∀ kf ∈ c.Flags, ∀ r ∈ kf.2.Rules, ∀ cond ∈ compiledSource r,
      ¬ badPattern L cond :=
    fun kf hkf r hr => valid_of_Rule_Validate L r (hrule kf hkf r hr)
  refine ⟨?_, ?_⟩
  · obtain ⟨cfs, hcfs⟩ := compileFlags_ok_of_valid L c.Flags hvalid
    unfold Compile
    simp only [hcfs]
    exact ⟨_, rfl⟩
  · intro kf hkf r hr cond hc hm
    exact (validateConditions_none L _ 0 (Rule_Validate_none L r (hrule kf hkf r hr)).2 cond
      (compiledSource_subset r cond hc)).2.2 hm

/-- C26 (as the code has it): when `Compile` succeeds, the compiled flags
correspond one to one, in order and under the same keys, to the flags of the
input; each compiled flag has the enabled switch, type, default and variant
weights of its source and as many rules, in order; each compiled rule has the
then-weights of its source and, in order, the attribute, operator and value of
the conditions of the source's "all" list when that list is non-empty and of
its "any" list otherwise, which are all the conditions of the rule when one of
the two lists is empty. -/
theorem C26_compiled_mirrors_source (L : Stdlib) (c : Config) (compiled : Compiled)
    (h : Compile L (some c) = (some compiled, none)) :
    compiled.Flags.map Prod.fst = c.Flags.map Prod.fst ∧
    List.Forall₂ (fun kf kc => kc.1 = kf.1 ∧ flagAgrees kf.2 kc.2) c.Flags compiled.Flags ∧
    (∀ r : Rule, r.When.All = [] ∨ r.When.Any = [] →
      compiledSource r = r.When.All ++ r.When.Any) := by
  unfold Compile at h
  simp only at h
  cases hc : compileFlags L c.Flags with
  | error e =>
    rw [hc] at h
    cases h
  | ok cfs =>
    rw [hc] at h
    cases h
    have hf := compileFlags_ok L c.Flags cfs hc
    exact ⟨forall2_keys _ _ hf, hf, compiledSource_eq_all⟩

/-- Counterexample to C26 as stated: `Compile` succeeds on a rule with both
lists non-empty, and the compiled rule has the single condition on "a"; the
condition on "c" of the "any" list is not in it. -/
theorem C26_counterexample :
    bothListsRule.When.All.map AttributeCondition.Attr = ["a"] ∧
    bothListsRule.When.Any.map AttributeCondition.Attr = ["c"] ∧
    (Compile sampleLib (some bothListsConfig)).2 = none ∧
    (Compile sampleLib (some bothListsConfig)).1.map
      (fun compiled => compiled.Flags.map
        (fun kc => kc.2.Rules.map (fun r => r.Conditions.map CompiledCondition.Attr)))
      = some [[["a"]]] :=
  ⟨rfl, rfl, rfl, rfl⟩

/-- C27 (as the code has it): if a condition that `Compile` compiles (in any
rule of any flag, a condition of the "all" list when that list is non-empty and
of the "any" list otherwise) has the operator `matches` and a value that is not
a string or not a valid pattern, `Compile` returns an error and no compiled
configuration; `Compile` of the nil configuration returns an error; and
`Compile` never returns both an error and a compiled configuration, nor
neither. -/
theorem C27_compile_all_or_nothing (L : Stdlib) :
    (∀ c : Config,
      (∃ kf ∈ c.Flags, ∃ r ∈ kf.2.Rules, ∃ cond ∈ compiledSource r, badPattern L cond) →
      (Compile L (some c)).1 = none ∧ (Compile L (some c)).2 ≠ none) ∧
    Compile L none = (none, some .nilConfig) ∧
    (∀ cfg : Option Config, (Compile L cfg).2 ≠ none → (Compile L cfg).1 = none) ∧
    (∀ cfg : Option Config, (Compile L cfg).2 = none → (Compile L cfg).1 ≠ none) := by
  refine ⟨?_, rfl, fun cfg => (Compile_all_or_nothing L cfg).1,
    fun cfg => (Compile_all_or_nothing L cfg).2⟩
  intro c hbad
  obtain ⟨e, he⟩ := compileFlags_error_of_bad L c.Flags hbad
  unfold Compile
  simp [he]

/-- Counterexample to C27 as stated: the rule has, in its "any" list, a
`matches` condition whose pattern does not compile, and `Compile` returns a
compiled configuration and no error, because the rule's "all" list is not
empty and only that list is compiled. -/
theorem C27_counterexample :
    (⟨"plan", "matches", .str "[invalid"⟩ : AttributeCondition) ∈ hiddenPatternRule.When.Any ∧
    badPattern sampleLib ⟨"plan", "matches", .str "[invalid"⟩ ∧
    (Compile sampleLib (some hiddenPatternConfig)).2 = none ∧
    (Compile sampleLib (some hiddenPatternConfig)).1.isSome = true :=
  ⟨by simp [hiddenPatternRule], ⟨rfl, Or.inr ⟨"[invalid", rfl, rfl⟩⟩, rfl, rfl⟩


/-! ### Reloading -/

/-- The interval that `reloadConfig` computes is `backoffInterval`. -/
theorem backoff_eq (n : Int) :
    (if n * Second > maxBackoff then maxBackoff else n * Second) = backoffInterval n := by
  unfold backoffInterval maxBackoff
  split_ifs with h
  · exact (min_eq_right (le_of_lt h)).symm
  · exact (min_eq_left (not_lt.1 h)).symm

/-- `loadConfig` fails exactly when the file cannot be read, or does not
decode, or decodes to a configuration that validation or compilation
rejects. -/
theorem loadConfig_error_iff (L : Stdlib) (Y : Yaml) (file : Option (List Nat)) :
    (loadConfig L Y file).2 ≠ none ↔
      file = none ∨ ∃ data, file = some data ∧
        (Y.Unmarshal data = none ∨ ∃ cfg, Y.Unmarshal data = some cfg ∧
          (cfg.Validate L ≠ none ∨ (Compile L (some cfg)).2 ≠ none)) := by
  unfold loadConfig LoadFromFile
  cases file with
  | none => simp
  | some data =>
    simp only [reduceCtorEq, Option.some.injEq, exists_eq_left', false_or]
    unfold LoadFromBytes
    cases hu : Y.Unmarshal data with
    | none => simp
    | some cfg =>
      simp only [reduceCtorEq, Option.some.injEq, exists_eq_left', false_or]
      cases hv : cfg.Validate L with
      | some e => simp
      | none =>
        simp only [ne_eq, not_true_eq_false, false_or]
        rcases hc : Compile L (some cfg) with ⟨compiled, err⟩
        cases err <;> simp

theorem loadConfig_fst_of_error (L : Stdlib) (Y : Yaml) (file : Option (List Nat))
    (h : (loadConfig L Y file).2 ≠ none) : (loadConfig L Y file).1 = none := by
  unfold loadConfig at *
  rcases hl : LoadFromFile L Y file with ⟨cfg, err⟩
  rw [hl] at h
  cases err with
  | some e => rfl
  | none =>
    simp only at h ⊢
    rcases hc : Compile L cfg with ⟨compiled, err2⟩
    rw [hc] at h
    cases err2 with
    | some e => rfl
    | none => exact absurd rfl h

theorem reloadConfig_skip (L : Stdlib) (Y : Yaml) (hooked : Bool) (s : ReloadState) (now : Time)
    (file : Option (List Nat))
    (h : Time.Sub now s.lastError < backoffInterval s.errorCount) :
    reloadConfig L Y hooked s now file maxErrors maxBackoff = ⟨s, false, []⟩ := by
  unfold reloadConfig
  simp only [backoff_eq]
  rw [if_pos h]

theorem reloadConfig_fail (L : Stdlib) (Y : Yaml) (hooked : Bool) (s : ReloadState) (now : Time)
    (file : Option (List Nat))
    (h : ¬ Time.Sub now s.lastError < backoffInterval s.errorCount)
    (hl : (loadConfig L Y file).2 ≠ none) :
    reloadConfig L Y hooked s now file maxErrors maxBackoff
      = ⟨⟨s.compiled, now, s.errorCount + 1⟩, true,
          if s.errorCount + 1 ≥ maxErrors then []
          else if hooked then [⟨"", "", Reason.Error⟩] else []⟩ := by
  unfold reloadConfig
  simp only [backoff_eq]
  rw [if_neg h]
  rcases hc : loadConfig L Y file with ⟨compiled, err⟩
  rw [hc] at hl
  cases err with
  | none => exact absurd rfl hl
  | some e =>
    simp only
    split_ifs <;> rfl

theorem reloadConfig_success (L : Stdlib) (Y : Yaml) (hooked : Bool) (s : ReloadState)
    (now : Time) (file : Option (List Nat))
    (h : ¬ Time.Sub now s.lastError < backoffInterval s.errorCount)
    (hl : (loadConfig L Y file).2 = none) :
    reloadConfig L Y hooked s now file maxErrors maxBackoff
      = ⟨⟨(loadConfig L Y file).1, s.lastError, 0⟩, true, []⟩ := by
  unfold reloadConfig
  simp only [backoff_eq]
  rw [if_neg h]
  rcases hc : loadConfig L Y file with ⟨compiled, err⟩
  rw [hc] at hl
  simp only at hl
  subst hl
  rfl

/-- A successful `loadConfig` returns a compiled configuration. -/
theorem loadConfig_success (L : Stdlib) (Y : Yaml) (file : Option (List Nat))
    (h : (loadConfig L Y file).2 = none) :
    ∃ compiled, loadConfig L Y file = (some compiled, none) := by
  unfold loadConfig at *
  rcases hl : LoadFromFile L Y file with ⟨cfg, err⟩
  rw [hl] at h
  cases err with
  | some e => cases h
  | none =>
    simp only at h ⊢
    have hall := (Compile_all_or_nothing L cfg).2
    rcases hc : Compile L cfg with ⟨compiled, err2⟩
    rw [hc] at h hall
    cases err2 with
    | some e => cases h
    | none =>
      cases compiled with
      | none => exact absurd rfl (hall rfl)
      | some c => exact ⟨c, rfl⟩

/-- C28: a reload whose `loadConfig` fails (the file cannot be read or decoded,
or validation or compilation rejects it) leaves the snapshot reference as it
was, so that the client evaluates as before, and so does a trigger that is
skipped; a reload attempt (a trigger that is not skipped) whose `loadConfig`
succeeds stores the newly compiled snapshot, on which the client evaluates from
then on. -/
theorem C28_snapshot_replaced_only_on_success (L : Stdlib) (Y : Yaml) (hooked : Bool)
    (s : ReloadState) (now : Time) (file : Option (List Nat)) :
    ((loadConfig L Y file).2 ≠ none →
      (reloadConfig L Y hooked s now file maxErrors maxBackoff).state.compiled = s.compiled ∧
      ∀ (key : String) (ctx : Context) (d : Bool),
        client.Boolean L
            ⟨(reloadConfig L Y hooked s now file maxErrors maxBackoff).state.compiled, hooked⟩
            key ctx d
          = client.Boolean L ⟨s.compiled, hooked⟩ key ctx d) ∧
    (Time.Sub now s.lastError < backoffInterval s.errorCount →
      (reloadConfig L Y hooked s now file maxErrors maxBackoff).state.compiled = s.compiled) ∧
    (¬ Time.Sub now s.lastError < backoffInterval s.errorCount →
      (loadConfig L Y file).2 = none →
      ∃ compiled, loadConfig L Y file = (some compiled, none) ∧
        (reloadConfig L Y hooked s now file maxErrors maxBackoff).state.compiled
          = some compiled ∧
        ∀ (key : String) (ctx : Context) (d : Bool),
          client.Boolean L
              ⟨(reloadConfig L Y hooked s now file maxErrors maxBackoff).state.compiled, hooked⟩
              key ctx d
            = client.Boolean L ⟨some compiled, hooked⟩ key ctx d) := by
  refine ⟨?_, ?_, ?_⟩
  · intro hl
    by_cases hskip : Time.Sub now s.lastError < backoffInterval s.errorCount
    · rw [reloadConfig_skip L Y hooked s now file hskip]
      exact ⟨rfl, fun _ _ _ => rfl⟩
    · rw [reloadConfig_fail L Y hooked s now file hskip hl]
      exact ⟨rfl, fun _ _ _ => rfl⟩
  · intro hskip
    rw [reloadConfig_skip L Y hooked s now file hskip]
  · intro hskip hl
    obtain ⟨compiled, hc⟩ := loadConfig_success L Y file hl
    rw [reloadConfig_success L Y hooked s now file hskip hl, hc]
    exact ⟨compiled, rfl, rfl, fun _ _ _ => rfl⟩

/-- C29: while less than the backoff interval has elapsed since the last
failure, `reloadConfig` does not load and leaves the state as it is, whatever
the file holds; once the interval has elapsed it loads.  The interval after `n`
consecutive failures is `min(n seconds, 5 minutes)`, which does not decrease
when `n` grows and never exceeds five minutes.  A successful load sets the
count of consecutive failures to 0, a failed one adds 1 to it and records the
time. -/
theorem C29_backoff_between_attempts (L : Stdlib) (Y : Yaml) (hooked : Bool) (s : ReloadState)
    (now : Time) (file : Option (List Nat)) :
    (Time.Sub now s.lastError < backoffInterval s.errorCount →
      ∀ file2 : Option (List Nat),
        reloadConfig L Y hooked s now file2 maxErrors maxBackoff = ⟨s, false, []⟩) ∧
    (¬ Time.Sub now s.lastError < backoffInterval s.errorCount →
      (reloadConfig L Y hooked s now file maxErrors maxBackoff).loaded = true) ∧
    (∀ m n : Int, m ≤ n → backoffInterval m ≤ backoffInterval n) ∧
    (∀ n : Int, backoffInterval n ≤ 5 * Minute) ∧
    (∀ n : Int, backoffInterval n = min (n * Second) (5 * Minute)) ∧
    ((reloadConfig L Y hooked s now file maxErrors maxBackoff).loaded = true →
      (loadConfig L Y file).2 = none →
      (reloadConfig L Y hooked s now file maxErrors maxBackoff).state.errorCount = 0) ∧
    ((reloadConfig L Y hooked s now file maxErrors maxBackoff).loaded = true →
      (loadConfig L Y file).2 ≠ none →
      (reloadConfig L Y hooked s now file maxErrors maxBackoff).state.errorCount
        = s.errorCount + 1 ∧
      (reloadConfig L Y hooked s now file maxErrors maxBackoff).state.lastError = now) := by
  refine ⟨fun h file2 => reloadConfig_skip L Y hooked s now file2 h, ?_, ?_, ?_, fun _ => rfl,
    ?_, ?_⟩
  · intro h
    by_cases hl : (loadConfig L Y file).2 = none
    · rw [reloadConfig_success L Y hooked s now file h hl]
    · rw [reloadConfig_fail L Y hooked s now file h hl]
  · intro m n hmn
    unfold backoffInterval
    have hs : m * Second ≤ n * Second := by
      unfold Second
      omega
    exact min_le_min hs (le_refl _)
  · intro n
    unfold backoffInterval
    exact min_le_right _ _
  · intro hloaded hl
    by_cases hskip : Time.Sub now s.lastError < backoffInterval s.errorCount
    · rw [reloadConfig_skip L Y hooked s now file hskip] at hloaded
      cases hloaded
    · rw [reloadConfig_success L Y hooked s now file hskip hl]
  · intro hloaded hl
    by_cases hskip : Time.Sub now s.lastError < backoffInterval s.errorCount
    · rw [reloadConfig_skip L Y hooked s now file hskip] at hloaded
      cases hloaded
    · rw [reloadConfig_fail L Y hooked s now file hskip hl]
      exact ⟨rfl, rfl⟩

/-- Ten ticks at which the file cannot be read: ten calls of `loadConfig`, a
count of 10, the snapshot in place, and nine hook invocations. -/
theorem watchFile_ten_failures :
    (watchFile sampleLib sampleYaml true (some sampleCompiled)
        (tenFailuresThenRepair.take 10)).1.errorCount = 10 ∧
    (watchFile sampleLib sampleYaml true (some sampleCompiled)
        (tenFailuresThenRepair.take 10)).2.1 = 10 ∧
    (watchFile sampleLib sampleYaml true (some sampleCompiled)
        (tenFailuresThenRepair.take 10)).1.compiled.map
          (fun c => c.Flags.map Prod.fst) = some ["new_checkout"] ∧
    (watchFile sampleLib sampleYaml true (some sampleCompiled)
        (tenFailuresThenRepair.take 10)).2.2.length = 9 := by
  set_option maxRecDepth 100000 in
  exact ⟨by decide, by decide, by decide, by decide⟩

/-- The same ten ticks followed by a tick at which the file is valid. -/
theorem watchFile_repair_after_ten_failures :
    (watchFile sampleLib sampleYaml true (some sampleCompiled)
        tenFailuresThenRepair).2.1 = 11 ∧
    (watchFile sampleLib sampleYaml true (some sampleCompiled)
        tenFailuresThenRepair).1.compiled.map
          (fun c => c.Flags.map Prod.fst) = some ["test_flag"] ∧
    (watchFile sampleLib sampleYaml true (some sampleCompiled)
        tenFailuresThenRepair).1.errorCount = 0 := by
  set_option maxRecDepth 100000 in
  exact ⟨by decide, by decide, by decide⟩

/-- C30 (the code at the failing input): ten ticks at which the file cannot be
read are ten calls of `loadConfig`, bring the count of consecutive failures to
10 and leave the snapshot in place; at the eleventh tick, 400 seconds after the
tenth, `reloadConfig` calls `loadConfig` again, replaces the snapshot by the
configuration it read and sets the count to 0.  Likewise one call of
`reloadConfig` in a state whose count is 10, ten seconds after the last
failure. -/
theorem C30_reload_resumes_after_max_errors :
    (watchFile sampleLib sampleYaml true (some sampleCompiled)
        (tenFailuresThenRepair.take 10)).1.errorCount = 10 ∧
    (watchFile sampleLib sampleYaml true (some sampleCompiled)
        (tenFailuresThenRepair.take 10)).2.1 = 10 ∧
    (watchFile sampleLib sampleYaml true (some sampleCompiled)
        (tenFailuresThenRepair.take 10)).1.compiled.map
          (fun c => c.Flags.map Prod.fst) = some ["new_checkout"] ∧
    (watchFile sampleLib sampleYaml true (some sampleCompiled)
        tenFailuresThenRepair).2.1 = 11 ∧
    (watchFile sampleLib sampleYaml true (some sampleCompiled)
        tenFailuresThenRepair).1.compiled.map
          (fun c => c.Flags.map Prod.fst) = some ["test_flag"] ∧
    (watchFile sampleLib sampleYaml true (some sampleCompiled)
        tenFailuresThenRepair).1.errorCount = 0 ∧
    (reloadConfig sampleLib sampleYaml true ⟨some sampleCompiled, startTime, 10⟩
        (startTime + 10 * Second) (some [1]) maxErrors maxBackoff).loaded = true ∧
    (reloadConfig sampleLib sampleYaml true ⟨some sampleCompiled, startTime, 10⟩
        (startTime + 10 * Second) (some [1]) maxErrors maxBackoff).state.compiled.map
          (fun c => c.Flags.map Prod.fst) = some ["test_flag"] ∧
    (reloadConfig sampleLib sampleYaml true ⟨some sampleCompiled, startTime, 10⟩
        (startTime + 10 * Second) (some [1]) maxErrors maxBackoff).state.errorCount = 0 :=
  ⟨watchFile_ten_failures.1, watchFile_ten_failures.2.1, watchFile_ten_failures.2.2.1,
    watchFile_repair_after_ten_failures.1, watchFile_repair_after_ten_failures.2.1,
    watchFile_repair_after_ten_failures.2.2, rfl, rfl, rfl⟩

/-! ### Witnesses for validation, compilation and reloading -/

/-- Witness for C21 at the rule "valid rule with any" of `TestRuleValidate`. -/
theorem C21_exactly_one_condition_list_witness :
    anyRule.Validate sampleLib = none ∧
    ((anyRule.When.All ≠ [] ∧ anyRule.When.Any = []) ∨
      (anyRule.When.All = [] ∧ anyRule.When.Any ≠ [])) :=
  ⟨by decide, (C21_exactly_one_condition_list sampleLib anyRule).2.2 (by decide)⟩

/-- Witness for C22 at the rule "invalid regex in matches" of
`TestRuleValidate`. -/
theorem C22_accepted_conditions_witness :
    badPattern sampleLib ⟨"plan", "matches", .str "[invalid"⟩ ∧
    badPatternRule.Validate sampleLib ≠ none :=
  ⟨⟨rfl, Or.inr ⟨"[invalid", rfl, rfl⟩⟩,
    (C22_accepted_conditions sampleLib badPatternRule).2
      ⟨⟨"plan", "matches", .str "[invalid"⟩, by simp [badPatternRule],
        Or.inr ⟨rfl, Or.inr ⟨"[invalid", rfl, rfl⟩⟩⟩⟩

/-- Witness for C23 at the flag "invalid default type for bool" of
`TestFlagValidate`. -/
theorem C23_type_and_default_checks_witness :
    badDefaultFlag.Type_ = "bool" ∧ badDefaultFlag.Default ≠ .nil ∧
    badDefaultFlag.Validate sampleLib "test" = some .defaultNotBool :=
  ⟨rfl, by simp [badDefaultFlag],
    (C23_type_and_default_checks sampleLib badDefaultFlag "test").2.1 rfl
      (by simp [badDefaultFlag]) (fun b => by simp [badDefaultFlag])⟩

/-- Witness for C24 at a bool flag without rules, variants and default. -/
theorem C24_degenerate_flags_accepted_witness :
    degenerateFlag bareBoolFlag ∧
    Config.Validate sampleLib ⟨1, [("bare", bareBoolFlag)]⟩ = none :=
  ⟨⟨rfl, rfl, Or.inl ⟨rfl, Or.inl rfl⟩⟩,
    (C24_degenerate_flags_accepted sampleLib).2 ⟨1, [("bare", bareBoolFlag)]⟩ rfl
      (by simp)
      (fun kf hkf => by
        have hkf2 : kf = ("bare", bareBoolFlag) := by simpa using hkf
        subst hkf2
        exact ⟨rfl, rfl, Or.inl ⟨rfl, Or.inl rfl⟩⟩)⟩

/-- Witness for C25 at the configuration of `TestCompile`. -/
theorem C25_compile_after_validate_witness :
    testCompileConfig.Validate sampleLib = none ∧
    ∃ compiled, Compile sampleLib (some testCompileConfig) = (some compiled, none) :=
  ⟨by decide, (C25_compile_after_validate sampleLib testCompileConfig (by decide)).1⟩

/-- Witness for C26 at the configuration of `TestCompile`. -/
theorem C26_compiled_mirrors_source_witness :
    (Compile sampleLib (some testCompileConfig)).2 = none ∧
    ∀ compiled, Compile sampleLib (some testCompileConfig) = (some compiled, none) →
      compiled.Flags.map Prod.fst = ["test_flag"] :=
  ⟨rfl, fun compiled h =>
    (C26_compiled_mirrors_source sampleLib testCompileConfig compiled h).1⟩

/-- Witness for C27 at a configuration with an invalid pattern. -/
theorem C27_compile_all_or_nothing_witness :
    (Compile sampleLib (some badPatternConfig)).1 = none ∧
    (Compile sampleLib (some badPatternConfig)).2 ≠ none :=
  (C27_compile_all_or_nothing sampleLib).1 badPatternConfig
    ⟨("test", ⟨true, "bool", [], [badPatternRule], .nil⟩), by simp [badPatternConfig],
      badPatternRule, by simp,
      ⟨"plan", "matches", .str "[invalid"⟩, by simp [compiledSource, badPatternRule],
      ⟨rfl, Or.inr ⟨"[invalid", rfl, rfl⟩⟩⟩

/-- Witness for C28: a reload that finds the file unreadable keeps the
snapshot `new_checkout`, and a reload attempt that finds a valid file replaces
it by the snapshot `test_flag`. -/
theorem C28_snapshot_replaced_only_on_success_witness :
    (loadConfig sampleLib sampleYaml none).2 ≠ none ∧
    (reloadConfig sampleLib sampleYaml true ⟨some sampleCompiled, 0, 0⟩ startTime none
      maxErrors maxBackoff).state.compiled = some sampleCompiled ∧
    (loadConfig sampleLib sampleYaml (some [1])).2 = none ∧
    ∃ compiled, loadConfig sampleLib sampleYaml (some [1]) = (some compiled, none) ∧
      (reloadConfig sampleLib sampleYaml true ⟨some sampleCompiled, 0, 0⟩ startTime (some [1])
        maxErrors maxBackoff).state.compiled = some compiled ∧
      compiled.Flags.map Prod.fst = ["test_flag"] :=
  ⟨by decide,
    ((C28_snapshot_replaced_only_on_success sampleLib sampleYaml true
      ⟨some sampleCompiled, 0, 0⟩ startTime none).1 (by decide)).1,
    rfl,
    by
      obtain ⟨compiled, hc, hst, _⟩ :=
        (C28_snapshot_replaced_only_on_success sampleLib sampleYaml true
          ⟨some sampleCompiled, 0, 0⟩ startTime (some [1])).2.2 (by decide) rfl
      refine ⟨compiled, hc, hst, ?_⟩
      have h2 : loadConfig sampleLib sampleYaml (some [1]) = (some testCompiled, none) := rfl
      rw [h2] at hc
      cases hc
      rfl⟩

/-- Witness for C29: three seconds after the fifth failure a trigger is
skipped, whatever the file holds. -/
theorem C29_backoff_between_attempts_witness :
    Time.Sub (startTime + 3 * Second) startTime < backoffInterval 5 ∧
    reloadConfig sampleLib sampleYaml true ⟨some sampleCompiled, startTime, 5⟩
      (startTime + 3 * Second) (some [1]) maxErrors maxBackoff
      = ⟨⟨some sampleCompiled, startTime, 5⟩, false, []⟩ :=
  ⟨by decide,
    (C29_backoff_between_attempts sampleLib sampleYaml true ⟨some sampleCompiled, startTime, 5⟩
      (startTime + 3 * Second) none).1 (by decide) (some [1])⟩


/-! ### Hook invocations of a reload -/

/-- C31 (as the code has it): with a hook installed, a reload attempt that fails
and leaves the count of consecutive failures below the maximum invokes the hook
exactly once, with an empty flag key, an empty variant and the reason `Error`;
without a hook, nothing is invoked. -/
theorem C31_hook_on_failed_reload (L : Stdlib) (Y : Yaml) (s : ReloadState) (now : Time)
    (file : Option (List Nat))
    (hattempt : ¬ Time.Sub now s.lastError < backoffInterval s.errorCount)
    (hfail : (loadConfig L Y file).2 ≠ none)
    (hbelow : s.errorCount + 1 < maxErrors) :
    (reloadConfig L Y true s now file maxErrors maxBackoff).loaded = true ∧
    (reloadConfig L Y true s now file maxErrors maxBackoff).hookCalls
      = [⟨"", "", Reason.Error⟩] ∧
    (reloadConfig L Y false s now file maxErrors maxBackoff).hookCalls = [] := by
  have hnot : ¬ s.errorCount + 1 ≥ maxErrors := not_le.2 hbelow
  rw [reloadConfig_fail L Y true s now file hattempt hfail,
    reloadConfig_fail L Y false s now file hattempt hfail]
  rw [if_neg hnot, if_neg hnot]
  exact ⟨rfl, rfl, rfl⟩

/-- Counterexample to C31 as stated: after nine consecutive failures, a reload
attempt 400 seconds later that finds the file unreadable calls `loadConfig`,
fails, brings the count to 10 and invokes no hook although one is installed. -/
theorem C31_counterexample :
    (reloadConfig sampleLib sampleYaml true nineFailures (startTime + 400 * Second) none
      maxErrors maxBackoff).loaded = true ∧
    (loadConfig sampleLib sampleYaml none).2 ≠ none ∧
    (reloadConfig sampleLib sampleYaml true nineFailures (startTime + 400 * Second) none
      maxErrors maxBackoff).state.errorCount = 10 ∧
    (reloadConfig sampleLib sampleYaml true nineFailures (startTime + 400 * Second) none
      maxErrors maxBackoff).hookCalls = [] :=
  ⟨rfl, by decide, rfl, rfl⟩

/-- Witness for C31 at the first failure of a client. -/
theorem C31_hook_on_failed_reload_witness :
    (loadConfig sampleLib sampleYaml none).2 ≠ none ∧
    (reloadConfig sampleLib sampleYaml true ⟨some sampleCompiled, 0, 0⟩ startTime none
      maxErrors maxBackoff).hookCalls = [⟨"", "", Reason.Error⟩] :=
  ⟨by decide,
    (C31_hook_on_failed_reload sampleLib sampleYaml ⟨some sampleCompiled, 0, 0⟩ startTime none
      (by decide) (by decide) (by decide)).2.1⟩

/-! ### The bucket as a hash of one byte string -/

/-- The bytes that `HashFlagContext` writes to the digest are `hashInput`. -/
theorem HashFlagContext_eq (flagKey subjectKey : String) (salt : Nat) :
    HashFlagContext flagKey subjectKey salt
      = Int.ofNat (xxhash.sum64 (hashInput flagKey subjectKey salt) % 100) := by
  unfold HashFlagContext hashInput
  by_cases h : salt = 0
  · simp [h, xxhash.Digest.Sum64, xxhash.Digest.Write, xxhash.Digest.WriteString, xxhash.New]
  · simp [h, xxhash.Digest.Sum64, xxhash.Digest.Write, xxhash.Digest.WriteString, xxhash.New]

/-- The eight bytes of the salt are its digits in base 256, least significant
first. -/
theorem saltBytes_eq (salt : Nat) :
    saltBytes salt = [salt % 256, salt / 256 % 256, salt / 256 ^ 2 % 256, salt / 256 ^ 3 % 256,
      salt / 256 ^ 4 % 256, salt / 256 ^ 5 % 256, salt / 256 ^ 6 % 256, salt / 256 ^ 7 % 256] := by
  unfold saltBytes
  simp [List.range_succ, Nat.shiftRight_eq_div_pow]

theorem readLE_saltBytes (salt : Nat) (h : salt < 2 ^ 64) :
    xxhash.readLE (saltBytes salt) = salt := by
  rw [saltBytes_eq]
  simp only [xxhash.readLE, List.foldr]
  norm_num
  omega

/-- C33: `HashFlagContext` is the 64-bit xxHash of the byte string
`flagKey ++ [0x1F] ++ subjectKey ++ saltBytes` reduced modulo 100, where
`saltBytes` is empty for the salt 0 and otherwise the eight bytes of the salt,
least significant first (their little-endian value is the salt); two calls with
the same three inputs return the same result. -/
theorem C33_hash_of_concatenation (flagKey subjectKey : String) (salt : Nat) :
    HashFlagContext flagKey subjectKey salt
      = Int.ofNat (xxhash.sum64 (utf8Bytes flagKey ++ [0x1F] ++ utf8Bytes subjectKey ++
          (if salt = 0 then [] else saltBytes salt)) % 100) ∧
    (saltBytes salt).length = 8 ∧
    (∀ i : Nat, i < 8 → (saltBytes salt)[i]? = some (salt / 256 ^ i % 256)) ∧
    (salt < 2 ^ 64 → xxhash.readLE (saltBytes salt) = salt) ∧
    (∀ (flagKey2 subjectKey2 : String) (salt2 : Nat),
      flagKey2 = flagKey → subjectKey2 = subjectKey → salt2 = salt →
      HashFlagContext flagKey2 subjectKey2 salt2 = HashFlagContext flagKey subjectKey salt) := by
  refine ⟨HashFlagContext_eq flagKey subjectKey salt, ?_, ?_, readLE_saltBytes salt, ?_⟩
  · simp [saltBytes]
  · intro i hi
    rw [saltBytes_eq]
    have : i = 0 ∨ i = 1 ∨ i = 2 ∨ i = 3 ∨ i = 4 ∨ i = 5 ∨ i = 6 ∨ i = 7 := by omega
    rcases this with h | h | h | h | h | h | h | h <;> subst h <;> simp
  · intro f2 s2 salt2 h1 h2 h3
    rw [h1, h2, h3]

/-- Witness for C33 at the inputs of the test vector: the bucket of the flag
"test" and the subject "user:1" is 92, and the salt 258 is written as the bytes
2, 1, 0, 0, 0, 0, 0, 0. -/
theorem C33_hash_of_concatenation_witness :
    HashFlagContext "test" "user:1" 0 = 92 ∧
    saltBytes 258 = [2, 1, 0, 0, 0, 0, 0, 0] ∧
    xxhash.readLE (saltBytes 258) = 258 :=
  ⟨by
      rw [(C33_hash_of_concatenation "test" "user:1" 0).1]
      decide,
    by decide, (C33_hash_of_concatenation "test" "user:1" 258).2.2.2.1 (by decide)⟩

/-- C40: the bucket is a function of the concatenated byte string alone: two
triples with the same concatenation have the same bucket.  The triples
("a\x1fb", "c", 0) and ("a", "b\x1fc", 0) are such a pair, and so are a
non-zero salt and a subject key that ends with the eight bytes of that salt. -/
theorem C40_bucket_depends_on_concatenation :
    (∀ (f1 s1 f2 s2 : String) (salt1 salt2 : Nat),
      hashInput f1 s1 salt1 = hashInput f2 s2 salt2 →
      HashFlagContext f1 s1 salt1 = HashFlagContext f2 s2 salt2) ∧
    (∀ (f s : String) (salt : Nat), hashInput f s salt
      = utf8Bytes f ++ [0x1F] ++ utf8Bytes s ++ (if salt = 0 then [] else saltBytes salt)) ∧
    ("a\x1fb", "c") ≠ ("a", "b\x1fc") ∧
    hashInput "a\x1fb" "c" 0 = hashInput "a" "b\x1fc" 0 ∧
    HashFlagContext "a\x1fb" "c" 0 = HashFlagContext "a" "b\x1fc" 0 ∧
    hashInput "f" "u" 0x3837363534333231 = hashInput "f" "u12345678" 0 ∧
    HashFlagContext "f" "u" 0x3837363534333231 = HashFlagContext "f" "u12345678" 0 := by
  have hgen : ∀ (f1 s1 f2 s2 : String) (salt1 salt2 : Nat),
      hashInput f1 s1 salt1 = hashInput f2 s2 salt2 →
      HashFlagContext f1 s1 salt1 = HashFlagContext f2 s2 salt2 := by
    intro f1 s1 f2 s2 salt1 salt2 h
    rw [HashFlagContext_eq, HashFlagContext_eq, h]
  have h1 : hashInput "a\x1fb" "c" 0 = hashInput "a" "b\x1fc" 0 := by decide
  have h2 : hashInput "f" "u" 0x3837363534333231 = hashInput "f" "u12345678" 0 := by decide
  exact ⟨hgen, fun _ _ _ => rfl, by decide, h1, hgen _ _ _ _ _ _ h1, h2, hgen _ _ _ _ _ _ h2⟩


/-- Witness for C40 at the two triples that split "a", 0x1F, "b", 0x1F, "c"
differently. -/
theorem C40_bucket_depends_on_concatenation_witness :
    hashInput "a\x1fb" "c" 0 = hashInput "a" "b\x1fc" 0 ∧
    HashFlagContext "a\x1fb" "c" 0 = HashFlagContext "a" "b\x1fc" 0 :=
  ⟨by decide, C40_bucket_depends_on_concatenation.1 "a\x1fb" "c" "a" "b\x1fc" 0 0 (by decide)⟩

/-! ### Patterns of compiled conditions -/

/-- A property that every result of `compileCondition` has holds for every
condition of every result of `compileConditions`. -/
theorem compileConditions_forall (L : Stdlib) (P : CompiledCondition → Prop)
    (hP : ∀ cond isAll cc, compileCondition L cond isAll = .ok cc → P cc) (isAll : Bool)
    (cs : List AttributeCondition) :
    ∀ ccs, compileConditions L isAll cs = .ok ccs → ∀ cc ∈ ccs, P cc := by
  induction cs with
  | nil =>
    intro ccs h
    unfold compileConditions at h
    cases h
    exact fun cc hcc => absurd hcc (List.not_mem_nil cc)
  | cons c rest ih =>
    intro ccs h
    unfold compileConditions at h
    cases hc : compileCondition L c isAll with
    | error e =>
      rw [hc] at h
      cases h
    | ok cc =>
      rw [hc] at h
      simp only at h
      cases hr : compileConditions L isAll rest with
      | error e =>
        rw [hr] at h
        cases h
      | ok rs =>
        rw [hr] at h
        cases h
        intro x hx
        rcases List.mem_cons.1 hx with rfl | hx
        · exact hP c isAll _ hc
        · exact ih rs hr x hx

theorem compileRule_forall (L : Stdlib) (P : CompiledCondition → Prop)
    (hP : ∀ cond isAll cc, compileCondition L cond isAll = .ok cc → P cc) (rule : Rule)
    (cr : CompiledRule) (h : compileRule L rule = .ok cr) : ∀ cc ∈ cr.Conditions, P cc := by
  rw [compileRule_eq] at h
  cases hc : compileConditions L (decide (rule.When.All.length > 0)) (compiledSource rule) with
  | error e =>
    rw [hc] at h
    cases h
  | ok cs =>
    rw [hc] at h
    cases h
    exact compileConditions_forall L P hP _ _ cs hc

theorem compileRules_forall (L : Stdlib) (P : CompiledCondition → Prop)
    (hP : ∀ cond isAll cc, compileCondition L cond isAll = .ok cc → P cc) (rules : List Rule) :
    ∀ i crs, compileRules L rules i = .ok crs → ∀ cr ∈ crs, ∀ cc ∈ cr.Conditions, P cc := by
  induction rules with
  | nil =>
    intro i crs h
    unfold compileRules at h
    cases h
    exact fun cr hcr => absurd hcr (List.not_mem_nil cr)
  | cons r rest ih =>
    intro i crs h
    unfold compileRules at h
    cases hc : compileRule L r with
    | error e =>
      rw [hc] at h
      cases h
    | ok cr =>
      rw [hc] at h
      simp only at h
      cases hr : compileRules L rest (i + 1) with
      | error e =>
        rw [hr] at h
        cases h
      | ok rs =>
        rw [hr] at h
        cases h
        intro x hx
        rcases List.mem_cons.1 hx with rfl | hx
        · exact compileRule_forall L P hP r _ hc
        · exact ih (i + 1) rs hr x hx

theorem compileFlags_forall (L : Stdlib) (P : CompiledCondition → Prop)
    (hP : ∀ cond isAll cc, compileCondition L cond isAll = .ok cc → P cc)
    (flags : List (String × Flag)) :
    ∀ cfs, compileFlags L flags = .ok cfs →
      ∀ kc ∈ cfs, ∀ cr ∈ kc.2.Rules, ∀ cc ∈ cr.Conditions, P cc := by
  induction flags with
  | nil =>
    intro cfs h
    unfold compileFlags at h
    cases h
    exact fun kc hkc => absurd hkc (List.not_mem_nil kc)
  | cons kf rest ih =>
    obtain ⟨k, f⟩ := kf
    intro cfs h
    unfold compileFlags at h
    cases hc : compileFlag L k f with
    | error e =>
      rw [hc] at h
      cases h
    | ok cf =>
      rw [hc] at h
      simp only at h
      cases hr : compileFlags L rest with
      | error e =>
        rw [hr] at h
        cases h
      | ok rs =>
        rw [hr] at h
        cases h
        intro x hx
        rcases List.mem_cons.1 hx with rfl | hx
        · unfold compileFlag at hc
          cases hrules : compileRules L f.Rules 0 with
          | error e =>
            rw [hrules] at hc
            cases hc
          | ok crs =>
            rw [hrules] at hc
            cases hc
            exact compileRules_forall L P hP f.Rules 0 crs hrules
        · exact ih rs hr x hx

/-- The pattern of a compiled condition is present exactly for `matches`. -/
theorem compileCondition_regex (L : Stdlib) (cond : AttributeCondition) (isAll : Bool)
    (cc : CompiledCondition) (h : compileCondition L cond isAll = .ok cc) :
    (cc.Regex.isSome = true ↔ cc.Op = "matches") ∧
    (cc.Op = "matches" → ∃ p re, cc.Value = .str p ∧ L.RegexpCompile p = some re ∧
      cc.Regex = some re) := by
  unfold compileCondition at h
  by_cases hm : cond.Op = "matches"
  · rw [if_pos hm] at h
    cases hv : cond.Value with
    | str pattern =>
      rw [hv] at h
      simp only at h
      cases hr : L.RegexpCompile pattern with
      | none =>
        rw [hr] at h
        cases h
      | some regex =>
        rw [hr] at h
        cases h
        exact ⟨by simp [hm], fun _ => ⟨pattern, regex, rfl, hr, rfl⟩⟩
    | nil => rw [hv] at h; cases h
    | bool b => rw [hv] at h; cases h
    | int k n => rw [hv] at h; cases h
    | float32 f => rw [hv] at h; cases h
    | float64 f => rw [hv] at h; cases h
    | slice xs => rw [hv] at h; cases h
    | map m => rw [hv] at h; cases h
  · rw [if_neg hm] at h
    cases h
    exact ⟨by simp [hm], fun h2 => absurd h2 hm⟩

/-- C35: in every compiled configuration that `Compile` returns, a compiled
condition carries a pattern if and only if its operator is `matches`, and a
condition with any other operator carries none; the pattern of a `matches`
condition is the one compiled from its string value. -/
theorem C35_pattern_iff_matches (L : Stdlib) (c : Config) (compiled : Compiled)
    (h : Compile L (some c) = (some compiled, none)) :
    ∀ kc ∈ compiled.Flags, ∀ cr ∈ kc.2.Rules, ∀ cc ∈ cr.Conditions,
      (cc.Regex.isSome = true ↔ cc.Op = "matches") ∧
      (cc.Op ≠ "matches" → cc.Regex.isNone = true) ∧
      (cc.Op = "matches" → ∃ p re, cc.Value = .str p ∧ L.RegexpCompile p = some re ∧
        cc.Regex = some re) := by
  unfold Compile at h
  simp only at h
  cases hc : compileFlags L c.Flags with
  | error e =>
    rw [hc] at h
    cases h
  | ok cfs =>
    rw [hc] at h
    cases h
    intro kc hkc cr hcr cc hcc
    have hreg := compileFlags_forall L _
      (fun cond isAll cc h => compileCondition_regex L cond isAll cc h)
      c.Flags cfs hc kc hkc cr hcr cc hcc
    refine ⟨hreg.1, ?_, hreg.2⟩
    intro hne
    cases hx : cc.Regex with
    | none => rfl
    | some re =>
      have := hreg.1.1 (by simp [hx])
      exact absurd this hne

/-- Witness for C35 at the configuration of `TestCompile_WithRegex`, whose only
condition has the operator `matches`. -/
theorem C35_pattern_iff_matches_witness :
    Compile patternLib (some regexConfig) = (some regexCompiled, none) ∧
    ∀ kc ∈ regexCompiled.Flags, ∀ cr ∈ kc.2.Rules, ∀ cc ∈ cr.Conditions,
      (cc.Regex.isSome = true ↔ cc.Op = "matches") :=
  ⟨rfl, fun kc hkc cr hcr cc hcc =>
    (C35_pattern_iff_matches patternLib regexConfig regexCompiled rfl kc hkc cr hcr cc hcc).1⟩

/-! ### Single-key tables -/

/-- C39: `Flag.Validate` accepts a bool flag whose rule has the then-table
`{"true": 100}` and rejects, with the error that asks for both variants, the
bool flag that declares the same table as its own; more generally a bool flag
whose own non-empty table lacks "true" or "false" is rejected, whereas the
then-table of a rule is only checked for its keys, ranges and sum. -/
theorem C39_both_keys_flag_level_only (L : Stdlib) :
    singleKeyRuleFlag.Rules.map (fun r => r.Then.Variants) = [[("true", 100)]] ∧
    singleKeyRuleFlag.Validate L "test" = none ∧
    singleKeyTableFlag.Variants = [("true", 100)] ∧
    singleKeyTableFlag.Validate L "test" = some .boolNeedsBoth ∧
    (∀ (i : Nat) (rule : Rule), rule.Validate L = none →
      (rule.Then.Variants = [("true", 100)] ∨ rule.Then.Variants = [("false", 100)]) →
      validateRule L "bool" i rule = none) ∧
    (∀ (f : Flag) (flagKey : String), f.Type_ = "bool" → f.Variants ≠ [] →
      ("true" ∉ f.Variants.names ∨ "false" ∉ f.Variants.names) →
      f.Validate L flagKey ≠ none) := by
  refine ⟨rfl, rfl, rfl, rfl, ?_, ?_⟩
  · intro i rule hv ht
    unfold validateRule
    rw [hv]
    rcases ht with ht | ht <;> rw [ht] <;> rfl
  · intro f flagKey hty hne hmiss hnone
    obtain ⟨_, hb, _, _⟩ := Flag_Validate_none L f flagKey hnone
    obtain ⟨_, _, h1, h2⟩ := validateBoolFlag_none f (hb hty) hne
    rcases hmiss with hm | hm
    · exact hm h1
    · exact hm h2

/-- Witness for C39 at the flag "bool flag missing true variant" of
`TestConfigValidate`. -/
theorem C39_both_keys_flag_level_only_witness :
    missingTrueFlag.Variants = [("false", 100)] ∧
    missingTrueFlag.Validate sampleLib "test" ≠ none ∧
    validateRule sampleLib "bool" 0 anyRule = none :=
  ⟨rfl,
    (C39_both_keys_flag_level_only sampleLib).2.2.2.2.2 missingTrueFlag "test" rfl
      (by simp [missingTrueFlag]) (Or.inl (by decide)),
    (C39_both_keys_flag_level_only sampleLib).2.2.2.2.1 0 anyRule (by decide) (Or.inl rfl)⟩


/-! ### Boolean ramp-up -/

theorem sortedVariants_rampTable (t : Int) :
    sortedVariants (rampTable t) = [⟨"false", 100 - t⟩, ⟨"true", t⟩] ∧
    sortedVariants (rampTableRev t) = [⟨"false", 100 - t⟩, ⟨"true", t⟩] := by
  have h1 : strLess "false" "true" = true := by decide
  have h2 : strLess "true" "false" = false := by decide
  constructor
  · simp [sortedVariants, rampTable, sortSlice, insertVariant, h1]
  · simp [sortedVariants, rampTableRev, sortSlice, insertVariant, h2]

/-- The cumulative loop on the sorted ramp table. -/
theorem walkBool_ramp (b t : Int) (d : Bool) (h0 : 0 ≤ t) (h100 : t ≤ 100) (hb : b < 100) :
    walkBool b d [⟨"false", 100 - t⟩, ⟨"true", t⟩] 0 = (decide (100 - t ≤ b), Reason.Match) := by
  have hw1 : wrapInt (0 + (100 - t)) = 100 - t := by
    rw [zero_add]
    exact wrapInt_small _ (by omega) (by omega)
  have hw2 : wrapInt (100 - t + t) = 100 := by
    have : (100 : Int) - t + t = 100 := by omega
    rw [this]
    exact wrapInt_small _ (by omega) (by omega)
  have hne : ("false" : String) ≠ "true" := by decide
  unfold walkBool
  simp only [hw1]
  by_cases hlt : b < 100 - t
  · rw [if_pos hlt, if_neg hne]
    have : ¬ 100 - t ≤ b := by omega
    simp [this]
  · rw [if_neg hlt]
    unfold walkBool
    simp only [hw2]
    rw [if_pos hb]
    have : 100 - t ≤ b := by omega
    simp [this]

theorem selectVariantBool_ramp (flagKey subjectKey : String) (t : Int) (d : Bool)
    (h0 : 0 ≤ t) (h100 : t ≤ 100) :
    selectVariantBool flagKey subjectKey (rampTable t) d
      = (decide (100 - t ≤ HashFlagContext flagKey subjectKey 0), Reason.Match) ∧
    selectVariantBool flagKey subjectKey (rampTableRev t) d
      = (decide (100 - t ≤ HashFlagContext flagKey subjectKey 0), Reason.Match) := by
  have hb := hash_lt flagKey subjectKey 0
  constructor
  · unfold selectVariantBool
    rw [if_neg (by simp [rampTable])]
    simp only [(sortedVariants_rampTable t).1]
    exact walkBool_ramp _ t d h0 h100 hb
  · unfold selectVariantBool
    rw [if_neg (by simp [rampTableRev])]
    simp only [(sortedVariants_rampTable t).2]
    exact walkBool_ramp _ t d h0 h100 hb

/-- C37: for the table `{true: t, false: 100 - t}` with `0 ≤ t ≤ 100`, in
either order of enumeration, `selectVariantBool` returns `true` exactly when
the bucket of the subject is at least `100 - t`, with the reason `Match`;
`EvalBool` returns that result for an enabled flag with this table none of
whose rules matches; and a subject that receives `true` at the weight `t`
receives `true` at every weight `t2` with `t ≤ t2 ≤ 100`. -/
theorem C37_ramp_up_monotone (flagKey subjectKey : String) (t : Int) (d : Bool)
    (h0 : 0 ≤ t) (h100 : t ≤ 100) :
    selectVariantBool flagKey subjectKey (rampTable t) d
      = (decide (HashFlagContext flagKey subjectKey 0 ≥ 100 - t), Reason.Match) ∧
    selectVariantBool flagKey subjectKey (rampTableRev t) d
      = (decide (HashFlagContext flagKey subjectKey 0 ≥ 100 - t), Reason.Match) ∧
    (∀ (L : Stdlib) (ty : String) (rules : List CompiledRule) (flagDefault : Value)
        (ctx : Context), ctx.Key = subjectKey →
      (∀ r ∈ rules, EvalRule L r ctx = some false) →
      EvalBool L (some ⟨true, ty, rampTable t, rules, flagDefault⟩) flagKey ctx d
        = some (decide (HashFlagContext flagKey subjectKey 0 ≥ 100 - t), Reason.Match)) ∧
    (∀ t2 : Int, t ≤ t2 → t2 ≤ 100 →
      (selectVariantBool flagKey subjectKey (rampTable t) d).1 = true →
      (selectVariantBool flagKey subjectKey (rampTable t2) d).1 = true) := by
  have hsel := selectVariantBool_ramp flagKey subjectKey t d h0 h100
  refine ⟨hsel.1, hsel.2, ?_, ?_⟩
  · intro L ty rules flagDefault ctx hkey hnomatch
    unfold EvalBool
    simp only [Bool.not_true, Bool.false_eq_true, if_false]
    rw [rulesBool_none_match L flagKey ctx d rules hnomatch]
    simp only
    rw [if_pos (by simp [rampTable]), hkey, hsel.1]
  · intro t2 ht hle h
    rw [(selectVariantBool_ramp flagKey subjectKey t2 d (by omega) hle).1]
    rw [hsel.1] at h
    simp only [decide_eq_true_eq] at h ⊢
    omega

/-- Witness for C37 at the flag "test" and the subject "user:1", whose bucket
is 92: the weight 10 gives `true` (92 ≥ 90), hence so does the weight 50. -/
theorem C37_ramp_up_monotone_witness :
    selectVariantBool "test" "user:1" (rampTable 10) false = (true, Reason.Match) ∧
    (selectVariantBool "test" "user:1" (rampTable 50) false).1 = true :=
  ⟨by
      rw [(C37_ramp_up_monotone "test" "user:1" 10 false (by decide) (by decide)).1]
      decide,
    (C37_ramp_up_monotone "test" "user:1" 10 false (by decide) (by decide)).2.2.2 50
      (by decide) (by decide) (by decide)⟩

/-! ### Tables without the key "true" -/

/-- C38: for a table whose weights sum to 100 and that has no key "true",
`selectVariantBool` returns `(false, Match)` for every subject and every caller
default, and so does `EvalBool` for an enabled flag that consults the table,
as the table of the flag when no rule matches or as the table of the first
matching rule; in general `selectVariantBool` returns `true` exactly when the
name that `selectVariantString` selects is "true". -/
theorem C38_non_true_variant_is_false (flagKey : String) (t : VariantTable)
    (hsum : t.weights.sum = 100) :
    (∀ (subjectKey : String) (dB : Bool) (dS : String),
      ∃ v ∈ t.names, selectVariantString flagKey subjectKey t dS = (v, Reason.Match) ∧
        selectVariantBool flagKey subjectKey t dB = (decide (v = "true"), Reason.Match)) ∧
    ("true" ∉ t.names →
      (∀ (subjectKey : String) (d : Bool),
        selectVariantBool flagKey subjectKey t d = (false, Reason.Match)) ∧
      (∀ (L : Stdlib) (ty : String) (rules : List CompiledRule) (flagDefault : Value)
          (ctx : Context) (d : Bool), (∀ r ∈ rules, EvalRule L r ctx = some false) →
        EvalBool L (some ⟨true, ty, t, rules, flagDefault⟩) flagKey ctx d
          = some (false, Reason.Match)) ∧
      (∀ (L : Stdlib) (ty : String) (variants : VariantTable) (pre post : List CompiledRule)
          (conds : List CompiledCondition) (flagDefault : Value) (ctx : Context) (d : Bool),
        (∀ r ∈ pre, EvalRule L r ctx = some false) → EvalRule L ⟨conds, t⟩ ctx = some true →
        EvalBool L (some ⟨true, ty, variants, pre ++ ⟨conds, t⟩ :: post, flagDefault⟩)
          flagKey ctx d = some (false, Reason.Match))) := by
  have hgen : ∀ (subjectKey : String) (dB : Bool) (dS : String),
      ∃ v ∈ t.names, selectVariantString flagKey subjectKey t dS = (v, Reason.Match) ∧
        selectVariantBool flagKey subjectKey t dB = (decide (v = "true"), Reason.Match) :=
    fun subjectKey dB dS => select_match_of_sum flagKey subjectKey t dB dS hsum
  refine ⟨hgen, ?_⟩
  intro hno
  have hsel : ∀ (subjectKey : String) (d : Bool),
      selectVariantBool flagKey subjectKey t d = (false, Reason.Match) := by
    intro subjectKey d
    obtain ⟨v, hv, _, hb⟩ := hgen subjectKey d ""
    have hne : v ≠ "true" := fun h => hno (h ▸ hv)
    rw [hb]
    simp [hne]
  have hnonempty : t.length > 0 := by
    cases t with
    | nil => simp [VariantTable.weights] at hsum
    | cons e rest => simp
  refine ⟨hsel, ?_, ?_⟩
  · intro L ty rules flagDefault ctx d hnomatch
    unfold EvalBool
    simp only [Bool.not_true, Bool.false_eq_true, if_false]
    rw [rulesBool_none_match L flagKey ctx d rules hnomatch]
    simp only
    rw [if_pos hnonempty, hsel]
  · intro L ty variants pre post conds flagDefault ctx d hpre hrule
    unfold EvalBool
    simp only [Bool.not_true, Bool.false_eq_true, if_false]
    rw [rulesBool_first_match L flagKey ctx d pre ⟨conds, t⟩ post hpre hrule]
    simp only
    rw [hsel]

/-- Witness for C38 at the table of `TestEvalString_Enabled`, evaluated through
`EvalBool` with the caller default `true`. -/
theorem C38_non_true_variant_is_false_witness :
    colourTable.weights.sum = 100 ∧ "true" ∉ colourTable.names ∧
    EvalBool sampleLib (some ⟨true, "string", colourTable, [], .str "red"⟩) "theme" bareCtx true
      = some (false, Reason.Match) :=
  ⟨by decide, by decide,
    ((C38_non_true_variant_is_false "theme" colourTable (by decide)).2 (by decide)).2.1
      sampleLib "string" [] (.str "red") bareCtx true (fun r hr => absurd hr (List.not_mem_nil r))⟩


/-! ### Evaluation of validated and compiled configurations -/

theorem lookup_mem {α : Type} (k : String) (v : α) :
    ∀ l : List (String × α), l.lookup k = some v → (k, v) ∈ l := by
  intro l
  induction l with
  | nil =>
    intro h
    cases h
  | cons e rest ih =>
    obtain ⟨k2, v2⟩ := e
    intro h
    by_cases hk : k = k2
    · subst hk
      simp only [List.lookup_cons_self, Option.some.injEq] at h
      subst h
      exact List.mem_cons_self _ _
    · have hb : (k == k2) = false := by simpa using hk
      rw [List.lookup, hb] at h
      exact List.mem_cons_of_mem _ (ih h)

theorem forall2_mem_right {α β : Type} (R : α → β → Prop) :
    ∀ (l1 : List α) (l2 : List β), List.Forall₂ R l1 l2 → ∀ y ∈ l2, ∃ x ∈ l1, R x y := by
  intro l1 l2 h
  induction h with
  | nil => exact fun y hy => absurd hy (List.not_mem_nil y)
  | cons hxy _ ih =>
    intro y hy
    rcases List.mem_cons.1 hy with rfl | hy
    · exact ⟨_, List.mem_cons_self _ _, hxy⟩
    · obtain ⟨x, hx, hr⟩ := ih y hy
      exact ⟨x, List.mem_cons_of_mem _ hx, hr⟩

/-- The tables of a flag of a validated and compiled configuration: the table
of the flag, when it is not empty, and the table of each rule have weights that
sum to 100. -/
theorem compiled_tables_sum (L : Stdlib) (c : Config) (compiled : Compiled)
    (hv : c.Validate L = none) (hc : Compile L (some c) = (some compiled, none))
    (key : String) (flag : CompiledFlag) (hf : compiled.Flags.lookup key = some flag) :
    (flag.Variants ≠ [] → flag.Variants.weights.sum = 100) ∧
    (∀ rule ∈ flag.Rules, rule.Variants.weights.sum = 100) := by
  unfold Compile at hc
  simp only at hc
  cases hcf : compileFlags L c.Flags with
  | error e =>
    rw [hcf] at hc
    cases hc
  | ok cfs =>
    rw [hcf] at hc
    cases hc
    have hall := compileFlags_ok L c.Flags cfs hcf
    obtain ⟨kf, hkf, _, hagree⟩ :=
      forall2_mem_right _ _ _ hall (key, flag) (lookup_mem key flag _ hf)
    have hflags := ((Config_Validate_none_iff L c).1 hv).2.2
    have htab := Flag_Validate_tables L kf.2 kf.1 (hflags kf hkf)
    obtain ⟨_, _, _, hvar, hrules⟩ := hagree
    constructor
    · intro hne
      simp only at hvar hne
      rw [hvar] at hne ⊢
      exact (htab.1 hne).2
    · intro rule hrule
      obtain ⟨r, hr, hra⟩ := forall2_mem_right _ _ _ hrules rule hrule
      rw [hra.1]
      exact (htab.2 r hr).2

/-- The rule loop of `EvalBool` panics, or ends without a match, or returns the
selection from the table of one of the rules. -/
theorem rulesBool_cases (L : Stdlib) (flagKey : String) (ctx : Context) (d : Bool)
    (rules : List CompiledRule) :
    (rulesBool L flagKey ctx d rules = none ∧ ∃ r ∈ rules, EvalRule L r ctx = none) ∨
    rulesBool L flagKey ctx d rules = some none ∨
    ∃ r ∈ rules, rulesBool L flagKey ctx d rules
      = some (some (selectVariantBool flagKey ctx.Key r.Variants d)) := by
  induction rules with
  | nil => exact Or.inr (Or.inl rfl)
  | cons rule rest ih =>
    unfold rulesBool
    cases he : EvalRule L rule ctx with
    | none => exact Or.inl ⟨rfl, rule, List.mem_cons_self _ _, he⟩
    | some b =>
      cases b with
      | true => exact Or.inr (Or.inr ⟨rule, List.mem_cons_self _ _, rfl⟩)
      | false =>
        simp only
        rcases ih with ⟨h1, r, hr, hr2⟩ | h | ⟨r, hr, h⟩
        · exact Or.inl ⟨h1, r, List.mem_cons_of_mem _ hr, hr2⟩
        · exact Or.inr (Or.inl h)
        · exact Or.inr (Or.inr ⟨r, List.mem_cons_of_mem _ hr, h⟩)

/-- The rule loop of `EvalString` panics, or ends without a match, or returns
the selection from the table of one of the rules. -/
theorem rulesString_cases (L : Stdlib) (flagKey : String) (ctx : Context) (d : String)
    (rules : List CompiledRule) :
    (rulesString L flagKey ctx d rules = none ∧ ∃ r ∈ rules, EvalRule L r ctx = none) ∨
    rulesString L flagKey ctx d rules = some none ∨
    ∃ r ∈ rules, rulesString L flagKey ctx d rules
      = some (some (selectVariantString flagKey ctx.Key r.Variants d)) := by
  induction rules with
  | nil => exact Or.inr (Or.inl rfl)
  | cons rule rest ih =>
    unfold rulesString
    cases he : EvalRule L rule ctx with
    | none => exact Or.inl ⟨rfl, rule, List.mem_cons_self _ _, he⟩
    | some b =>
      cases b with
      | true => exact Or.inr (Or.inr ⟨rule, List.mem_cons_self _ _, rfl⟩)
      | false =>
        simp only
        rcases ih with ⟨h1, r, hr, hr2⟩ | h | ⟨r, hr, h⟩
        · exact Or.inl ⟨h1, r, List.mem_cons_of_mem _ hr, hr2⟩
        · exact Or.inr (Or.inl h)
        · exact Or.inr (Or.inr ⟨r, List.mem_cons_of_mem _ hr, h⟩)

/-- An enabled flag whose consulted tables sum to 100: `EvalBool` panics in a
rule, or returns with the reason `Match` or `Default`. -/
theorem EvalBool_reason_of_sums (L : Stdlib) (flag : CompiledFlag) (flagKey : String)
    (ctx : Context) (d : Bool) (hen : flag.Enabled = true)
    (hflag : flag.Variants ≠ [] → flag.Variants.weights.sum = 100)
    (hrules : ∀ rule ∈ flag.Rules, rule.Variants.weights.sum = 100) :
    (EvalBool L (some flag) flagKey ctx d = none ∧ ∃ r ∈ flag.Rules, EvalRule L r ctx = none) ∨
    ∃ v r, EvalBool L (some flag) flagKey ctx d = some (v, r) ∧
      (r = Reason.Match ∨ r = Reason.Default) := by
  unfold EvalBool
  simp only [hen, Bool.not_true, Bool.false_eq_true, if_false]
  rcases rulesBool_cases L flagKey ctx d flag.Rules with ⟨h, hp⟩ | h | ⟨r, hr, h⟩
  · rw [h]
    exact Or.inl ⟨rfl, hp⟩
  · rw [h]
    simp only
    by_cases hlen : flag.Variants.length > 0
    · rw [if_pos hlen]
      have hne : flag.Variants ≠ [] := List.length_pos.1 hlen
      have := (select_reason_match flagKey ctx.Key flag.Variants d "" (hflag hne)).1
      exact Or.inr ⟨_, _, rfl, Or.inl this⟩
    · rw [if_neg hlen]
      cases flag.Default <;> exact Or.inr ⟨_, _, rfl, Or.inr rfl⟩
  · rw [h]
    have := (select_reason_match flagKey ctx.Key r.Variants d "" (hrules r hr)).1
    exact Or.inr ⟨_, _, rfl, Or.inl this⟩

/-- The same for `EvalString`. -/
theorem EvalString_reason_of_sums (L : Stdlib) (flag : CompiledFlag) (flagKey : String)
    (ctx : Context) (d : String) (hen : flag.Enabled = true)
    (hflag : flag.Variants ≠ [] → flag.Variants.weights.sum = 100)
    (hrules : ∀ rule ∈ flag.Rules, rule.Variants.weights.sum = 100) :
    (EvalString L (some flag) flagKey ctx d = none ∧
      ∃ r ∈ flag.Rules, EvalRule L r ctx = none) ∨
    ∃ v r, EvalString L (some flag) flagKey ctx d = some (v, r) ∧
      (r = Reason.Match ∨ r = Reason.Default) := by
  unfold EvalString
  simp only [hen, Bool.not_true, Bool.false_eq_true, if_false]
  rcases rulesString_cases L flagKey ctx d flag.Rules with ⟨h, hp⟩ | h | ⟨r, hr, h⟩
  · rw [h]
    exact Or.inl ⟨rfl, hp⟩
  · rw [h]
    simp only
    by_cases hlen : flag.Variants.length > 0
    · rw [if_pos hlen]
      have hne : flag.Variants ≠ [] := List.length_pos.1 hlen
      have := (select_reason_match flagKey ctx.Key flag.Variants false d (hflag hne)).2
      exact Or.inr ⟨_, _, rfl, Or.inl this⟩
    · rw [if_neg hlen]
      cases flag.Default <;> exact Or.inr ⟨_, _, rfl, Or.inr rfl⟩
  · rw [h]
    have := (select_reason_match flagKey ctx.Key r.Variants false d (hrules r hr)).2
    exact Or.inr ⟨_, _, rfl, Or.inl this⟩

/-- For an enabled flag of a configuration that `Config.Validate` accepts and
`Compile` compiles, every result that `EvalBool` or `EvalString` returns has
the reason `Match` or `Default`, never `Percent`, and they return a result
unless the evaluation of a rule panics; every table that can be consulted (the
flag's own table when it is not empty, the table of any rule) yields a name of
that table with the reason `Match`, so the fallback of the weighted selection
is not reached. -/
theorem validated_flag_reason (L : Stdlib) (c : Config) (compiled : Compiled)
    (hv : c.Validate L = none) (hc : Compile L (some c) = (some compiled, none))
    (key : String) (flag : CompiledFlag) (hf : compiled.Flags.lookup key = some flag)
    (hen : flag.Enabled = true) (ctx : Context) (dB : Bool) (dS : String) :
    (∀ v r, EvalBool L (some flag) key ctx dB = some (v, r) →
      (r = Reason.Match ∨ r = Reason.Default) ∧ r ≠ Reason.Percent) ∧
    (∀ v r, EvalString L (some flag) key ctx dS = some (v, r) →
      (r = Reason.Match ∨ r = Reason.Default) ∧ r ≠ Reason.Percent) ∧
    ((∀ rule ∈ flag.Rules, EvalRule L rule ctx ≠ none) →
      (∃ v r, EvalBool L (some flag) key ctx dB = some (v, r)) ∧
      (∃ v r, EvalString L (some flag) key ctx dS = some (v, r))) ∧
    (flag.Variants ≠ [] →
      ∃ name ∈ flag.Variants.names,
        selectVariantString key ctx.Key flag.Variants dS = (name, Reason.Match) ∧
        selectVariantBool key ctx.Key flag.Variants dB
          = (decide (name = "true"), Reason.Match)) ∧
    (∀ rule ∈ flag.Rules,
      ∃ name ∈ rule.Variants.names,
        selectVariantString key ctx.Key rule.Variants dS = (name, Reason.Match) ∧
        selectVariantBool key ctx.Key rule.Variants dB
          = (decide (name = "true"), Reason.Match)) := by
  obtain ⟨hflag, hrules⟩ := compiled_tables_sum L c compiled hv hc key flag hf
  have hB := EvalBool_reason_of_sums L flag key ctx dB hen hflag hrules
  have hS := EvalString_reason_of_sums L flag key ctx dS hen hflag hrules
  refine ⟨?_, ?_, ?_, ?_, ?_⟩
  · intro v r h
    rcases hB with ⟨hnone, _⟩ | ⟨v2, r2, h2, hr2⟩
    · rw [hnone] at h
      cases h
    · rw [h2] at h
      cases h
      refine ⟨hr2, ?_⟩
      rcases hr2 with h3 | h3 <;> rw [h3] <;> decide
  · intro v r h
    rcases hS with ⟨hnone, _⟩ | ⟨v2, r2, h2, hr2⟩
    · rw [hnone] at h
      cases h
    · rw [h2] at h
      cases h
      refine ⟨hr2, ?_⟩
      rcases hr2 with h3 | h3 <;> rw [h3] <;> decide
  · intro hnp
    constructor
    · rcases hB with ⟨_, r, hr, hnone⟩ | ⟨v2, r2, h2, _⟩
      · exact absurd hnone (hnp r hr)
      · exact ⟨v2, r2, h2⟩
    · rcases hS with ⟨_, r, hr, hnone⟩ | ⟨v2, r2, h2, _⟩
      · exact absurd hnone (hnp r hr)
      · exact ⟨v2, r2, h2⟩
  · intro hne
    exact select_match_of_sum key ctx.Key flag.Variants dB dS (hflag hne)
  · intro rule hrule
    exact select_match_of_sum key ctx.Key rule.Variants dB dS (hrules rule hrule)

/-- C36 (the code departs from it): the configuration `tagsConfig` is accepted
by `Config.Validate` and compiled by `Compile`, its flag is enabled, and for a
subject whose attribute `tags` is the sequence `[beta]` the evaluation returns
no reason at all: the condition of the rule compares a sequence with a sequence
and panics, in `EvalBool`, in `EvalString` and in the client. -/
theorem C36_panic_in_validated_config :
    tagsConfig.Validate sampleLib = none ∧
    Compile sampleLib (some tagsConfig) = (some tagsCompiled, none) ∧
    tagsCompiled.Flags.lookup "beta_flag" = some tagsCompiledFlag ∧
    tagsCompiledFlag.Enabled = true ∧
    EvalBool sampleLib (some tagsCompiledFlag) "beta_flag" tagsCtx false = none ∧
    EvalString sampleLib (some tagsCompiledFlag) "beta_flag" tagsCtx "off" = none ∧
    client.Boolean sampleLib ⟨some tagsCompiled, false⟩ "beta_flag" tagsCtx false = none := by
  refine ⟨by decide, rfl, rfl, rfl, by decide, by decide, by decide⟩

/-! ### Comparison of integers -/

theorem bitLen_le (fuel : Nat) : ∀ a k : Nat, a < 2 ^ k → F64.bitLen fuel a ≤ k := by
  induction fuel with
  | zero =>
    intro a k _
    simp [F64.bitLen]
  | succ f ih =>
    intro a k h
    unfold F64.bitLen
    by_cases ha : a = 0
    · rw [if_pos ha]
      exact Nat.zero_le _
    · rw [if_neg ha]
      cases k with
      | zero =>
        simp at h
        exact absurd h ha
      | succ k2 =>
        have h2 : a / 2 < 2 ^ k2 := by
          rw [pow_succ] at h
          omega
        have := ih (a / 2) k2 h2
        omega

theorem bitLen_ge (fuel : Nat) : ∀ a k : Nat, a ≤ fuel → 2 ^ k ≤ a → k + 1 ≤ F64.bitLen fuel a := by
  induction fuel with
  | zero =>
    intro a k ha h
    have : 0 < 2 ^ k := Nat.two_pow_pos _
    omega
  | succ f ih =>
    intro a k ha h
    have hpos : 0 < 2 ^ k := Nat.two_pow_pos _
    have hne : a ≠ 0 := by omega
    unfold F64.bitLen
    rw [if_neg hne]
    cases k with
    | zero => omega
    | succ k2 =>
      rw [pow_succ] at h
      have hpos2 : 0 < 2 ^ k2 := Nat.two_pow_pos _
      have h2 : 2 ^ k2 ≤ a / 2 := by omega
      have h3 : a / 2 ≤ f := by omega
      have := ih (a / 2) k2 h3 h2
      omega

/-- The conversion of an integer of magnitude at most `2^53` is exact. -/
theorem ofInt_exact (n : Int) (h : n.natAbs ≤ 2 ^ 53) :
    ∃ m e : Nat, F64.ofInt n = F64.fin (decide (n < 0)) m (Int.ofNat e) ∧
      m * 2 ^ e = n.natAbs := by
  by_cases hlt : n.natAbs < 2 ^ 53
  · refine ⟨n.natAbs, 0, ?_, by simp⟩
    unfold F64.ofInt
    simp only
    rw [if_pos (bitLen_le _ _ _ hlt)]
    rfl
  · have ha : n.natAbs = 2 ^ 53 := by omega
    have hbits : F64.bitLen n.natAbs n.natAbs = 54 := by
      have h1 := bitLen_le n.natAbs n.natAbs 54 (by rw [ha]; norm_num)
      have h2 := bitLen_ge n.natAbs n.natAbs 53 (le_refl _) (by rw [ha])
      omega
    refine ⟨2 ^ 52, 1, ?_, by rw [ha]; norm_num⟩
    unfold F64.ofInt
    simp only [hbits]
    rw [ha]
    norm_num [Nat.shiftRight_eq_div_pow]

theorem scaled_mul (neg : Bool) (m e base : Nat) (hb : base ≤ e) :
    F64.scaled neg m (Int.ofNat e) (Int.ofNat base) * 2 ^ base
      = (if neg then -1 else 1) * ((m : Int) * 2 ^ e) := by
  unfold F64.scaled
  have hsub : ((e : Int) - (base : Int)).toNat = e - base := by omega
  have hpow : (2 : Int) ^ (e - base) * 2 ^ base = 2 ^ e := by
    rw [← pow_add, Nat.sub_add_cancel hb]
  simp only [Int.ofNat_eq_coe, hsub]
  push_cast
  cases neg
  · simp only [Bool.false_eq_true, if_false, one_mul]
    rw [mul_assoc, hpow]
  · simp only [if_true]
    rw [neg_mul, mul_assoc, hpow]
    ring

theorem sign_mul_natAbs (n : Int) :
    (if decide (n < 0) = true then (-1 : Int) else 1) * ((n.natAbs : Nat) : Int) = n := by
  by_cases h : n < 0
  · simp only [h, decide_True, if_true]
    omega
  · simp only [h, decide_False, Bool.false_eq_true, if_false]
    omega

/-- The scaled integers that `F64.eq` and `F64.lt` compare, for two exactly
converted integers, are the integers divided by a common power of two. -/
theorem scaled_ofInt (a b : Int) (ha : a.natAbs ≤ 2 ^ 53) (hb : b.natAbs ≤ 2 ^ 53) :
    ∃ (n1 n2 : Bool) (m1 m2 : Nat) (e1 e2 : Int) (p : Nat),
      F64.ofInt a = F64.fin n1 m1 e1 ∧ F64.ofInt b = F64.fin n2 m2 e2 ∧
      F64.scaled n1 m1 e1 (min e1 e2) * 2 ^ p = a ∧
      F64.scaled n2 m2 e2 (min e1 e2) * 2 ^ p = b := by
  obtain ⟨m1, e1, h1, v1⟩ := ofInt_exact a ha
  obtain ⟨m2, e2, h2, v2⟩ := ofInt_exact b hb
  refine ⟨_, _, m1, m2, _, _, min e1 e2, h1, h2, ?_, ?_⟩
  · have hmin : min (Int.ofNat e1) (Int.ofNat e2) = Int.ofNat (min e1 e2) := by
      simp only [Int.ofNat_eq_coe]
      omega
    rw [hmin, scaled_mul _ m1 e1 (min e1 e2) (Nat.min_le_left _ _)]
    have : (m1 : Int) * 2 ^ e1 = ((a.natAbs : Nat) : Int) := by
      rw [← v1]
      push_cast
      rfl
    rw [this]
    exact sign_mul_natAbs a
  · have hmin : min (Int.ofNat e1) (Int.ofNat e2) = Int.ofNat (min e1 e2) := by
      simp only [Int.ofNat_eq_coe]
      omega
    rw [hmin, scaled_mul _ m2 e2 (min e1 e2) (Nat.min_le_right _ _)]
    have : (m2 : Int) * 2 ^ e2 = ((b.natAbs : Nat) : Int) := by
      rw [← v2]
      push_cast
      rfl
    rw [this]
    exact sign_mul_natAbs b

theorem F64_eq_ofInt (a b : Int) (ha : a.natAbs ≤ 2 ^ 53) (hb : b.natAbs ≤ 2 ^ 53) :
    F64.eq (F64.ofInt a) (F64.ofInt b) = decide (a = b) := by
  obtain ⟨n1, n2, m1, m2, e1, e2, p, h1, h2, v1, v2⟩ := scaled_ofInt a b ha hb
  rw [h1, h2]
  unfold F64.eq
  have hp : (0 : Int) < 2 ^ p := by positivity
  have hiff : F64.scaled n1 m1 e1 (min e1 e2) = F64.scaled n2 m2 e2 (min e1 e2) ↔ a = b := by
    rw [← v1, ← v2]
    constructor
    · intro h
      rw [h]
    · intro h
      exact Int.eq_of_mul_eq_mul_right (ne_of_gt hp) h
  exact decide_eq_decide.2 hiff

theorem F64_lt_ofInt (a b : Int) (ha : a.natAbs ≤ 2 ^ 53) (hb : b.natAbs ≤ 2 ^ 53) :
    F64.lt (F64.ofInt a) (F64.ofInt b) = decide (a < b) := by
  obtain ⟨n1, n2, m1, m2, e1, e2, p, h1, h2, v1, v2⟩ := scaled_ofInt a b ha hb
  rw [h1, h2]
  unfold F64.lt
  have hp : (0 : Int) < 2 ^ p := by positivity
  have hiff : F64.scaled n1 m1 e1 (min e1 e2) < F64.scaled n2 m2 e2 (min e1 e2) ↔ a < b := by
    rw [← v1, ← v2]
    exact (mul_lt_mul_right hp).symm
  exact decide_eq_decide.2 hiff


theorem compare_ints (L : Stdlib) (k j : IntKind) (a b : Int) (allowed : List Int)
    (ha : a.natAbs ≤ 2 ^ 53) (hb : b.natAbs ≤ 2 ^ 53) :
    compare L (.int k a) (.int j b) allowed
      = (allowed.any (fun r => decide ((if b < a then 1 else if a < b then -1 else 0) = r)),
          none) := by
  unfold compare
  simp only [toFloat64, Bool.not_true, Bool.or_self, Bool.false_eq_true, if_false]
  simp only [F64_lt_ofInt b a hb ha, F64_lt_ofInt a b ha hb, decide_eq_true_eq]

theorem eq_ints (L : Stdlib) (k j : IntKind) (a b : Int)
    (ha : a.natAbs ≤ 2 ^ 53) (hb : b.natAbs ≤ 2 ^ 53) :
    eq L (.int k a) (.int j b) = some (decide (a = b), none) := by
  unfold eq
  simp only [ifaceEq]
  by_cases hd : (decide (k = j) && decide (a = b)) = true
  · rw [hd]
    simp only [Bool.and_eq_true, decide_eq_true_eq] at hd
    simp [hd.2]
  · have hf : (decide (k = j) && decide (a = b)) = false := by simpa using hd
    rw [hf]
    simp only [toFloat64, Bool.and_self, if_true]
    rw [F64_eq_ofInt a b ha hb]

/-- C34 (as the code has it): for integer operands of any integer types whose
magnitudes do not exceed `2^53`, `EvalOperator` returns no error and decides
`eq`, `gt`, `gte`, `lt` and `lte` as the relations `=`, `>`, `≥`, `<` and `≤` on
the integers. -/
theorem C34_integer_comparisons (L : Stdlib) (k j : IntKind) (a b : Int) (re : Option Regexp)
    (ha : a.natAbs ≤ 2 ^ 53) (hb : b.natAbs ≤ 2 ^ 53) :
    EvalOperator L (.int k a) "eq" (.int j b) re = some (decide (a = b), none) ∧
    EvalOperator L (.int k a) "gt" (.int j b) re = some (decide (a > b), none) ∧
    EvalOperator L (.int k a) "gte" (.int j b) re = some (decide (a ≥ b), none) ∧
    EvalOperator L (.int k a) "lt" (.int j b) re = some (decide (a < b), none) ∧
    EvalOperator L (.int k a) "lte" (.int j b) re = some (decide (a ≤ b), none) := by
  have hcmp := compare_ints L k j a b
  refine ⟨?_, ?_, ?_, ?_, ?_⟩
  · rw [EvalOperator_eq]
    exact eq_ints L k j a b ha hb
  · have : EvalOperator L (.int k a) "gt" (.int j b) re
        = some (compare L (.int k a) (.int j b) [1]) := by
      unfold EvalOperator
      simp
    rw [this, hcmp [1] ha hb]
    by_cases h1 : b < a
    · simp [h1]
    · by_cases h2 : a < b
      · have h3 : ¬ a > b := h1
        simp [h1, h2]
      · simp [h1, h2]
  · have : EvalOperator L (.int k a) "gte" (.int j b) re
        = some (compare L (.int k a) (.int j b) [0, 1]) := by
      unfold EvalOperator
      simp
    rw [this, hcmp [0, 1] ha hb]
    by_cases h1 : b < a
    · have h3 : b ≤ a := le_of_lt h1
      simp [h1, h3]
    · by_cases h2 : a < b
      · simp [h1, h2]
      · have h3 : b ≤ a := not_lt.1 h2
        simp [h1, h2, h3]
  · have : EvalOperator L (.int k a) "lt" (.int j b) re
        = some (compare L (.int k a) (.int j b) [-1]) := by
      unfold EvalOperator
      simp
    rw [this, hcmp [-1] ha hb]
    by_cases h1 : b < a
    · have h3 : ¬ a < b := not_lt.2 (le_of_lt h1)
      simp [h1, h3]
    · by_cases h2 : a < b
      · simp [h1, h2]
      · simp [h1, h2]
  · have : EvalOperator L (.int k a) "lte" (.int j b) re
        = some (compare L (.int k a) (.int j b) [-1, 0]) := by
      unfold EvalOperator
      simp
    rw [this, hcmp [-1, 0] ha hb]
    by_cases h1 : b < a
    · have h3 : ¬ a ≤ b := not_le.2 h1
      simp [h1, h3]
    · by_cases h2 : a < b
      · have h3 : a ≤ b := le_of_lt h2
        simp [h1, h2, h3]
      · have h3 : a ≤ b := not_lt.1 h1
        simp [h1, h2, h3]

/-- Counterexample to C34 as stated: the `int64` values `2^53 + 1` and `2^53`
are different, and the first is the greater, yet both convert to the same
`float64`, so `eq` answers true and `gt` answers false. -/
theorem C34_counterexample :
    ((2 : Int) ^ 53 + 1 ≠ 2 ^ 53) ∧ ((2 : Int) ^ 53 + 1 > 2 ^ 53) ∧
    (2 : Int) ^ 53 + 1 < 2 ^ 63 ∧
    F64.ofInt (2 ^ 53 + 1) = F64.ofInt (2 ^ 53) ∧
    EvalOperator sampleLib (.int .int64 (2 ^ 53 + 1)) "eq" (.int .int64 (2 ^ 53)) none
      = some (true, none) ∧
    EvalOperator sampleLib (.int .int64 (2 ^ 53 + 1)) "gt" (.int .int64 (2 ^ 53)) none
      = some (false, none) := by
  refine ⟨by decide, by decide, by decide, ?_, ?_, ?_⟩ <;> decide

/-- Witness for C34 at the operands of `TestEvalOperator_gt`, of two different
integer types. -/
theorem C34_integer_comparisons_witness :
    EvalOperator sampleLib (.int .int 10) "gt" (.int .int64 5) none = some (true, none) ∧
    EvalOperator sampleLib (.int .int 5) "eq" (.int .int64 5) none = some (true, none) :=
  ⟨(C34_integer_comparisons sampleLib .int .int64 10 5 none (by decide) (by decide)).2.1,
    (C34_integer_comparisons sampleLib .int .int64 5 5 none (by decide) (by decide)).1⟩

end Goff
